import Mathlib

/-!
Verification of the regex-driven lexical scanner generator.

The Rust source is embedded shallowly:
* `HashMap<K, V>` becomes an association list with overwriting insertion
  (`hmInsert` / `List.lookup`); `len` is the list length (keys stay distinct).
* `Vec` used as a stack is a `List` whose head models the vector's end
  (`push` is `cons`, `pop` takes the head).
* Rust panics (indexing a missing key or an out-of-range position,
  `unwrap` on `None`, explicit `panic!`) are modelled as `Option.none`;
  every fallible embedded function returns an `Option`.
* `Vec::sort` followed by `Vec::dedup` (which drops consecutive duplicates,
  hence on a sorted vector all duplicates) is `sortDedup`.
* Unbounded `while` loops are given an explicit fuel argument or a
  well-founded measure, as noted at each definition.
-/

namespace Compiler

/-- Overwriting insertion into an association list: models `HashMap::insert`.
The new binding replaces any previous binding of the same key. -/
def hmInsert [DecidableEq α] (m : List (α × β)) (k : α) (v : β) : List (α × β) :=
  (k, v) :: m.filter (fun p => decide (p.1 ≠ k))

/-- Builds a `HashMap` from an iterator of pairs: models `HashMap::from_iter`
(a later binding overwrites an earlier one). -/
def hmOfList [DecidableEq α] (l : List (α × β)) : List (α × β) :=
  l.foldl (fun m p => hmInsert m p.1 p.2) []

/-- `Vec::sort` followed by `Vec::dedup` (consecutive-duplicate removal,
which on the sorted vector removes all duplicates). -/
def sortDedup (l : List Nat) : List Nat :=
  (l.insertionSort (· ≤ ·)).dedup

/-! ## src/nfa.rs : the NFA data model -/

/-- `struct Nfa` from src/nfa.rs. -/
structure Nfa where
  marks : List Nat
  transition : List (List (Option (List Nat)))
  symbolsTable : List (Char × Nat)
deriving DecidableEq, Repr

/-- `Nfa::new` from src/nfa.rs. -/
def Nfa.new (transition : List (List (Option (List Nat)))) (marks : List Nat)
    (alphabet : List Char) : Nfa :=
  { marks := marks, transition := transition
    symbolsTable := hmOfList (alphabet.enum.map (fun p => (p.2, p.1))) }

/-- Number of `false` entries of the visited-flags vector: the well-founded
measure for the DFS loop of `Nfa::empty_closure`. -/
def falseCount (l : List Bool) : Nat := l.countP (fun b => !b)

/-- An upper bound on the number of states any single ε cell of the table
can push: the largest ε-cell length. -/
def epsBound (trans : List (List (Option (List Nat)))) (epsIdx : Nat) : Nat :=
  (trans.map (fun row => (((row.get? epsIdx).getD none).getD []).length)).foldr max 0

/-- The loop measure for the DFS of `Nfa::empty_closure`: it strictly
decreases on every iteration, so running the loop with this much gas never
exhausts it (`ecLoopG_measure` below). -/
def ecMeasure (trans : List (List (Option (List Nat)))) (epsIdx : Nat)
    (closure : List Bool) (stack : List Nat) : Nat :=
  stack.length + falseCount closure * (epsBound trans epsIdx + 1)

/-- The `loop` inside `Nfa::empty_closure` (src/nfa.rs, lines 65-81).
`closure` is the visited-flags vector, `stack` the DFS stack (head = vector
end).  The recursion is structural on `gas`; `Nfa.emptyClosure` passes
`ecMeasure`, which the loop never exhausts.  Returns `none` for the
initial-empty-stack early return, for a Rust panic (out-of-range state
index), and on gas exhaustion (unreachable from `Nfa.emptyClosure`). -/
def ecLoopG (trans : List (List (Option (List Nat)))) (epsIdx : Nat) (gas : Nat)
    (closure : List Bool) (stack : List Nat) : Option (List Bool) :=
  match stack with
  | [] => none
  | c :: rest =>
    match gas with
    | 0 => none
    | gas + 1 =>
      if c < closure.length then
        if closure.getD c false then
          if rest.isEmpty then some closure else ecLoopG trans epsIdx gas closure rest
        else
          match trans.get? c with
          | none => none
          | some row =>
            match row.get? epsIdx with
            | none => none
            | some cell =>
              let pushes := (cell.getD []).filter (fun x => !(closure.getD x false))
              let stack' := pushes.reverse ++ rest
              let closure' := closure.set c true
              if stack'.isEmpty then some closure'
              else ecLoopG trans epsIdx gas closure' stack'
      else none

/-- `Nfa::empty_closure` from src/nfa.rs.  The outer `Option` models a Rust
panic, the inner one the function's own `Option` result (`None` exactly when
the input set is empty, via the `?` on the first pop). -/
def Nfa.emptyClosure (nfa : Nfa) (states : List Nat) : Option (Option (List Nat)) :=
  match nfa.transition.get? 0 with
  | none => none
  | some row0 =>
    let epsIdx := row0.length - 1
    let targetStack := (sortDedup states).reverse
    match targetStack with
    | [] => some none
    | _ :: _ =>
      let closure0 := List.replicate nfa.transition.length false
      match ecLoopG nfa.transition epsIdx
          (ecMeasure nfa.transition epsIdx closure0 targetStack) closure0 targetStack with
      | none => none
      | some closure =>
        some (some ((closure.enum.filter (fun p => p.2)).map (fun p => p.1)))

/-! ## src/nfa.rs : NfaFragment, the postfix translator and Thompson construction -/

/-- `NfaFragment::OPERATORS`, in order of lower to higher precedence. -/
def OPERATORS : List Char := [')', '(', '|', '+', '*']

/-- `OPERATORS.contains(c)`. -/
def isOp (c : Char) : Bool := OPERATORS.contains c

/-- `NfaFragment::prec`: position of the operator in `OPERATORS`
(the `unwrap` panic is `none`). -/
def prec (c : Char) : Option Nat := OPERATORS.findIdx? (· = c)

/-- State of the concatenation-insertion pass (phase 1 of
`NfaFragment::regex_to_postfix`). -/
structure P1St where
  prevTerm : Bool
  escape : Bool
  tokens : List Char
deriving Repr

/-- One iteration of the concatenation-insertion loop
(src/nfa.rs, lines 165-182), translated statement by statement. -/
def insertConcatStep (st : P1St) (token : Char) : P1St :=
  let tokenIsOp := isOp token
  if !st.escape then
    let escape' := token = '\\'
    let tokens' := if st.prevTerm && (token = '(' || !tokenIsOp)
      then st.tokens ++ ['+'] else st.tokens
    let prevTerm' := (token = ')' || token = '*') || !tokenIsOp
    { prevTerm := prevTerm', escape := escape', tokens := tokens' ++ [token] }
  else
    { st with tokens := st.tokens ++ [token] }

/-- Phase 1 of `regex_to_postfix`: the token list with `+` (concatenation)
inserted between consecutive terms. -/
def insertConcat (regex : List Char) : List Char :=
  (regex.foldl insertConcatStep ⟨false, false, []⟩).tokens

/-- The inner `while` of the `')'` case of the Shunting-Yard loop: pop
operators to the output until the matching `'('` (discarded); popping an
empty stack is the `panic!("Couldn't find matching parenthesis")`. -/
def popUntilParen (post : List Char) (top : Char) (ops : List Char) :
    Option (List Char × List Char) :=
  if top = '(' then some (post, ops)
  else
    match ops with
    | [] => none
    | t :: rest => popUntilParen (post ++ [top]) t rest

/-- The `while` of the generic-operator case of the Shunting-Yard loop: pop
operators of precedence `≥ p` to the output. -/
def popGE (post : List Char) (ops : List Char) (p : Nat) :
    Option (List Char × List Char) :=
  match ops with
  | [] => some (post, [])
  | top :: rest =>
    match prec top with
    | none => none
    | some pt => if pt ≥ p then popGE (post ++ [top]) rest p else some (post, ops)

/-- One iteration of the Shunting-Yard loop (phase 2 of `regex_to_postfix`,
src/nfa.rs lines 187-224).  State: (postfix output, operator stack with head
= top, escape flag). -/
def syStep (st : List Char × List Char × Bool) (token : Char) :
    Option (List Char × List Char × Bool) :=
  let (post, ops, esc) := st
  if esc then some (post ++ [token], ops, false)
  else
    let esc' := token = '\\'
    if isOp token then
      match prec token with
      | none => none
      | some p =>
        if token = '(' then some (post, token :: ops, esc')
        else if token = ')' then
          match ops with
          | [] => none
          | top :: rest => (popUntilParen post top rest).map (fun q => (q.1, q.2, esc'))
        else
          (popGE post ops p).map (fun q => (q.1, token :: q.2, esc'))
    else some (post ++ [token], ops, esc')

/-- `NfaFragment::regex_to_postfix`: concatenation insertion, Shunting-Yard,
then the final flush of the operator stack onto the output. -/
def regexToPostfix (regex : List Char) : Option (List Char) := do
  let tokenList := insertConcat regex
  let (post, ops, _) ← tokenList.foldlM syStep ([], [], false)
  return post ++ ops

/-- `struct NfaFragment` from src/nfa.rs: an open partial NFA with a single
dangling out edge `(state, out_symbol)`. -/
structure NfaFragment where
  transition : List (List (Option (List Nat)))
  out : Nat × Option Nat
deriving DecidableEq, Repr

/-- Appending a target to cell `(i, j)` of a transition table:
`if let Some(states) = cell { states.push(tgt) } else { cell = Some(vec![tgt]) }`,
with `none` for the out-of-range panic. -/
def tableAdd (t : List (List (Option (List Nat)))) (i j tgt : Nat) :
    Option (List (List (Option (List Nat)))) :=
  match t.get? i with
  | none => none
  | some row =>
    match row.get? j with
    | none => none
    | some cell => some (t.set i (row.set j (some ((cell.getD []) ++ [tgt]))))

/-- `NfaFragment::shifted`: add `shift` to every target state index and to
the dangling-out state. -/
def NfaFragment.shifted (f : NfaFragment) (shift : Nat) : NfaFragment :=
  { transition := f.transition.map (fun state =>
      state.map (fun cell => cell.map (fun states => states.map (· + shift))))
    out := (f.out.1 + shift, f.out.2) }

/-- `NfaFragment::symbol`: a one-state fragment whose dangling edge reads the
symbol; `none` when the symbol is not in the alphabet (the `panic!`). -/
def NfaFragment.symbol (c : Char) (alphabet : List Char) : Option NfaFragment :=
  let transition := [List.replicate (alphabet.length + 1) (none : Option (List Nat))]
  match alphabet.findIdx? (· = c) with
  | some index => some ⟨transition, (0, some index)⟩
  | none => none

/-- `NfaFragment::epsilon`: a one-state fragment with a dangling ε edge. -/
def NfaFragment.epsilon (alphabet : List Char) : NfaFragment :=
  ⟨[List.replicate (alphabet.length + 1) (none : Option (List Nat))], (0, none)⟩

/-- `NfaFragment::concatenate`. -/
def NfaFragment.concatenate (a b : NfaFragment) : Option NfaFragment := do
  let aNumStates := a.transition.length
  let row0 ← a.transition.head?
  let extendedAlphabetSize := row0.length
  let b' := b.shifted aNumStates
  let transition := a.transition ++ b'.transition
  let outSymbolIndex := a.out.2.getD (extendedAlphabetSize - 1)
  let transition ← tableAdd transition a.out.1 outSymbolIndex aNumStates
  return ⟨transition, b'.out⟩

/-- `NfaFragment::union`: new start state 0 with ε edges to both shifted
fragments, new terminal state wired from both dangling outs. -/
def NfaFragment.funion (a b : NfaFragment) : Option NfaFragment := do
  let aNumStates := a.transition.length
  let row0 ← a.transition.head?
  let epsilonIndex := row0.length - 1
  let alphabetSize := epsilonIndex
  let a' := a.shifted 1
  let b' := b.shifted (1 + aNumStates)
  let transition :=
    [(List.replicate (alphabetSize + 1) (none : Option (List Nat))).set epsilonIndex
        (some [1, 1 + aNumStates])]
      ++ a'.transition ++ b'.transition
      ++ [List.replicate (alphabetSize + 1) (none : Option (List Nat))]
  let newOutStateIndex := transition.length - 1
  let transition ← tableAdd transition a'.out.1 (a'.out.2.getD epsilonIndex) newOutStateIndex
  let transition ← tableAdd transition b'.out.1 (b'.out.2.getD epsilonIndex) newOutStateIndex
  return ⟨transition, (newOutStateIndex, none)⟩

/-- `NfaFragment::star`: new start state 0 with an ε edge to the shifted
fragment, dangling out looped back to state 0. -/
def NfaFragment.star (old : NfaFragment) : Option NfaFragment := do
  let row0 ← old.transition.head?
  let extendedAlphabetSize := row0.length
  let old' := old.shifted 1
  let epsilonIndex := extendedAlphabetSize - 1
  let transition :=
    ((List.replicate extendedAlphabetSize (none : Option (List Nat))).set epsilonIndex
        (some [1])) :: old'.transition
  let outSymbol := old'.out.2.getD epsilonIndex
  let transition ← tableAdd transition old'.out.1 outSymbol 0
  return ⟨transition, (0, none)⟩

/-- One iteration of the postfix-evaluation loop of `NfaFragment::from_regex`
(src/nfa.rs, lines 239-274).  State: (fragment stack with head = top,
escape flag); `none` for the `unwrap` panics and the catch-all `panic!()`. -/
def fragStep (alphabet : List Char) (st : List NfaFragment × Bool) (token : Char) :
    Option (List NfaFragment × Bool) :=
  let (stack, esc) := st
  if esc then
    if token = 'e' then some (NfaFragment.epsilon alphabet :: stack, false)
    else (NfaFragment.symbol token alphabet).map (fun f => (f :: stack, false))
  else if token = '\\' then some (stack, true)
  else if !(isOp token) then
    (NfaFragment.symbol token alphabet).map (fun f => (f :: stack, false))
  else if token = '*' then
    match stack with
    | f :: rest => (NfaFragment.star f).map (fun g => (g :: rest, false))
    | [] => none
  else if token = '+' then
    match stack with
    | f2 :: f1 :: rest => (NfaFragment.concatenate f1 f2).map (fun g => (g :: rest, false))
    | _ => none
  else if token = '|' then
    match stack with
    | f2 :: f1 :: rest => (NfaFragment.funion f1 f2).map (fun g => (g :: rest, false))
    | _ => none
  else none

/-- `NfaFragment::from_regex`: translate to postfix and evaluate the
fragment combinators over it; the final `pop().unwrap()`. -/
def NfaFragment.fromRegex (regex : List Char) (alphabet : List Char) :
    Option NfaFragment := do
  let pfix ← regexToPostfix regex
  let (stack, _) ← pfix.foldlM (fragStep alphabet) ([], false)
  stack.head?

/-- `Nfa::from_regex`: close the fragment with a fresh accepting state
carrying `markNum`. -/
def Nfa.fromRegex (regex : List Char) (alphabet : List Char) (markNum : Nat) :
    Option Nfa := do
  let fragment ← NfaFragment.fromRegex regex alphabet
  let row0 ← fragment.transition.head?
  let transition := fragment.transition ++ [List.replicate row0.length none]
  let (outState, outSymbol) := fragment.out
  let numStates := transition.length
  let outSym := outSymbol.getD alphabet.length
  let transition ← tableAdd transition outState outSym (numStates - 1)
  let marks := (List.replicate numStates 0).set (numStates - 1) markNum
  return Nfa.new transition marks alphabet

/-! ## src/dfa.rs : the DFA, subset construction and minimization -/

/-- `struct Dfa` from src/dfa.rs. -/
structure Dfa where
  marks : List Nat
  transition : List (List Nat)
  symbolIndices : List (Char × Nat)
deriving DecidableEq, Repr

/-- Writing entry `(i, j)` of a rectangular table, with `none` for the
out-of-range panic. -/
def setAt2 (t : List (List Nat)) (i j v : Nat) : Option (List (List Nat)) := do
  let row ← t.get? i
  match row.get? j with
  | none => none
  | some _ => some (t.set i (row.set j v))

/-- Writing entry `i` of a vector, with `none` for the out-of-range panic. -/
def setAt (l : List Nat) (i v : Nat) : Option (List Nat) :=
  match l.get? i with
  | none => none
  | some _ => some (l.set i v)

/-- `candidate.iter().map(|&x| nfa.marks[x]).max().unwrap_or_default()`:
the maximum mark over a subset of NFA states (`0` for the empty subset),
`none` when some index is out of range. -/
def nfaMaxMark (nfa : Nfa) (states : List Nat) : Option Nat :=
  (states.mapM (fun x => nfa.marks.get? x)).map (fun l => l.foldl max 0)

/-- The worklist state of `Dfa::from_nfa`: the subset table (`HashMap`),
the growing transition matrix and mark vector, the stack of pending subsets
(head = vector end) and the state counter. -/
structure SubsetSt where
  table : List (List Nat × Nat)
  transition : List (List Nat)
  marks : List Nat
  stack : List (List Nat)
  stateCount : Nat
deriving Repr

/-- The body of `for &symbol in alphabet` inside `Dfa::from_nfa`
(src/dfa.rs, lines 90-112): compute the ε-closed move of `dfaState` on
`symbol` and either link to an existing DFA state or allocate a new one. -/
def subsetSymStep (nfa : Nfa) (alphabetSize : Nat) (dfaState : List Nat)
    (dfaIndex : Nat) (st : SubsetSt) (symbol : Nat) : Option SubsetSt := do
  let candidate ← dfaState.foldlM (fun acc s => do
      let row ← nfa.transition.get? s
      match (← row.get? symbol) with
      | some rangeStates => pure (acc ++ rangeStates)
      | none => pure acc) ([] : List Nat)
  let candidate := sortDedup candidate
  let candidate := (← nfa.emptyClosure candidate).getD []
  match List.lookup candidate st.table with
  | some candidateIndex =>
    let transition ← setAt2 st.transition dfaIndex symbol candidateIndex
    return { st with transition := transition }
  | none =>
    let stateCount := st.stateCount + 1
    let transition := st.transition ++ [List.replicate alphabetSize 0]
    let stack := candidate :: st.stack
    let marks := st.marks ++ [← nfaMaxMark nfa candidate]
    let table := (candidate, stateCount) :: st.table
    let transition ← setAt2 transition dfaIndex symbol stateCount
    return { table := table, transition := transition, marks := marks,
             stack := stack, stateCount := stateCount }

/-- The `while !stack.is_empty()` worklist loop of `Dfa::from_nfa`, with an
explicit fuel for the unbounded iteration (the source loop terminates
because each subset is pushed at most once). -/
def fromNfaLoop (nfa : Nfa) (alphabetSize : Nat) (fuel : Nat) (st : SubsetSt) :
    Option (List (List Nat) × List Nat) :=
  match st.stack with
  | [] => some (st.transition, st.marks)
  | dfaState :: rest =>
    match fuel with
    | 0 => none
    | fuel + 1 => do
      let dfaIndex ← List.lookup dfaState st.table
      let st' ← (List.range alphabetSize).foldlM
        (subsetSymStep nfa alphabetSize dfaState dfaIndex) { st with stack := rest }
      fromNfaLoop nfa alphabetSize fuel st'

/-- The subset-construction part of `Dfa::from_nfa` (src/dfa.rs, lines
68-118), before the final `dfa.minimized()`. -/
def Dfa.subsetDfaF (fuel : Nat) (nfa : Nfa) : Option Dfa := do
  let alphabetSize := nfa.symbolsTable.length
  let startState := (← nfa.emptyClosure [0]).getD []
  let marks := [← nfaMaxMark nfa startState]
  let st : SubsetSt :=
    { table := [(startState, 0)], transition := [List.replicate alphabetSize 0],
      marks := marks, stack := [startState], stateCount := 0 }
  let (transition, marks) ← fromNfaLoop nfa alphabetSize fuel st
  return ⟨marks, transition, nfa.symbolsTable⟩

/-- `itertools::into_group_map` followed by `into_values`: for each distinct
key in first-occurrence order, the values carrying it, in order.  (The Rust
`HashMap` yields its values in arbitrary order; every caller immediately
sorts the groups by first element, so a deterministic order is faithful.) -/
def groupMapVals [DecidableEq κ] (pairs : List (κ × α)) : List (List α) :=
  (pairs.map Prod.fst).dedup.map
    (fun k => (pairs.filter (fun p => decide (p.1 = k))).map Prod.snd)

/-- `.sorted_by_key(|x| x[0])` on a list of groups. -/
def sortByHead (groups : List (List Nat)) : List (List Nat) :=
  groups.insertionSort (fun a b => a.headD 0 ≤ b.headD 0)

/-- `struct DfaCloud` from src/dfa.rs. -/
structure DfaCloud where
  stateTransition : List (List Nat)
  groups : List (List Nat)
  stateGroups : List Nat
  marks : List Nat
deriving Repr

/-- `DfaCloud::from_dfa`: initial partition of the states by mark value,
groups sorted by their first (least) member. -/
def DfaCloud.fromDfa (d : Dfa) : DfaCloud :=
  let groups := sortByHead (groupMapVals (d.marks.enum.map (fun p => (p.2, p.1))))
  let sg0 := List.replicate d.marks.length 0
  let stateGroups :=
    if groups.length > 1 then
      groups.enum.foldl (fun sg p => p.2.foldl (fun sg s => sg.set s p.1) sg) sg0
    else sg0
  ⟨d.transition, groups, stateGroups, d.marks⟩

/-- `DfaCloud::get_group_transitions`: the transition row of the group's
first member, each target mapped to its group index and (when a translation
vector is supplied) through it. -/
def DfaCloud.getGroupTransitions (cloud : DfaCloud) (groupIndex : Nat)
    (translate : Option (List Nat)) : Option (List Nat) := do
  let group ← cloud.groups.get? groupIndex
  let first ← group.head?
  let row ← cloud.stateTransition.get? first
  row.mapM (fun x => do
    let g ← cloud.stateGroups.get? x
    match translate with
    | some map => map.get? g
    | none => some g)

/-- `DfaCloud::into_dfa_graph`: emit one DFA state per group, the block of
the original start presented at index 0 via the swapped translation
vector. -/
def DfaCloud.intoDfaGraph (cloud : DfaCloud) : Option (List (List Nat) × List Nat) := do
  let group0Index ← cloud.stateGroups.get? 0
  let translated0 := List.range cloud.stateGroups.length
  let v0 ← translated0.get? 0
  let vg ← translated0.get? group0Index
  let translated := (translated0.set 0 vg).set group0Index v0
  let state0Transition ← cloud.getGroupTransitions group0Index (some translated)
  (List.range cloud.groups.length).foldlM
    (fun (acc : List (List Nat) × List Nat) i => do
      let (transition, marks) := acc
      let group ← cloud.groups.get? i
      let groupMarks ← group.mapM (fun x => cloud.marks.get? x)
      let tIdx ← translated.get? i
      let marks ← setAt marks tIdx (groupMarks.foldl max 0)
      if i ≠ group0Index then
        return (transition ++ [← cloud.getGroupTransitions i (some translated)], marks)
      else
        return (transition, marks))
    ([state0Transition], List.replicate cloud.groups.length 0)

/-- The `while current_group_index < groups.len()` refinement loop of
`DfaCloud::divide` (src/dfa.rs, lines 242-283), with fuel for the unbounded
iteration (each split strictly increases the number of groups, so the
source loop terminates).  A group splits into its subgroups keyed by the
raw transition row of each member, subgroups sorted by first member. -/
def divideLoop (stateTransition : List (List Nat)) (fuel : Nat)
    (groups : List (List Nat)) (stateGroups : List Nat) (idx : Nat) :
    Option (List (List Nat) × List Nat) :=
  match fuel with
  | 0 => none
  | fuel + 1 =>
    if idx < groups.length then
      match groups.get? idx with
      | none => none
      | some currentGroup =>
        match currentGroup.mapM
            (fun x => (stateTransition.get? x).map (fun row => (row, x))) with
        | none => none
        | some keyed =>
          let subgroups := sortByHead (groupMapVals keyed)
          let subgroupNum := subgroups.length
          if subgroupNum = 0 then none
          else if subgroupNum = 1 then
            divideLoop stateTransition fuel groups stateGroups (idx + 1)
          else
            let groups' := groups.eraseIdx idx
            match (groups'.drop idx).foldlM
                (fun sg g => g.foldlM
                  (fun (sg : List Nat) x =>
                    setAt sg x ((sg.getD x 0) + (subgroupNum - 1))) sg)
                stateGroups with
            | none => none
            | some stateGroups =>
              match subgroups.enum.foldlM
                  (fun sg p => p.2.foldlM
                    (fun (sg : List Nat) x => setAt sg x (idx + p.1)) sg)
                  stateGroups with
              | none => none
              | some stateGroups =>
                let newGroups := groups'.take idx ++ subgroups ++ groups'.drop idx
                divideLoop stateTransition fuel newGroups stateGroups 0
    else some (groups, stateGroups)

/-- `Dfa::minimized` (fuelled through `divideLoop`). -/
def Dfa.minimizedF (fuel : Nat) (d : Dfa) : Option Dfa := do
  let cloud := DfaCloud.fromDfa d
  let (groups, stateGroups) ← divideLoop cloud.stateTransition fuel cloud.groups
    cloud.stateGroups 0
  let cloud := { cloud with groups := groups, stateGroups := stateGroups }
  let (transition, marks) ← cloud.intoDfaGraph
  return { marks := marks, transition := transition, symbolIndices := d.symbolIndices }

/-- `Dfa::from_nfa`: subset construction followed by `dfa.minimized()`. -/
def Dfa.fromNfaF (fuel : Nat) (nfa : Nfa) : Option Dfa := do
  let dfa ← Dfa.subsetDfaF fuel nfa
  dfa.minimizedF fuel

/-- `Dfa::from_regex`. -/
def Dfa.fromRegexF (fuel : Nat) (regex alphabet : List Char) (markNum : Nat) :
    Option Dfa := do
  let nfa ← Nfa.fromRegex regex alphabet markNum
  Dfa.fromNfaF fuel nfa

/-- The loop of `Dfa::accepts` over the characters of the word. -/
def acceptsLoop (d : Dfa) (state : Nat) (word : List Char) : Option Bool :=
  match word with
  | [] => (d.marks.get? state).map (fun m => decide (m > 0))
  | c :: rest =>
    match List.lookup c d.symbolIndices with
    | none => some false
    | some symIdx => do
      let row ← d.transition.get? state
      let nextState ← row.get? symIdx
      acceptsLoop d nextState rest

/-- `Dfa::accepts` from src/dfa.rs: run from state 0, rejecting outright on
a character outside the alphabet; `none` models an indexing panic. -/
def Dfa.accepts (d : Dfa) (word : List Char) : Option Bool := acceptsLoop d 0 word

/-- The `while !istream.is_empty()` loop of `Dfa::get_longest_accepted`
(src/dfa.rs, lines 158-170).  On an accepting state the token buffer is
committed and cleared; otherwise the buffer is pushed back onto the queue
front in reverse order and the loop breaks.  `none` models the panic on a
byte whose character is not in `symbol_indices` (or an index out of
range). -/
def glaLoop (d : Dfa) (currentState lastMark : Nat)
    (longestAccepted tokenBuffer istream : List Nat) :
    Option (List Nat × Nat × List Nat) :=
  match istream with
  | [] => some (longestAccepted, lastMark, [])
  | nextToken :: rest => do
    let symIdx ← List.lookup (Char.ofNat nextToken) d.symbolIndices
    let row ← d.transition.get? currentState
    let nextState ← row.get? symIdx
    let tokenBuffer := tokenBuffer ++ [nextToken]
    let mark ← d.marks.get? nextState
    if mark > 0 then
      glaLoop d nextState mark (longestAccepted ++ tokenBuffer) [] rest
    else
      return (longestAccepted, lastMark, tokenBuffer.reverse.foldl (fun q x => x :: q) rest)

/-- `Dfa::get_longest_accepted` from src/dfa.rs: returns the committed
lexeme (as a string of the bytes read as chars), the last accepting mark,
and the queue left after the call. -/
def Dfa.getLongestAccepted (d : Dfa) (istream : List Nat) :
    Option (String × Nat × List Nat) :=
  (glaLoop d 0 0 [] [] istream).map (fun r =>
    (String.mk (r.1.map Char.ofNat), r.2.1, r.2.2))

/-! ## src/fa.rs : the hand-built scanner DFAs used by `lexical_scan` -/

/-- `struct Dfa` from src/fa.rs (boolean accepting flags instead of marks). -/
structure FaDfa where
  accept : List Bool
  transition : List (List Nat)
  symbolIndices : List (Char × Nat)
deriving DecidableEq, Repr

/-- `Dfa::new` from src/fa.rs.  The `accept` vector set entry-by-entry from
the enumerated states equals the list of their flags; the table fill panics
(`none`) on a symbol or state missing from the index maps. -/
def FaDfa.new (states : List (Char × Bool)) (alphabet : List Char)
    (transitions : List (List (Char × Char))) : Option FaDfa := do
  let stateIndices := hmOfList (states.enum.map (fun p => (p.2.1, p.1)))
  let symbolIndices := hmOfList (alphabet.enum.map (fun p => (p.2, p.1)))
  let transition ← transitions.enum.foldlM
    (fun t p => p.2.foldlM
      (fun (t : List (List Nat)) arrow => do
        let symbolIndex ← List.lookup arrow.1 symbolIndices
        let state1Index ← List.lookup arrow.2 stateIndices
        setAt2 t p.1 symbolIndex state1Index)
      t)
    (List.replicate states.length (List.replicate alphabet.length 0))
  return ⟨states.map Prod.snd, transition, symbolIndices⟩

/-- `make_keyword_dfa` from src/lib.rs: accepts exactly the keyword `var`. -/
def makeKeywordDfa : Option FaDfa :=
  let states : List (Char × Bool) :=
    [('0', false), ('v', false), ('a', false), ('r', true), ('E', false)]
  let alphabet : List Char := "var".data
  let transitions := states.enum.map (fun p =>
    alphabet.map (fun symbol =>
      if p.1 ≤ 2 then
        if (states.getD (p.1 + 1) ('E', false)).1 = symbol then (symbol, symbol)
        else (symbol, 'E')
      else (symbol, 'E')))
  FaDfa.new states alphabet transitions

/-- `DIGITS` from src/lib.rs. -/
def DIGITS : List Char := "0123456789".data

/-- `make_integer_dfa` from src/lib.rs: accepts any non-empty digit string. -/
def makeIntegerDfa : Option FaDfa :=
  let states : List (Char × Bool) := [('0', false), ('1', true)]
  let alphabet : List Char := DIGITS
  let transitions := states.map (fun _ => alphabet.map (fun symbol => (symbol, '1')))
  FaDfa.new states alphabet transitions

/-- `LETTERS` from src/lib.rs. -/
def LETTERS : List Char :=
  "abcdefghijklmnopqrstuvwxyzABCDEFGHIJKLMNOPQRSTUVWXYZ_".data

/-- `make_identifier_dfa` from src/lib.rs: accepts `L(L|D)*`. -/
def makeIdentifierDfa : Option FaDfa :=
  let states : List (Char × Bool) := [('0', false), ('L', true), ('D', false)]
  let alphabet : List Char := LETTERS ++ DIGITS
  let transitions := states.map (fun st =>
    alphabet.map (fun symbol =>
      if st.1 = '0' then
        if LETTERS.contains symbol then (symbol, 'L') else (symbol, 'D')
      else (symbol, st.1)))
  FaDfa.new states alphabet transitions

/-- `make_operator_dfa` from src/lib.rs: accepts a single operator char. -/
def makeOperatorDfa : Option FaDfa :=
  let states : List (Char × Bool) := [('0', false), ('1', true), ('E', false)]
  let alphabet : List Char := "+-*/=".data
  let transitions := states.map (fun st =>
    alphabet.map (fun symbol =>
      if st.1 = '0' then (symbol, '1') else (symbol, 'E')))
  FaDfa.new states alphabet transitions

/-- `make_ignored_dfa` from src/lib.rs: accepts a single whitespace or
semicolon (or NUL) char. -/
def makeIgnoredDfa : Option FaDfa :=
  let states : List (Char × Bool) := [('0', false), ('1', true), ('E', false)]
  let alphabet : List Char := " ;\n\r\t\x00".data
  let transitions := states.map (fun st =>
    alphabet.map (fun symbol =>
      if st.1 = '0' then (symbol, '1') else (symbol, 'E')))
  FaDfa.new states alphabet transitions

/-- The `for (index, i) in istream.iter().enumerate()` loop of
`Dfa::get_longest_accepted` from src/fa.rs (lines 80-92).  The iteration
only reads the queue (no `pop_front`), so the embedding is a pure function
of the queue; the queue is unchanged by the call.  Returns the index of the
last accepting position, `none` (outer) for an indexing panic. -/
def faGlaLoop (d : FaDfa) (state : Nat) (lastAcceptingIndex : Option Nat)
    (index : Nat) (istream : List Nat) : Option (Option Nat) :=
  match istream with
  | [] => some lastAcceptingIndex
  | b :: rest =>
    match List.lookup (Char.ofNat b) d.symbolIndices with
    | none => some lastAcceptingIndex
    | some symIdx => do
      let row ← d.transition.get? state
      let nextState ← row.get? symIdx
      let acc ← d.accept.get? nextState
      faGlaLoop d nextState (if acc then some index else lastAcceptingIndex)
        (index + 1) rest

/-- `Dfa::get_longest_accepted` from src/fa.rs: the prefix of the queue up
to and including the last accepting position (empty if none), gathered by
indexing `istream[0..=t]`. -/
def FaDfa.getLongestAccepted (d : FaDfa) (istream : List Nat) :
    Option (List Nat) := do
  match (← faGlaLoop d 0 none 0 istream) with
  | none => return []
  | some t => (List.range (t + 1)).mapM (fun i => istream.get? i)

/-! ## src/lib.rs : the outer lexical scan -/

/-- `String::contains` on a substring pattern. -/
def strContains (s sub : String) : Bool := decide (List.IsInfix sub.data s.data)

/-- `Iterator::max_by_key`: when several elements are equally maximal, the
last one is returned. -/
def maxByKeyLast (l : List α) (key : α → Nat) : Option α :=
  l.foldl (fun acc x =>
    match acc with
    | none => some x
    | some a => if key x ≥ key a then some x else some a) none

/-- The machine array of `lexical_scan` (src/lib.rs, lines 143-149), in its
fixed order. -/
def mkMachines : Option (List (String × FaDfa)) := do
  let mIgnored ← makeIgnoredDfa
  let mIdentifier ← makeIdentifierDfa
  let mKeyword ← makeKeywordDfa
  let mOperator ← makeOperatorDfa
  let mInteger ← makeIntegerDfa
  return [("ignored", mIgnored), ("identifier", mIdentifier), ("keyword", mKeyword),
          ("operator", mOperator), ("integer", mInteger)]

/-- The per-iteration selection of `lexical_scan` (src/lib.rs, lines
153-159): map every machine over the (unmutated) queue pairing each lexeme
with its class name, then pick the longest result with `max_by_key`
(last maximal on ties). -/
def lexSelect (machines : List (String × FaDfa)) (istream : List Nat) :
    Option (Option (List Nat × String)) := do
  let results ← machines.mapM
    (fun m => (m.2.getLongestAccepted istream).map (fun r => (r, m.1)))
  return maxByKeyLast results (fun r => r.1.length)

/-- The `while !istream.is_empty()` loop of `lexical_scan` (src/lib.rs,
lines 151-176), with fuel for the unbounded iteration.  Each iteration runs
`lexSelect`, conditionally inserts the winner into the symbol table and
pops the lexeme's length from the queue.  `some (Except.error ())` is the
`return Result::Err(Error)` branch taken when `max_by_key` yields
`None`. -/
def lexScanLoop (machines : List (String × FaDfa)) (fuel : Nat)
    (symbolTable : List (List Nat × String)) (istream : List Nat) :
    Option (Except Unit (List (List Nat × String))) :=
  match istream with
  | [] => some (Except.ok symbolTable)
  | _ :: _ =>
    match fuel with
    | 0 => none
    | fuel + 1 => do
      match (← lexSelect machines istream) with
      | none => some (Except.error ())
      | some (name, cls) =>
        let nameLen := name.length
        let symbolTable :=
          if !(strContains cls "ignored" || (List.lookup name symbolTable).isSome)
          then hmInsert symbolTable name cls
          else symbolTable
        lexScanLoop machines fuel symbolTable (istream.drop nameLen)

/-- `lexical_scan` from src/lib.rs: build the five machines, run the outer
scan, and convert the symbol-table keys from byte vectors to strings. -/
def lexicalScan (fuel : Nat) (istream : List Nat) :
    Option (Except Unit (List (String × String))) := do
  let machines ← mkMachines
  match (← lexScanLoop machines fuel [] istream) with
  | Except.error e => return Except.error e
  | Except.ok table =>
    return Except.ok (table.map (fun p => (String.mk (p.1.map Char.ofNat), p.2)))

/-- The ε cell of state `x` of a transition table (empty when `x` or the
ε column is out of range). -/
def epsTargets (trans : List (List (Option (List Nat)))) (epsIdx : Nat) (x : Nat) :
    List Nat :=
  ((((trans.get? x).getD []).get? epsIdx).getD none).getD []

/-- Preconditions under which the DFS loop cannot panic: the visited vector
is one flag per state, stack elements and ε targets are states, and the ε
column exists in every row. -/
def EcPre (trans : List (List (Option (List Nat)))) (epsIdx : Nat)
    (closure : List Bool) (stack : List Nat) : Prop :=
  closure.length = trans.length ∧
  (∀ x ∈ stack, x < trans.length) ∧
  (∀ row ∈ trans, epsIdx < row.length) ∧
  (∀ x y, y ∈ epsTargets trans epsIdx x → y < trans.length)

/-- Well-formedness of a dfa.rs `Dfa` (every DFA the pipeline produces
satisfies it): marks and transition have one entry per state, there is a
state, every row is as wide as the alphabet, every target is a state, and
every symbol index is within the rows. -/
def DfaWF (d : Dfa) : Prop :=
  d.marks.length = d.transition.length ∧ 0 < d.transition.length ∧
  (∀ row ∈ d.transition, row.length = d.symbolIndices.length ∧
    ∀ t ∈ row, t < d.transition.length) ∧
  (∀ p ∈ d.symbolIndices, p.2 < d.symbolIndices.length)

instance (d : Dfa) : Decidable (DfaWF d) := by
  unfold DfaWF
  infer_instance

instance : IsAntisymm Nat (· < ·) :=
  ⟨fun _ _ h1 h2 => absurd h2 (Nat.lt_asymm h1)⟩

/-- Well-formedness of an `Nfa` (every NFA `Nfa::from_regex` produces for a
distinct alphabet satisfies it): there is a state, marks are one per state,
every row has one column per symbol plus the ε column, every target is a
state, and every symbol index is a real column. -/
def NfaWF (nfa : Nfa) : Prop :=
  0 < nfa.transition.length ∧
  nfa.marks.length = nfa.transition.length ∧
  (∀ row ∈ nfa.transition, row.length = nfa.symbolsTable.length + 1 ∧
    ∀ cell ∈ row, ∀ t ∈ cell.getD [], t < nfa.transition.length) ∧
  (∀ p ∈ nfa.symbolsTable, p.2 < nfa.symbolsTable.length)

instance (nfa : Nfa) : Decidable (NfaWF nfa) := by
  unfold NfaWF
  infer_instance

/-- A group of states all of which carry the same transition row. -/
def rowUniform (tr : List (List Nat)) (g : List Nat) : Prop :=
  ∀ x ∈ g, ∀ y ∈ g, tr.get? x = tr.get? y

/-- A group of states all of which carry the same mark. -/
def marksUniform (marks : List Nat) (g : List Nat) : Prop :=
  ∀ x ∈ g, ∀ y ∈ g, marks.get? x = marks.get? y

/-- One ε edge of the NFA: `b` is listed in the ε cell (last column, index
`symbolsTable.length`) of `a`'s row. -/
def EpsStep (nfa : Nfa) (a b : Nat) : Prop :=
  b ∈ epsTargets nfa.transition nfa.symbolsTable.length a

/-- Modelled from the spec: the ε-closure of a set of states — everything
reachable from the set by zero or more ε edges (spec §4.4); src/nfa.rs has
only the imperative DFS `empty_closure`, no set-level definition. -/
def EpsClosureP (nfa : Nfa) (P : Nat → Prop) (x : Nat) : Prop :=
  ∃ s, P s ∧ Relation.ReflTransGen (EpsStep nfa) s x

/-- Modelled from the spec: one subset-simulation step — move on the symbol
column of `c`, then ε-close; the empty set when `c` is outside the
alphabet. -/
def NfaStepP (nfa : Nfa) (P : Nat → Prop) (c : Char) : Nat → Prop :=
  match List.lookup c nfa.symbolsTable with
  | none => fun _ => False
  | some σ => EpsClosureP nfa (fun y => ∃ x, P x ∧ y ∈ epsTargets nfa.transition σ x)

/-- Modelled from the spec: the set of NFA states reachable on a word from
a given starting set of states. -/
def NfaRunFrom (nfa : Nfa) (P : Nat → Prop) : List Char → Nat → Prop
  | [] => P
  | c :: rest => NfaRunFrom nfa (NfaStepP nfa P c) rest

/-- Modelled from the spec: `NFA(r).accepts(w)` — after reading `w` from
the ε-closure of the start state `0`, some reachable state carries a
positive mark. -/
def nfaAccepts (nfa : Nfa) (w : List Char) : Prop :=
  ∃ s m, NfaRunFrom nfa (EpsClosureP nfa (fun x => x = 0)) w s ∧
    nfa.marks.get? s = some m ∧ 0 < m

/-- One filled transition entry of the subset construction: reading column
`σ` of row `i` leads to a table entry whose subset is exactly the ε-closed
`σ`-move of `S`. -/
def StepOk (nfa : Nfa) (tbl : List (List Nat × Nat)) (tr : List (List Nat))
    (S : List Nat) (i σ : Nat) : Prop :=
  ∃ T j, (T, j) ∈ tbl ∧ (tr.get? i).bind (fun row => row.get? σ) = some j ∧
    ∀ y, y ∈ T ↔ EpsClosureP nfa (fun z => ∃ x ∈ S, z ∈ epsTargets nfa.transition σ x) y

/-- A table entry all of whose transition columns are filled correctly. -/
def EntryDone (nfa : Nfa) (tbl : List (List Nat × Nat)) (tr : List (List Nat))
    (K : Nat) (S : List Nat) (i : Nat) : Prop :=
  ∀ σ, σ < K → StepOk nfa tbl tr S i σ

/-- The worklist invariant of the `Dfa::from_nfa` subset-construction
loop. -/
structure WLInv (nfa : Nfa) (K : Nat) (st : SubsetSt) : Prop where
  tlen : st.transition.length = st.stateCount + 1
  mlen : st.marks.length = st.stateCount + 1
  rows : ∀ row ∈ st.transition, row.length = K
  trBound : ∀ row ∈ st.transition, ∀ y ∈ row, y ≤ st.stateCount
  keySorted : ∀ p ∈ st.table, List.Sorted (· < ·) p.1
  keyValid : ∀ p ∈ st.table, ∀ x ∈ p.1, x < nfa.transition.length
  idxLe : ∀ p ∈ st.table, p.2 ≤ st.stateCount
  idxNodup : (st.table.map Prod.snd).Nodup
  keyNodup : (st.table.map Prod.fst).Nodup
  marksOk : ∀ p ∈ st.table, ∃ m, nfaMaxMark nfa p.1 = some m ∧ st.marks.get? p.2 = some m
  stackKeys : ∀ q ∈ st.stack, ∃ i, (q, i) ∈ st.table
  stackNodup : st.stack.Nodup
  procd : ∀ p ∈ st.table, p.1 ∉ st.stack → EntryDone nfa st.table st.transition K p.1 p.2

/-- The invariant inside the symbol loop of one worklist iteration: the
popped entry `(S, dfaIndex)` is exempted from `procd` and instead has
exactly the columns in `done` filled. -/
structure SymInv (nfa : Nfa) (K : Nat) (S : List Nat) (dfaIndex : Nat)
    (done : List Nat) (st : SubsetSt) : Prop where
  tlen : st.transition.length = st.stateCount + 1
  mlen : st.marks.length = st.stateCount + 1
  rows : ∀ row ∈ st.transition, row.length = K
  trBound : ∀ row ∈ st.transition, ∀ y ∈ row, y ≤ st.stateCount
  keySorted : ∀ p ∈ st.table, List.Sorted (· < ·) p.1
  keyValid : ∀ p ∈ st.table, ∀ x ∈ p.1, x < nfa.transition.length
  idxLe : ∀ p ∈ st.table, p.2 ≤ st.stateCount
  idxNodup : (st.table.map Prod.snd).Nodup
  keyNodup : (st.table.map Prod.fst).Nodup
  marksOk : ∀ p ∈ st.table, ∃ m, nfaMaxMark nfa p.1 = some m ∧ st.marks.get? p.2 = some m
  stackKeys : ∀ q ∈ st.stack, ∃ i, (q, i) ∈ st.table
  stackNodup : st.stack.Nodup
  entry : (S, dfaIndex) ∈ st.table
  notStack : S ∉ st.stack
  doneOk : ∀ σ ∈ done, StepOk nfa st.table st.transition S dfaIndex σ
  others : ∀ p ∈ st.table, p.1 ∉ st.stack → p.1 ≠ S →
    EntryDone nfa st.table st.transition K p.1 p.2

/-- The partition bookkeeping of `DfaCloud`: `groups` partitions the `n`
states into nonempty blocks and `state_groups` maps each state to the
index of its block. -/
def PartInv (n : Nat) (groups : List (List Nat)) (sg : List Nat) : Prop :=
  sg.length = n ∧
  (∀ gi g, groups.get? gi = some g → g ≠ [] ∧ g.Nodup ∧
    ∀ s ∈ g, s < n ∧ sg.get? s = some gi) ∧
  (∀ s, s < n → ∃ gi g, sg.get? s = some gi ∧ groups.get? gi = some g ∧ s ∈ g)

/-- The block of the original start state sits first and begins with 0. -/
def Head0 (groups : List (List Nat)) : Prop :=
  ∃ g, groups.get? 0 = some g ∧ g.head? = some 0

/-- Rows of an NFA transition table over `w` symbols with targets below
`n`. -/
def TableWF (w n : Nat) (t : List (List (Option (List Nat)))) : Prop :=
  (∀ row ∈ t, row.length = w + 1) ∧
  (∀ row ∈ t, ∀ cell ∈ row, ∀ tg ∈ cell.getD [], tg < n)

/-- Well-formedness of an `NfaFragment` over an alphabet of `w` symbols. -/
def FragWF (w : Nat) (f : NfaFragment) : Prop :=
  0 < f.transition.length ∧ TableWF w f.transition.length f.transition ∧
  f.out.1 < f.transition.length ∧ (∀ j, f.out.2 = some j → j < w)

/-! ## Claims C1, C5, C6 : divergences established by evaluating the code -/

theorem falseCount_set_true {l : List Bool} {c : Nat} (hc : c < l.length)
    (hf : l.getD c false = false) : falseCount (l.set c true) + 1 = falseCount l := by
  induction l generalizing c with
  | nil => simp at hc
  | cons b t ih =>
    cases c with
    | zero =>
      simp only [List.getD_cons_zero] at hf
      subst hf
      simp [falseCount, List.countP_cons]
    | succ c =>
      simp only [List.length_cons, Nat.succ_lt_succ_iff] at hc
      simp only [List.getD_cons_succ] at hf
      have := ih hc hf
      simp only [List.set_cons_succ, falseCount, List.countP_cons] at *
      omega

/-- C1.  The `dfa.rs` scanner driver does not keep reading through
non-accepting states: for the pipeline DFA of regex `ab` over alphabet `ab`
(which accepts `ab`, as the first component shows) a single call on the
queue `[97, 98]` (the bytes of `ab`) returns the empty lexeme with mark 0
and leaves the queue untouched, although `ab` itself — a strictly longer
accepted prefix — was available.  The `else` branch of the loop breaks at
the first non-accepting state instead of continuing. -/
theorem C1_scanner_stops_at_first_nonaccepting :
    (Dfa.fromRegexF 100 "ab".data "ab".data 1).map
      (fun d => (d.accepts "ab".data, d.getLongestAccepted [97, 98])) =
    some (some true, some ("", 0, [97, 98])) := by decide

/-- C5.  When the front byte of the queue is not in the DFA's alphabet, the
`dfa.rs` scanner driver does not push it back and return normally: it
panics on the `symbol_indices` lookup (modelled as `none`).  Shown on the
pipeline DFA of regex `a` over alphabet `a` with queue `[99]` (byte `c`). -/
theorem C5_get_longest_accepted_panics_outside_alphabet :
    (Dfa.fromRegexF 100 "a".data "a".data 1).map
      (fun d => d.getLongestAccepted [99]) = some none := by decide

/-- C6.  An escaped atom does not count as a term for concatenation
insertion: the `escape` flag set at `\` is never cleared in the insertion
phase, so no `+` is injected between `\e` and `b` in `a\eb`, and the
postfix evaluation drops the leading `a` fragment.  The automaton built
from regex `a\eb` over alphabet `ab` rejects `ab` and accepts `b`. -/
theorem C6_escaped_atom_concatenation_lost :
    (Dfa.fromRegexF 100 "a\\eb".data "ab".data 1).map
      (fun d => (d.accepts "ab".data, d.accepts "b".data)) =
    some (some false, some true) := by decide

/-- The postfix translation of `a\eb`: no concatenation operator after the
escape, because the insertion phase never resets its `escape` flag. -/
theorem C6_postfix_of_escaped_regex :
    regexToPostfix "a\\eb".data = some ['a', '\\', 'e', 'b', '+'] := by decide

/-! ## Claim C4 : the outer scan loops forever on an unrecognizable byte -/

/-- When every machine returns the empty lexeme on a non-empty queue, one
iteration of the `lexical_scan` loop pops nothing and recurses on the same
queue, so the loop never terminates (every fuel is exhausted). -/
theorem lexScanLoop_stuck {ms : List (String × FaDfa)}
    (hsel : lexSelect ms [35] = some (some ([], "integer"))) :
    ∀ fuel table, lexScanLoop ms fuel table [35] = none := by
  intro fuel
  induction fuel with
  | zero => intro table; rfl
  | succ n ih =>
    intro table
    show (do
      match (← lexSelect ms [35]) with
      | none => some (Except.error ())
      | some (name, cls) =>
        let nameLen := name.length
        let symbolTable :=
          if !(strContains cls "ignored" || (List.lookup name table).isSome)
          then hmInsert table name cls
          else table
        lexScanLoop ms n symbolTable ([35].drop nameLen)) = none
    rw [hsel]
    simp only [Option.some_bind]
    exact ih _

/-- C4.  On the queue `[35]` (byte `#`, recognized by no machine) the
scanner driver returns the empty lexeme, but `lexical_scan` does not
terminate with a "no token could be formed" failure: the `machines` array
is non-empty, so `max_by_key` is always `Some` and the `Err` branch is
unreachable; the loop pops zero bytes and runs forever (it exhausts every
fuel bound without producing either an `Ok` or an `Err` result). -/
theorem C4_lexical_scan_diverges_on_unknown_byte :
    ∀ fuel, lexicalScan fuel [35] = none := by
  intro fuel
  obtain ⟨ms, hms⟩ := Option.isSome_iff_exists.mp
    (show mkMachines.isSome by decide)
  have hsel : lexSelect ms [35] = some (some ([], "integer")) := by
    have h : mkMachines.bind (fun ms => lexSelect ms [35]) =
        some (some ([], "integer")) := by decide
    rw [hms, Option.some_bind] at h
    exact h
  show (do
    let machines ← mkMachines
    match (← lexScanLoop machines fuel [] [35]) with
    | Except.error e => return Except.error e
    | Except.ok table =>
      return Except.ok (table.map (fun p => (String.mk (p.1.map Char.ofNat), p.2)))) = none
  rw [hms]
  show (lexScanLoop ms fuel [] [35]).bind _ = none
  rw [lexScanLoop_stuck hsel fuel []]
  rfl

/-! ## Claim C10 : the fa.rs scanner returns a prefix without touching the queue -/

/-- The last accepting index returned by the fa.rs scanner loop is below
`i + q.length` whenever the incoming index is below `i`. -/
theorem faGlaLoop_lt {d : FaDfa} {s : Nat} {l : Option Nat} {i : Nat}
    {q : List Nat} {t : Nat} (h : faGlaLoop d s l i q = some (some t))
    (hl : ∀ t₀, l = some t₀ → t₀ < i) : t < i + q.length := by
  induction q generalizing s l i with
  | nil =>
    simp only [faGlaLoop, Option.some.injEq] at h
    have := hl t h
    simpa using this
  | cons b rest ih =>
    rw [faGlaLoop] at h
    cases hlk : List.lookup (Char.ofNat b) d.symbolIndices with
    | none =>
      simp only [hlk, Option.some.injEq] at h
      have := hl t h
      simp only [List.length_cons]
      omega
    | some symIdx =>
      simp only [hlk, List.get?_eq_getElem?, Option.bind_eq_bind] at h
      cases hrow : d.transition[s]? with
      | none => simp [hrow] at h
      | some row =>
        simp only [hrow, Option.some_bind] at h
        cases hns : row[symIdx]? with
        | none => simp [hns] at h
        | some nextState =>
          simp only [hns, Option.some_bind] at h
          cases hacc : d.accept[nextState]? with
          | none => simp [hacc] at h
          | some acc =>
            simp only [hacc, Option.some_bind] at h
            have := ih h (by
              intro t₀ ht₀
              cases acc with
              | true =>
                simp at ht₀
                omega
              | false =>
                simp only [Bool.false_eq_true, if_false] at ht₀
                have := hl t₀ ht₀
                omega)
            simp only [List.length_cons]
            omega

/-- Collecting `istream[0..=k-1]` by indexing succeeds below the length and
yields the prefix of that length. -/
theorem range_mapM_get_eq_take {α : Type} (q : List α) :
    ∀ k, k ≤ q.length →
      (List.range k).mapM (fun i => q.get? i) = some (q.take k) := by
  intro k
  induction k with
  | zero => intro _; rfl
  | succ k ih =>
    intro hk
    rw [List.range_succ, List.mapM_append, ih (by omega)]
    have hget : q.get? k = some q[k] := by
      rw [List.get?_eq_getElem?]
      exact List.getElem?_eq_getElem (by omega)
    simp only [List.mapM_cons, List.mapM_nil, hget, Option.bind_eq_bind,
      Option.some_bind, Option.pure_def, List.take_succ, List.get?_eq_getElem?,
      List.getElem?_eq_getElem (show k < q.length by omega)]
    rfl

/-- C10.  Whenever `Dfa::get_longest_accepted` from src/fa.rs returns
normally, its result is a prefix of the input queue.  The source reads the
queue only through `iter()` and indexing — it never pops — so the embedding
is a pure function of the queue and the queue after the call equals the
queue before it; `lexical_scan` itself removes the chosen prefix afterwards
by popping its length. -/
theorem C10_fa_scanner_returns_prefix (d : FaDfa) (q out : List Nat)
    (h : d.getLongestAccepted q = some out) : List.IsPrefix out q := by
  rw [FaDfa.getLongestAccepted] at h
  cases hgl : faGlaLoop d 0 none 0 q with
  | none => simp [hgl] at h
  | some ll =>
    rw [hgl] at h
    cases ll with
    | none =>
      have h' : some ([] : List Nat) = some out := h
      rw [← Option.some.inj h']
      exact List.nil_prefix
    | some t =>
      have ht : t < q.length := by
        have := faGlaLoop_lt hgl (by intro t₀ h₀; cases h₀)
        simpa using this
      have h' : (List.range (t + 1)).mapM (fun i => q.get? i) = some out := h
      rw [range_mapM_get_eq_take q (t + 1) (by omega)] at h'
      rw [← Option.some.inj h']
      exact List.take_prefix _ _

/-- Witness for C10: the one-state DFA over alphabet `a` accepting
everything, run on the queue `[97]`. -/
theorem C10_witness :
    FaDfa.getLongestAccepted ⟨[true], [[0]], [('a', 0)]⟩ [97] = some [97] ∧
    List.IsPrefix [97] [97] :=
  ⟨by decide, C10_fa_scanner_returns_prefix ⟨[true], [[0]], [('a', 0)]⟩ [97] [97] (by decide)⟩

/-! ## Claim C7 : the dfa.rs driver removes exactly the returned lexeme -/

theorem lookup_mem {α β : Type} [DecidableEq α] {l : List (α × β)} {k : α} {v : β}
    (h : List.lookup k l = some v) : (k, v) ∈ l := by
  obtain ⟨l₁, l₂, rfl, -⟩ := List.lookup_eq_some_iff.mp h
  simp

/-- The scanner loop of src/dfa.rs on a well-formed DFA, fed only bytes of
the alphabet and an empty token buffer, returns normally, and the committed
lexeme followed by the final queue reassembles the committed prefix plus
the incoming queue. -/
theorem glaLoop_queue (d : Dfa) (hwf : DfaWF d) :
    ∀ (q : List Nat) (s m : Nat) (acc : List Nat), s < d.transition.length →
    (∀ b ∈ q, (List.lookup (Char.ofNat b) d.symbolIndices).isSome = true) →
    ∃ lex mk rest, glaLoop d s m acc [] q = some (lex, mk, rest) ∧
      lex ++ rest = acc ++ q := by
  intro q
  induction q with
  | nil =>
    intro s m acc hs hq
    exact ⟨acc, m, [], rfl, by simp⟩
  | cons b tail ih =>
    intro s m acc hs hq
    obtain ⟨symIdx, hsym⟩ := Option.isSome_iff_exists.mp (hq b (by simp))
    have hrow : d.transition.get? s = some (d.transition.get ⟨s, hs⟩) :=
      List.get?_eq_get hs
    set row := d.transition.get ⟨s, hs⟩ with hrowdef
    have hrowmem : row ∈ d.transition := d.transition.get_mem _ _
    have hsymmem := lookup_mem hsym
    have hsymlt : symIdx < row.length := by
      rw [(hwf.2.2.1 row hrowmem).1]
      exact hwf.2.2.2 _ hsymmem
    have hns : row.get? symIdx = some (row.get ⟨symIdx, hsymlt⟩) :=
      List.get?_eq_get hsymlt
    set ns := row.get ⟨symIdx, hsymlt⟩ with hnsdef
    have hnslt : ns < d.transition.length :=
      (hwf.2.2.1 row hrowmem).2 ns (row.get_mem _ _)
    have hnslt2 : ns < d.marks.length := by rw [hwf.1]; exact hnslt
    have hmk : d.marks.get? ns = some (d.marks.get ⟨ns, hnslt2⟩) :=
      List.get?_eq_get hnslt2
    set mk0 := d.marks.get ⟨ns, hnslt2⟩ with hmk0def
    rw [glaLoop]
    simp only [hsym, hrow, hns, hmk, Option.bind_eq_bind, Option.some_bind]
    by_cases hpos : mk0 > 0
    · simp only [if_pos hpos]
      obtain ⟨lex, mkr, rest, hrun, heq⟩ := ih ns mk0 (acc ++ ([] ++ [b])) hnslt
        (fun x hx => hq x (by simp [hx]))
      exact ⟨lex, mkr, rest, hrun, by simpa using heq⟩
    · simp only [if_neg hpos]
      refine ⟨acc, m, b :: tail, rfl, by simp⟩

/-- C7.  On a well-formed DFA and a queue of alphabet bytes, a single call
to `Dfa::get_longest_accepted` (dfa.rs) returns normally and the bytes
remaining in the queue are exactly the original queue with the returned
lexeme removed from the front: committed lexeme ++ final queue = original
queue.  (Lookahead pushed back in reverse order is part of the loop
embedding.) -/
theorem C7_rewind_queue_equation (d : Dfa) (q : List Nat) (hwf : DfaWF d)
    (hq : ∀ b ∈ q, (List.lookup (Char.ofNat b) d.symbolIndices).isSome = true) :
    ∃ lex mk rest, glaLoop d 0 0 [] [] q = some (lex, mk, rest) ∧
      lex ++ rest = q ∧
      d.getLongestAccepted q = some (String.mk (lex.map Char.ofNat), mk, rest) := by
  obtain ⟨lex, mk, rest, hrun, heq⟩ := glaLoop_queue d hwf q 0 0 [] hwf.2.1 hq
  refine ⟨lex, mk, rest, hrun, by simpa using heq, ?_⟩
  rw [Dfa.getLongestAccepted, hrun]
  rfl

/-- Witness for C7: the pipeline DFA of regex `ab` over alphabet `ab` on
the queue `[97, 98]`. -/
theorem C7_witness :
    ∃ lex mk rest,
      glaLoop ⟨[0, 0, 0, 1], [[1, 2], [2, 3], [2, 2], [2, 2]], [('b', 1), ('a', 0)]⟩
        0 0 [] [] [97, 98] = some (lex, mk, rest) ∧
      lex ++ rest = [97, 98] ∧
      Dfa.getLongestAccepted
        ⟨[0, 0, 0, 1], [[1, 2], [2, 3], [2, 2], [2, 2]], [('b', 1), ('a', 0)]⟩ [97, 98] =
        some (String.mk (lex.map Char.ofNat), mk, rest) :=
  C7_rewind_queue_equation
    ⟨[0, 0, 0, 1], [[1, 2], [2, 3], [2, 2], [2, 2]], [('b', 1), ('a', 0)]⟩
    [97, 98] (by decide) (by decide)

/-! ## Claim C9 : the tie is broken by the last machine in the fixed order -/

/-- `max_by_key` over a non-empty list returns the element at the last
position achieving the maximal key: every element's key is at most the
winner's, and any element with the winner's key sits at or before the
winner's position. -/
theorem maxByKeyLast_spec {α : Type} (key : α → Nat) :
    ∀ (l : List α), l ≠ [] →
      ∃ i a, l.get? i = some a ∧ maxByKeyLast l key = some a ∧
        (∀ j b, l.get? j = some b → key b ≤ key a) ∧
        (∀ j b, l.get? j = some b → key b = key a → j ≤ i) := by
  intro l
  induction l using List.reverseRecOn with
  | nil => intro h; exact absurd rfl h
  | append_singleton l x ih =>
    intro _
    by_cases hl : l = []
    · subst hl
      refine ⟨0, x, rfl, rfl, ?_, ?_⟩
      · intro j b hj
        cases j with
        | zero => cases hj; exact Nat.le_refl _
        | succ j => simp at hj
      · intro j b hj _
        cases j with
        | zero => exact Nat.le_refl 0
        | succ j => simp at hj
    · obtain ⟨i, a, hget, hmax, hle, hlast⟩ := ih hl
      have hifold : maxByKeyLast (l ++ [x]) key =
          (match maxByKeyLast l key with
            | none => some x
            | some a => if key x ≥ key a then some x else some a) := by
        unfold maxByKeyLast
        rw [List.foldl_append]
        rfl
      have hil : i < l.length := by
        rcases List.get?_eq_some.mp hget with ⟨h, -⟩
        exact h
      rw [hmax] at hifold
      by_cases hxa : key x ≥ key a
      · refine ⟨l.length, x, List.get?_concat_length l x, ?_, ?_, ?_⟩
        · rw [hifold]; simp [hxa]
        · intro j b hj
          rcases Nat.lt_or_ge j l.length with hjl | hjl
          · rw [List.get?_append hjl] at hj
            exact Nat.le_trans (hle j b hj) hxa
          · rcases Nat.eq_or_lt_of_le hjl with rfl | hjl2
            · rw [List.get?_concat_length] at hj
              cases hj; exact Nat.le_refl _
            · rw [List.get?_eq_none.mpr (by simp; omega)] at hj
              cases hj
        · intro j b hj _
          rcases List.get?_eq_some.mp hj with ⟨hjlen, -⟩
          simp at hjlen
          omega
      · refine ⟨i, a, by rw [List.get?_append hil]; exact hget, ?_, ?_, ?_⟩
        · rw [hifold]; simp [hxa]
        · intro j b hj
          rcases Nat.lt_or_ge j l.length with hjl | hjl
          · rw [List.get?_append hjl] at hj
            exact hle j b hj
          · rcases Nat.eq_or_lt_of_le hjl with rfl | hjl2
            · rw [List.get?_concat_length] at hj
              cases hj; omega
            · rw [List.get?_eq_none.mpr (by simp; omega)] at hj
              cases hj
        · intro j b hj hkey
          rcases Nat.lt_or_ge j l.length with hjl | hjl
          · rw [List.get?_append hjl] at hj
            exact hlast j b hj hkey
          · rcases Nat.eq_or_lt_of_le hjl with rfl | hjl2
            · rw [List.get?_concat_length] at hj
              cases hj; omega
            · rw [List.get?_eq_none.mpr (by simp; omega)] at hj
              cases hj

/-- Mapping a fallible function over a list preserves the length when it
succeeds. -/
theorem mapM_option_length {α β : Type} {f : α → Option β} :
    ∀ {l : List α} {r : List β}, l.mapM f = some r → r.length = l.length := by
  intro l
  rw [← List.mapM'_eq_mapM]
  induction l with
  | nil => intro r h; cases h; rfl
  | cons a t ih =>
    intro r h
    rw [List.mapM'_cons] at h
    cases hfa : f a with
    | none => simp [hfa] at h
    | some b =>
      simp only [hfa, Option.bind_eq_bind, Option.some_bind] at h
      cases hmt : t.mapM' f with
      | none => simp [hmt] at h
      | some bs =>
        simp only [hmt, Option.some_bind, Option.pure_def, Option.some.injEq] at h
        rw [← h]
        simp [ih hmt]

/-- C9.  In `lexical_scan`, ties among the five class DFAs are broken by
the machine occurring last in the fixed order (ignored, identifier,
keyword, operator, integer): the selected pair sits at a position `i` of
the per-machine result list such that every result's lexeme is no longer,
and every result of equal length sits at or before `i`.  In particular on
the queue `[118, 97, 114]` (the bytes of `var`, where identifier and
keyword tie at length 3) the selection is `(var, keyword)`. -/
theorem C9_tie_break_last_machine :
    (∀ (q : List Nat) (ms : List (String × FaDfa)) (results : List (List Nat × String)),
      mkMachines = some ms →
      ms.mapM (fun m => (m.2.getLongestAccepted q).map (fun r => (r, m.1))) = some results →
      ∃ i p, results.get? i = some p ∧ lexSelect ms q = some (some p) ∧
        (∀ j r, results.get? j = some r → r.1.length ≤ p.1.length) ∧
        (∀ j r, results.get? j = some r → r.1.length = p.1.length → j ≤ i)) ∧
    mkMachines.bind (fun ms => lexSelect ms [118, 97, 114]) =
      some (some ([118, 97, 114], "keyword")) := by
  constructor
  · intro q ms results hms hmapM
    have hlen5 : ms.length = 5 := by
      have h5 : mkMachines.map List.length = some 5 := by decide
      rw [hms] at h5
      exact Option.some.inj h5
    have hnonempty : results ≠ [] := by
      intro hempty
      have := mapM_option_length hmapM
      rw [hempty] at this
      simp [hlen5] at this
    obtain ⟨i, p, hget, hmax, hle, hlast⟩ :=
      maxByKeyLast_spec (fun r => r.1.length) results hnonempty
    refine ⟨i, p, hget, ?_, hle, hlast⟩
    have hsel : lexSelect ms q =
        some (maxByKeyLast results (fun r => r.1.length)) := by
      unfold lexSelect
      rw [hmapM]
      rfl
    rw [hsel, hmax]
  · decide

/-- Witness for C9: instantiating the tie-break characterization on the
queue of `var`. -/
theorem C9_witness :
    ∃ ms results i p,
      mkMachines = some ms ∧
      ms.mapM (fun m => (m.2.getLongestAccepted [118, 97, 114]).map (fun r => (r, m.1))) =
        some results ∧
      results.get? i = some p ∧ lexSelect ms [118, 97, 114] = some (some p) ∧
      (∀ j r, results.get? j = some r → r.1.length ≤ p.1.length) ∧
      (∀ j r, results.get? j = some r → r.1.length = p.1.length → j ≤ i) := by
  obtain ⟨ms, hms⟩ := Option.isSome_iff_exists.mp (show mkMachines.isSome by decide)
  obtain ⟨results, hres⟩ := Option.isSome_iff_exists.mp
    (show (mkMachines.bind (fun ms =>
      ms.mapM (fun m => (m.2.getLongestAccepted [118, 97, 114]).map (fun r => (r, m.1))))).isSome
      by decide)
  rw [hms] at hres
  have hres' : ms.mapM
      (fun m => (m.2.getLongestAccepted [118, 97, 114]).map (fun r => (r, m.1))) =
      some results := hres
  obtain ⟨i, p, h1, h2, h3, h4⟩ :=
    C9_tie_break_last_machine.1 [118, 97, 114] ms results hms hres'
  exact ⟨ms, results, i, p, hms, hres', h1, h2, h3, h4⟩

/-! ## Claim C8 : ε-closure is idempotent

The DFS loop `ecLoopG` is analysed through five invariants: it preserves
the length of the visited vector, never unmarks a state, marks every stack
element, leaves the marked set ε-closed, and marks only states reachable
from the stack; with enough gas (the measure baked into
`Nfa.emptyClosure`) it completes.  -/

theorem ecLoopG_length {trans : List (List (Option (List Nat)))} {epsIdx : Nat} :
    ∀ {gas : Nat} {closure : List Bool} {stack : List Nat} {c' : List Bool},
      ecLoopG trans epsIdx gas closure stack = some c' → c'.length = closure.length := by
  intro gas
  induction gas with
  | zero =>
    intro closure stack c' h
    cases stack with
    | nil => cases h
    | cons c rest => cases h
  | succ gas ih =>
    intro closure stack c' h
    cases stack with
    | nil => cases h
    | cons c rest =>
      rw [ecLoopG] at h
      by_cases hc : c < closure.length
      · rw [if_pos hc] at h
        by_cases hm : closure.getD c false = true
        · rw [if_pos hm] at h
          by_cases hre : rest.isEmpty = true
          · rw [if_pos hre] at h
            cases h
            rfl
          · rw [if_neg hre] at h
            exact ih h
        · rw [if_neg hm] at h
          cases htr : trans.get? c with
          | none => simp only [htr] at h; cases h
          | some row =>
            simp only [htr] at h
            cases hrw : row.get? epsIdx with
            | none => simp only [hrw] at h; cases h
            | some cell =>
              simp only [hrw] at h
              by_cases hse :
                  (((cell.getD []).filter
                    (fun x => !(closure.getD x false))).reverse ++ rest).isEmpty = true
              · rw [if_pos hse] at h
                cases h
                simp
              · rw [if_neg hse] at h
                rw [ih h]
                simp
      · rw [if_neg hc] at h
        cases h

theorem getD_set_true_of {l : List Bool} {c x : Nat} (h : l.getD x false = true) :
    (l.set c true).getD x false = true := by
  induction l generalizing c x with
  | nil => simp at h
  | cons b t ih =>
    cases c with
    | zero =>
      cases x with
      | zero => rfl
      | succ x => simpa using h
    | succ c =>
      cases x with
      | zero => simpa using h
      | succ x =>
        simp only [List.set_cons_succ, List.getD_cons_succ] at *
        exact ih h

theorem getD_set_self {l : List Bool} {c : Nat} (hc : c < l.length) :
    (l.set c true).getD c false = true := by
  induction l generalizing c with
  | nil => simp at hc
  | cons b t ih =>
    cases c with
    | zero => rfl
    | succ c =>
      simp only [List.length_cons, Nat.succ_lt_succ_iff] at hc
      simp only [List.set_cons_succ, List.getD_cons_succ]
      exact ih hc

theorem getD_of_set_true {l : List Bool} {c x : Nat}
    (h : (l.set c true).getD x false = true) : x = c ∨ l.getD x false = true := by
  induction l generalizing c x with
  | nil => simp at h
  | cons b t ih =>
    cases c with
    | zero =>
      cases x with
      | zero => exact Or.inl rfl
      | succ x => exact Or.inr (by simpa using h)
    | succ c =>
      cases x with
      | zero => exact Or.inr (by simpa using h)
      | succ x =>
        simp only [List.set_cons_succ, List.getD_cons_succ] at h ⊢
        rcases ih h with h' | h'
        · exact Or.inl (by omega)
        · exact Or.inr h'

theorem getD_true_lt {l : List Bool} {x : Nat} (h : l.getD x false = true) :
    x < l.length := by
  by_contra hx
  rw [List.getD_eq_default _ _ (by omega)] at h
  cases h

theorem foldr_max_le {l : List Nat} {a : Nat} (h : a ∈ l) : a ≤ l.foldr max 0 := by
  induction l with
  | nil => simp at h
  | cons b t ih =>
    rcases List.mem_cons.mp h with rfl | h'
    · simp [List.foldr_cons, Nat.le_max_left]
    · simp only [List.foldr_cons]
      exact Nat.le_trans (ih h') (Nat.le_max_right _ _)

theorem falseCount_pos {l : List Bool} {c : Nat} (hc : c < l.length)
    (hf : l.getD c false = false) : 0 < falseCount l := by
  have := falseCount_set_true hc hf
  omega

theorem epsTargets_cell_eq {trans : List (List (Option (List Nat)))} {epsIdx c : Nat}
    {row : List (Option (List Nat))} {cell : Option (List Nat)}
    (htr : trans.get? c = some row) (hrw : row.get? epsIdx = some cell) :
    epsTargets trans epsIdx c = cell.getD [] := by
  unfold epsTargets
  rw [htr, Option.getD_some, hrw, Option.getD_some]

theorem epsBound_cell {trans : List (List (Option (List Nat)))} {epsIdx c : Nat}
    {row : List (Option (List Nat))} {cell : Option (List Nat)}
    (htr : trans.get? c = some row) (hrw : row.get? epsIdx = some cell) :
    (cell.getD []).length ≤ epsBound trans epsIdx := by
  have hrmem : row ∈ trans := List.get?_mem htr
  have heq : (cell.getD []).length = (((row.get? epsIdx).getD none).getD []).length := by
    rw [hrw, Option.getD_some]
  rw [heq]
  exact foldr_max_le (List.mem_map_of_mem _ hrmem)

theorem ecLoopG_mono {trans : List (List (Option (List Nat)))} {epsIdx : Nat} :
    ∀ {gas : Nat} {closure : List Bool} {stack : List Nat} {c' : List Bool},
      ecLoopG trans epsIdx gas closure stack = some c' →
      ∀ x, closure.getD x false = true → c'.getD x false = true := by
  intro gas
  induction gas with
  | zero =>
    intro closure stack c' h
    cases stack with
    | nil => cases h
    | cons c rest => cases h
  | succ gas ih =>
    intro closure stack c' h
    cases stack with
    | nil => cases h
    | cons c rest =>
      rw [ecLoopG] at h
      by_cases hc : c < closure.length
      · rw [if_pos hc] at h
        by_cases hm : closure.getD c false = true
        · rw [if_pos hm] at h
          by_cases hre : rest.isEmpty = true
          · rw [if_pos hre] at h
            cases h
            exact fun x hx => hx
          · rw [if_neg hre] at h
            exact ih h
        · rw [if_neg hm] at h
          cases htr : trans.get? c with
          | none => simp only [htr] at h; cases h
          | some row =>
            simp only [htr] at h
            cases hrw : row.get? epsIdx with
            | none => simp only [hrw] at h; cases h
            | some cell =>
              simp only [hrw] at h
              by_cases hse :
                  (((cell.getD []).filter
                    (fun x => !(closure.getD x false))).reverse ++ rest).isEmpty = true
              · rw [if_pos hse] at h
                cases h
                exact fun x hx => getD_set_true_of hx
              · rw [if_neg hse] at h
                exact fun x hx => ih h x (getD_set_true_of hx)
      · rw [if_neg hc] at h
        cases h

theorem ecLoopG_covers {trans : List (List (Option (List Nat)))} {epsIdx : Nat} :
    ∀ {gas : Nat} {closure : List Bool} {stack : List Nat} {c' : List Bool},
      ecLoopG trans epsIdx gas closure stack = some c' →
      ∀ x ∈ stack, c'.getD x false = true := by
  intro gas
  induction gas with
  | zero =>
    intro closure stack c' h
    cases stack with
    | nil => cases h
    | cons c rest => cases h
  | succ gas ih =>
    intro closure stack c' h
    cases stack with
    | nil => cases h
    | cons c rest =>
      rw [ecLoopG] at h
      by_cases hc : c < closure.length
      · rw [if_pos hc] at h
        by_cases hm : closure.getD c false = true
        · rw [if_pos hm] at h
          by_cases hre : rest.isEmpty = true
          · rw [if_pos hre] at h
            cases h
            intro x hx
            rcases List.mem_cons.mp hx with rfl | hx'
            · exact hm
            · rw [List.isEmpty_iff.mp hre] at hx'
              cases hx'
          · rw [if_neg hre] at h
            intro x hx
            rcases List.mem_cons.mp hx with rfl | hx'
            · exact ecLoopG_mono h x hm
            · exact ih h x hx'
        · rw [if_neg hm] at h
          cases htr : trans.get? c with
          | none => simp only [htr] at h; cases h
          | some row =>
            simp only [htr] at h
            cases hrw : row.get? epsIdx with
            | none => simp only [hrw] at h; cases h
            | some cell =>
              simp only [hrw] at h
              by_cases hse :
                  (((cell.getD []).filter
                    (fun x => !(closure.getD x false))).reverse ++ rest).isEmpty = true
              · rw [if_pos hse] at h
                cases h
                intro x hx
                rcases List.mem_cons.mp hx with rfl | hx'
                · exact getD_set_self hc
                · have : rest = [] := by
                    have := List.isEmpty_iff.mp hse
                    exact (List.append_eq_nil.mp this).2
                  rw [this] at hx'
                  cases hx'
              · rw [if_neg hse] at h
                intro x hx
                rcases List.mem_cons.mp hx with rfl | hx'
                · exact ecLoopG_mono h x (getD_set_self hc)
                · exact ih h x (List.mem_append_right _ hx')
      · rw [if_neg hc] at h
        cases h

theorem ecLoopG_closed {trans : List (List (Option (List Nat)))} {epsIdx : Nat} :
    ∀ {gas : Nat} {closure : List Bool} {stack : List Nat} {c' : List Bool},
      (∀ x, closure.getD x false = true →
        ∀ y ∈ epsTargets trans epsIdx x, closure.getD y false = true ∨ y ∈ stack) →
      ecLoopG trans epsIdx gas closure stack = some c' →
      ∀ x, c'.getD x false = true →
        ∀ y ∈ epsTargets trans epsIdx x, c'.getD y false = true := by
  intro gas
  induction gas with
  | zero =>
    intro closure stack c' _ h
    cases stack with
    | nil => cases h
    | cons c rest => cases h
  | succ gas ih =>
    intro closure stack c' hinv h
    cases stack with
    | nil => cases h
    | cons c rest =>
      rw [ecLoopG] at h
      by_cases hc : c < closure.length
      · rw [if_pos hc] at h
        by_cases hm : closure.getD c false = true
        · rw [if_pos hm] at h
          by_cases hre : rest.isEmpty = true
          · rw [if_pos hre] at h
            cases h
            intro x hx y hy
            rcases hinv x hx y hy with h' | h'
            · exact h'
            · rcases List.mem_cons.mp h' with rfl | h''
              · exact hm
              · rw [List.isEmpty_iff.mp hre] at h''
                cases h''
          · rw [if_neg hre] at h
            refine ih ?_ h
            intro x hx y hy
            rcases hinv x hx y hy with h' | h'
            · exact Or.inl h'
            · rcases List.mem_cons.mp h' with rfl | h''
              · exact Or.inl hm
              · exact Or.inr h''
        · rw [if_neg hm] at h
          cases htr : trans.get? c with
          | none => simp only [htr] at h; cases h
          | some row =>
            simp only [htr] at h
            cases hrw : row.get? epsIdx with
            | none => simp only [hrw] at h; cases h
            | some cell =>
              simp only [hrw] at h
              have hinv' : ∀ x, (closure.set c true).getD x false = true →
                  ∀ y ∈ epsTargets trans epsIdx x,
                    (closure.set c true).getD y false = true ∨
                    y ∈ ((cell.getD []).filter
                      (fun x => !(closure.getD x false))).reverse ++ rest := by
                intro x hx y hy
                rcases getD_of_set_true hx with rfl | hxold
                · rw [epsTargets_cell_eq htr hrw] at hy
                  by_cases hym : closure.getD y false = true
                  · exact Or.inl (getD_set_true_of hym)
                  · refine Or.inr (List.mem_append_left _ ?_)
                    rw [List.mem_reverse]
                    refine List.mem_filter.mpr ⟨hy, ?_⟩
                    show (!closure.getD y false) = true
                    cases hval : closure.getD y false with
                    | true => exact absurd hval hym
                    | false => rfl
                · rcases hinv x hxold y hy with h' | h'
                  · exact Or.inl (getD_set_true_of h')
                  · rcases List.mem_cons.mp h' with rfl | h''
                    · exact Or.inl (getD_set_self hc)
                    · exact Or.inr (List.mem_append_right _ h'')
              by_cases hse :
                  (((cell.getD []).filter
                    (fun x => !(closure.getD x false))).reverse ++ rest).isEmpty = true
              · rw [if_pos hse] at h
                cases h
                intro x hx y hy
                rcases hinv' x hx y hy with h' | h'
                · exact h'
                · rw [List.isEmpty_iff.mp hse] at h'
                  cases h'
              · rw [if_neg hse] at h
                exact ih hinv' h
      · rw [if_neg hc] at h
        cases h

theorem ecLoopG_sound {trans : List (List (Option (List Nat)))} {epsIdx : Nat}
    {R : Nat → Prop}
    (hRstep : ∀ a, R a → ∀ b ∈ epsTargets trans epsIdx a, R b) :
    ∀ {gas : Nat} {closure : List Bool} {stack : List Nat} {c' : List Bool},
      (∀ z ∈ stack, R z) → (∀ x, closure.getD x false = true → R x) →
      ecLoopG trans epsIdx gas closure stack = some c' →
      ∀ x, c'.getD x false = true → R x := by
  intro gas
  induction gas with
  | zero =>
    intro closure stack c' _ _ h
    cases stack with
    | nil => cases h
    | cons c rest => cases h
  | succ gas ih =>
    intro closure stack c' hstack hmarked h
    cases stack with
    | nil => cases h
    | cons c rest =>
      rw [ecLoopG] at h
      by_cases hc : c < closure.length
      · rw [if_pos hc] at h
        by_cases hm : closure.getD c false = true
        · rw [if_pos hm] at h
          by_cases hre : rest.isEmpty = true
          · rw [if_pos hre] at h
            cases h
            exact hmarked
          · rw [if_neg hre] at h
            exact ih (fun z hz => hstack z (List.mem_cons_of_mem _ hz)) hmarked h
        · rw [if_neg hm] at h
          cases htr : trans.get? c with
          | none => simp only [htr] at h; cases h
          | some row =>
            simp only [htr] at h
            cases hrw : row.get? epsIdx with
            | none => simp only [hrw] at h; cases h
            | some cell =>
              simp only [hrw] at h
              have hRc : R c := hstack c (List.mem_cons_self _ _)
              have hmarked' : ∀ x, (closure.set c true).getD x false = true → R x := by
                intro x hx
                rcases getD_of_set_true hx with rfl | hxold
                · exact hRc
                · exact hmarked x hxold
              have hstack' : ∀ z ∈ ((cell.getD []).filter
                  (fun x => !(closure.getD x false))).reverse ++ rest, R z := by
                intro z hz
                rcases List.mem_append.mp hz with hz' | hz'
                · rw [List.mem_reverse] at hz'
                  have hzc := (List.mem_filter.mp hz').1
                  refine hRstep c hRc z ?_
                  rw [epsTargets_cell_eq htr hrw]
                  exact hzc
                · exact hstack z (List.mem_cons_of_mem _ hz')
              by_cases hse :
                  (((cell.getD []).filter
                    (fun x => !(closure.getD x false))).reverse ++ rest).isEmpty = true
              · rw [if_pos hse] at h
                cases h
                exact hmarked'
              · rw [if_neg hse] at h
                exact ih hstack' hmarked' h
      · rw [if_neg hc] at h
        cases h

/-- With gas at least the measure, the DFS loop completes (the measure
strictly decreases on every iteration). -/
theorem ecLoopG_some {trans : List (List (Option (List Nat)))} {epsIdx : Nat} :
    ∀ {gas : Nat} {closure : List Bool} {stack : List Nat},
      EcPre trans epsIdx closure stack → stack ≠ [] →
      ecMeasure trans epsIdx closure stack ≤ gas →
      ∃ c', ecLoopG trans epsIdx gas closure stack = some c' := by
  intro gas
  induction gas with
  | zero =>
    intro closure stack hpre hne hgas
    exfalso
    have : 0 < stack.length := List.length_pos.mpr hne
    unfold ecMeasure at hgas
    omega
  | succ gas ih =>
    intro closure stack hpre hne hgas
    cases stack with
    | nil => exact absurd rfl hne
    | cons c rest =>
      have hc : c < closure.length := by
        rw [hpre.1]
        exact hpre.2.1 c (List.mem_cons_self _ _)
      rw [ecLoopG, if_pos hc]
      by_cases hm : closure.getD c false = true
      · rw [if_pos hm]
        by_cases hre : rest.isEmpty = true
        · rw [if_pos hre]
          exact ⟨closure, rfl⟩
        · rw [if_neg hre]
          refine ih ⟨hpre.1, ?_, hpre.2.2.1, hpre.2.2.2⟩
            (fun hnil => hre (by rw [hnil]; rfl)) ?_
          · exact fun x hx => hpre.2.1 x (List.mem_cons_of_mem _ hx)
          · unfold ecMeasure at hgas ⊢
            simp only [List.length_cons] at hgas
            omega
      · rw [if_neg hm]
        have hcn : c < trans.length := hpre.2.1 c (List.mem_cons_self _ _)
        have htr : trans.get? c = some (trans.get ⟨c, hcn⟩) := List.get?_eq_get hcn
        set row := trans.get ⟨c, hcn⟩ with hrowdef
        have hrmem : row ∈ trans := trans.get_mem _ _
        have heps : epsIdx < row.length := hpre.2.2.1 row hrmem
        have hrw : row.get? epsIdx = some (row.get ⟨epsIdx, heps⟩) :=
          List.get?_eq_get heps
        set cell := row.get ⟨epsIdx, heps⟩ with hcelldef
        simp only [htr, hrw]
        by_cases hse :
            (((cell.getD []).filter
              (fun x => !(closure.getD x false))).reverse ++ rest).isEmpty = true
        · rw [if_pos hse]
          exact ⟨_, rfl⟩
        · rw [if_neg hse]
          have hmfalse : closure.getD c false = false := by
            cases hval : closure.getD c false with
            | true => exact absurd hval hm
            | false => rfl
          have hfc := falseCount_set_true hc hmfalse
          have hpl : (((cell.getD []).filter
              (fun x => !(closure.getD x false)))).length ≤ epsBound trans epsIdx :=
            Nat.le_trans (List.length_filter_le _ _) (epsBound_cell htr hrw)
          refine ih ⟨?_, ?_, hpre.2.2.1, hpre.2.2.2⟩
            (fun hnil => hse (by rw [hnil]; rfl)) ?_
          · rw [List.length_set]
            exact hpre.1
          · intro x hx
            rcases List.mem_append.mp hx with hx' | hx'
            · rw [List.mem_reverse] at hx'
              have hxc := (List.mem_filter.mp hx').1
              refine hpre.2.2.2 c x ?_
              rw [epsTargets_cell_eq htr hrw]
              exact hxc
            · exact hpre.2.1 x (List.mem_cons_of_mem _ hx')
          · have hmul : falseCount closure * (epsBound trans epsIdx + 1) =
                falseCount (closure.set c true) * (epsBound trans epsIdx + 1) +
                (epsBound trans epsIdx + 1) := by
              rw [← hfc]
              ring
            unfold ecMeasure at hgas ⊢
            simp only [List.length_cons, List.length_append, List.length_reverse] at hgas ⊢
            omega

theorem extractFrom_mem :
    ∀ (c' : List Bool) (k x : Nat),
      (x ∈ ((List.enumFrom k c').filter (fun p => p.2)).map (fun p => p.1)) ↔
      (k ≤ x ∧ c'.getD (x - k) false = true) := by
  intro c'
  induction c' with
  | nil =>
    intro k x
    simp
  | cons b t ih =>
    intro k x
    rw [List.enumFrom_cons]
    cases b with
    | false =>
      rw [List.filter_cons_of_neg (by simp)]
      rw [ih (k + 1) x]
      constructor
      · rintro ⟨h1, h2⟩
        refine ⟨by omega, ?_⟩
        rw [show x - k = (x - (k + 1)) + 1 by omega, List.getD_cons_succ]
        exact h2
      · rintro ⟨h1, h2⟩
        rcases Nat.eq_or_lt_of_le h1 with rfl | hlt
        · rw [Nat.sub_self, List.getD_cons_zero] at h2
          cases h2
        · refine ⟨by omega, ?_⟩
          rw [show x - k = (x - (k + 1)) + 1 by omega, List.getD_cons_succ] at h2
          exact h2
    | true =>
      rw [List.filter_cons_of_pos rfl]
      simp only [List.map_cons, List.mem_cons]
      rw [ih (k + 1) x]
      constructor
      · rintro (rfl | ⟨h1, h2⟩)
        · exact ⟨Nat.le_refl _, by rw [Nat.sub_self, List.getD_cons_zero]⟩
        · refine ⟨by omega, ?_⟩
          rw [show x - k = (x - (k + 1)) + 1 by omega, List.getD_cons_succ]
          exact h2
      · rintro ⟨h1, h2⟩
        rcases Nat.eq_or_lt_of_le h1 with rfl | hlt
        · exact Or.inl rfl
        · refine Or.inr ⟨by omega, ?_⟩
          rw [show x - k = (x - (k + 1)) + 1 by omega, List.getD_cons_succ] at h2
          exact h2

theorem extractFrom_sorted :
    ∀ (c' : List Bool) (k : Nat),
      List.Sorted (· < ·) (((List.enumFrom k c').filter (fun p => p.2)).map (fun p => p.1)) := by
  intro c'
  induction c' with
  | nil =>
    intro k
    simp
  | cons b t ih =>
    intro k
    rw [List.enumFrom_cons]
    cases b with
    | false =>
      rw [List.filter_cons_of_neg (by simp)]
      exact ih (k + 1)
    | true =>
      rw [List.filter_cons_of_pos rfl]
      simp only [List.map_cons]
      rw [List.sorted_cons]
      refine ⟨?_, ih (k + 1)⟩
      intro y hy
      have := ((extractFrom_mem t (k + 1) y).mp hy).1
      omega

/-- Membership in the result list built from the visited-flags vector. -/
theorem extract_mem {c' : List Bool} {x : Nat} :
    (x ∈ ((c'.enum.filter (fun p => p.2)).map (fun p => p.1))) ↔
    c'.getD x false = true := by
  have h := extractFrom_mem c' 0 x
  rw [show List.enumFrom 0 c' = c'.enum from rfl] at h
  rw [h]
  simp

/-- The result list built from the visited-flags vector is strictly
sorted (hence deduplicated). -/
theorem extract_sorted (c' : List Bool) :
    List.Sorted (· < ·) ((c'.enum.filter (fun p => p.2)).map (fun p => p.1)) := by
  have h := extractFrom_sorted c' 0
  rwa [show List.enumFrom 0 c' = c'.enum from rfl] at h

/-- Two strictly sorted lists with the same members are equal. -/
theorem sorted_lt_eq_of_mem_iff {l₁ l₂ : List Nat}
    (h₁ : List.Sorted (· < ·) l₁) (h₂ : List.Sorted (· < ·) l₂)
    (hmem : ∀ x, x ∈ l₁ ↔ x ∈ l₂) : l₁ = l₂ := by
  refine List.eq_of_perm_of_sorted ?_ h₁ h₂
  exact (List.perm_ext_iff_of_nodup h₁.nodup h₂.nodup).mpr hmem

theorem getD_replicate_false {n x : Nat} :
    (List.replicate n false).getD x false = false := by
  induction n generalizing x with
  | zero => rfl
  | succ n ih =>
    cases x with
    | zero => rfl
    | succ x =>
      rw [List.replicate_succ, List.getD_cons_succ]
      exact ih

theorem epsTargets_lt {nfa : Nfa} (hwf : NfaWF nfa) {epsIdx : Nat} :
    ∀ x y, y ∈ epsTargets nfa.transition epsIdx x → y < nfa.transition.length := by
  intro x y hy
  unfold epsTargets at hy
  cases htr : nfa.transition.get? x with
  | none => rw [htr] at hy; simp at hy
  | some row =>
    rw [htr, Option.getD_some] at hy
    cases hrw : row.get? epsIdx with
    | none => rw [hrw] at hy; simp at hy
    | some cell =>
      rw [hrw, Option.getD_some] at hy
      exact (hwf.2.2.1 row (List.get?_mem htr)).2 cell (List.get?_mem hrw) y hy

/-- Running `Nfa::empty_closure` on a well-formed NFA with a non-empty set
of valid state indices: it returns a strictly sorted list that contains
the seeds, stays within the states, is ε-closed, and is contained in every
ε-closed superset of the seeds. -/
theorem emptyClosure_props (nfa : Nfa) (hwf : NfaWF nfa) (S : List Nat)
    (hS : ∀ s ∈ S, s < nfa.transition.length) (hne : S ≠ []) :
    ∃ C, nfa.emptyClosure S = some (some C) ∧
      List.Sorted (· < ·) C ∧
      (∀ s ∈ S, s ∈ C) ∧
      (∀ x ∈ C, x < nfa.transition.length) ∧
      (∀ x ∈ C, ∀ y ∈ epsTargets nfa.transition nfa.symbolsTable.length x, y ∈ C) ∧
      (∀ (R : Nat → Prop),
        (∀ a, R a → ∀ b ∈ epsTargets nfa.transition nfa.symbolsTable.length a, R b) →
        (∀ s ∈ S, R s) → ∀ x ∈ C, R x) := by
  have hn := hwf.1
  have hrow0 : nfa.transition.get? 0 = some (nfa.transition.get ⟨0, hn⟩) :=
    List.get?_eq_get hn
  set row0 := nfa.transition.get ⟨0, hn⟩ with hrow0def
  have hrow0len : row0.length = nfa.symbolsTable.length + 1 :=
    (hwf.2.2.1 row0 (nfa.transition.get_mem _ _)).1
  have hepsIdx : row0.length - 1 = nfa.symbolsTable.length := by omega
  set K := nfa.symbolsTable.length with hKdef
  -- the DFS stack
  have hstackmem : ∀ x ∈ (sortDedup S).reverse, x ∈ S := by
    intro x hx
    rw [List.mem_reverse] at hx
    unfold sortDedup at hx
    rw [List.mem_dedup, List.mem_insertionSort] at hx
    exact hx
  have hstackne : (sortDedup S).reverse ≠ [] := by
    obtain ⟨a, ha⟩ := List.exists_mem_of_ne_nil S hne
    intro hnil
    have : a ∈ (sortDedup S).reverse := by
      rw [List.mem_reverse]
      unfold sortDedup
      rw [List.mem_dedup, List.mem_insertionSort]
      exact ha
    rw [hnil] at this
    cases this
  have hpre : EcPre nfa.transition (row0.length - 1)
      (List.replicate nfa.transition.length false) ((sortDedup S).reverse) := by
    refine ⟨List.length_replicate _ _, ?_, ?_, ?_⟩
    · exact fun x hx => hS x (hstackmem x hx)
    · intro row hrow
      rw [(hwf.2.2.1 row hrow).1, hepsIdx]
      omega
    · rw [hepsIdx]
      exact epsTargets_lt hwf
  obtain ⟨closure, hrun⟩ := ecLoopG_some hpre hstackne (Nat.le_refl _)
  set C := (closure.enum.filter (fun p => p.2)).map (fun p => p.1) with hCdef
  have hclen : closure.length = nfa.transition.length := by
    rw [ecLoopG_length hrun, List.length_replicate]
  -- compute the value of emptyClosure
  have hval : nfa.emptyClosure S = some (some C) := by
    rw [Nfa.emptyClosure, hrow0]
    obtain ⟨a, ts, hts⟩ : ∃ a ts, (sortDedup S).reverse = a :: ts := by
      cases hcase : (sortDedup S).reverse with
      | nil => exact absurd hcase hstackne
      | cons a ts => exact ⟨a, ts, rfl⟩
    rw [hts]
    rw [hts] at hrun
    simp only [hrun]
  have hmemC : ∀ x, x ∈ C ↔ closure.getD x false = true := fun x => extract_mem
  have hseeds : ∀ s ∈ S, s ∈ C := by
    intro s hs
    rw [hmemC]
    refine ecLoopG_covers hrun s ?_
    rw [List.mem_reverse]
    unfold sortDedup
    rw [List.mem_dedup, List.mem_insertionSort]
    exact hs
  have hbound : ∀ x ∈ C, x < nfa.transition.length := by
    intro x hx
    rw [hmemC] at hx
    have := getD_true_lt hx
    omega
  have hclosed : ∀ x ∈ C, ∀ y ∈ epsTargets nfa.transition K x, y ∈ C := by
    intro x hx y hy
    rw [hmemC] at hx ⊢
    rw [← hepsIdx] at hy
    refine ecLoopG_closed ?_ hrun x hx y hy
    intro z hz
    rw [getD_replicate_false] at hz
    cases hz
  have hleast : ∀ (R : Nat → Prop),
      (∀ a, R a → ∀ b ∈ epsTargets nfa.transition K a, R b) →
      (∀ s ∈ S, R s) → ∀ x ∈ C, R x := by
    intro R hRstep hRseed x hx
    rw [hmemC] at hx
    rw [← hepsIdx] at hRstep
    refine ecLoopG_sound hRstep ?_ ?_ hrun x hx
    · exact fun z hz => hRseed z (hstackmem z hz)
    · intro z hz
      rw [getD_replicate_false] at hz
      cases hz
  exact ⟨C, hval, extract_sorted closure, hseeds, hbound, hclosed, hleast⟩

/-- C8.  On a well-formed NFA and a non-empty set `S` of its state indices,
`Nfa::empty_closure` returns a strictly sorted (hence deduplicated) set of
states that contains the seeds, and applying it to its own result returns
the same set: ε-closure is idempotent. -/
theorem C8_empty_closure_idempotent (nfa : Nfa) (hwf : NfaWF nfa) (S : List Nat)
    (hS : ∀ s ∈ S, s < nfa.transition.length) (hne : S ≠ []) :
    ∃ C, nfa.emptyClosure S = some (some C) ∧
      List.Sorted (· < ·) C ∧ (∀ s ∈ S, s ∈ C) ∧
      nfa.emptyClosure C = some (some C) := by
  obtain ⟨C, hval, hsorted, hseeds, hbound, hclosed, -⟩ :=
    emptyClosure_props nfa hwf S hS hne
  have hCne : C ≠ [] := by
    obtain ⟨a, ha⟩ := List.exists_mem_of_ne_nil S hne
    intro hnil
    have := hseeds a ha
    rw [hnil] at this
    cases this
  obtain ⟨C₂, hval₂, hsorted₂, hseeds₂, -, -, hleast₂⟩ :=
    emptyClosure_props nfa hwf C hbound hCne
  have hC₂eq : C₂ = C := by
    refine sorted_lt_eq_of_mem_iff hsorted₂ hsorted ?_
    intro x
    constructor
    · intro hx
      exact hleast₂ (· ∈ C) hclosed (fun s hs => hs) x hx
    · intro hx
      exact hseeds₂ x hx
  rw [hC₂eq] at hval₂
  exact ⟨C, hval, hsorted, hseeds, hval₂⟩

/-- Witness for C8: a two-state NFA with a single ε edge, seeds `[0]`. -/
theorem C8_witness :
    ∃ C, Nfa.emptyClosure ⟨[0, 1], [[none, some [1]], [none, none]], [('a', 0)]⟩ [0] =
        some (some C) ∧
      List.Sorted (· < ·) C ∧ (∀ s ∈ [0], s ∈ C) ∧
      Nfa.emptyClosure ⟨[0, 1], [[none, some [1]], [none, none]], [('a', 0)]⟩ C =
        some (some C) :=
  C8_empty_closure_idempotent ⟨[0, 1], [[none, some [1]], [none, none]], [('a', 0)]⟩
    (by decide) [0] (by decide) (by decide)

/-! ## Claim C3 : the refinement splits by raw successor rows, not by blocks -/

/-- C3 counterexample.  The pipeline DFA of regex `a(ab)*|b(ab)*` over
alphabet `ab` is minimized to six states, among which the two distinct
accepting states 4 and 5 are behaviorally equivalent: running
`Dfa::accepts` from either state gives the same verdict on every word.
`divide` keyed the split by each member's raw transition row — states
whose successors differ as indices but are equivalent as states are never
merged — so the claimed block-tuple refinement and the resulting
minimality both fail. -/
theorem C3_counterexample :
    ∃ D, Dfa.fromRegexF 2000 "a(ab)*|b(ab)*".data "ab".data 1 = some D ∧
      D.marks.length = 6 ∧ (4 : Nat) ≠ 5 ∧
      (∀ w, acceptsLoop D 4 w = acceptsLoop D 5 w) := by
  refine ⟨⟨[0, 0, 0, 0, 1, 1], [[4, 5], [2, 5], [2, 2], [2, 4], [3, 2], [1, 2]],
    [('b', 1), ('a', 0)]⟩, by decide, rfl, by decide, ?_⟩
  set D : Dfa := ⟨[0, 0, 0, 0, 1, 1], [[4, 5], [2, 5], [2, 2], [2, 4], [3, 2], [1, 2]],
    [('b', 1), ('a', 0)]⟩ with hD
  have key : ∀ w, (acceptsLoop D 4 w = acceptsLoop D 5 w) ∧
      (acceptsLoop D 3 w = acceptsLoop D 1 w) := by
    intro w
    induction w with
    | nil => exact ⟨rfl, rfl⟩
    | cons c rest ih =>
      by_cases ha : c = 'a'
      · subst ha
        constructor
        · show acceptsLoop D 3 rest = acceptsLoop D 1 rest
          exact ih.2
        · show acceptsLoop D 2 rest = acceptsLoop D 2 rest
          rfl
      · by_cases hb : c = 'b'
        · subst hb
          constructor
          · show acceptsLoop D 2 rest = acceptsLoop D 2 rest
            rfl
          · show acceptsLoop D 4 rest = acceptsLoop D 5 rest
            exact ih.1
        · have hlk : List.lookup c D.symbolIndices = none := by
            simp only [hD, List.lookup,
              show (c == 'b') = false from beq_eq_false_iff_ne.mpr hb,
              show (c == 'a') = false from beq_eq_false_iff_ne.mpr ha]
          constructor <;>
            · show acceptsLoop D _ (c :: rest) = acceptsLoop D _ (c :: rest)
              rw [acceptsLoop, acceptsLoop, hlk]
  exact fun w => (key w).1

theorem mapM_option_forall2 {α β : Type} {f : α → Option β} :
    ∀ {l : List α} {r : List β}, l.mapM f = some r →
      List.Forall₂ (fun a b => f a = some b) l r := by
  intro l
  rw [← List.mapM'_eq_mapM]
  induction l with
  | nil => intro r h; cases h; exact List.Forall₂.nil
  | cons a t ih =>
    intro r h
    rw [List.mapM'_cons] at h
    cases hfa : f a with
    | none => simp [hfa] at h
    | some b =>
      simp only [hfa, Option.bind_eq_bind, Option.some_bind] at h
      cases hmt : t.mapM' f with
      | none => simp [hmt] at h
      | some bs =>
        simp only [hmt, Option.some_bind, Option.pure_def, Option.some.injEq] at h
        rw [← h]
        exact List.Forall₂.cons hfa (ih hmt)

theorem forall2_mem_left {α β : Type} {R : α → β → Prop} :
    ∀ {l : List α} {r : List β}, List.Forall₂ R l r → ∀ a ∈ l, ∃ b ∈ r, R a b := by
  intro l r h
  induction h with
  | nil => intro a ha; cases ha
  | cons h₁ _ ih =>
    intro a ha
    rcases List.mem_cons.mp ha with rfl | ha'
    · exact ⟨_, List.mem_cons_self _ _, h₁⟩
    · obtain ⟨b, hb, hR⟩ := ih a ha'
      exact ⟨b, List.mem_cons_of_mem _ hb, hR⟩

theorem forall2_mem_right {α β : Type} {R : α → β → Prop} :
    ∀ {l : List α} {r : List β}, List.Forall₂ R l r → ∀ b ∈ r, ∃ a ∈ l, R a b := by
  intro l r h
  induction h with
  | nil => intro b hb; cases hb
  | cons h₁ _ ih =>
    intro b hb
    rcases List.mem_cons.mp hb with rfl | hb'
    · exact ⟨_, List.mem_cons_self _ _, h₁⟩
    · obtain ⟨a, ha, hR⟩ := ih b hb'
      exact ⟨a, List.mem_cons_of_mem _ ha, hR⟩

theorem groupMapVals_keys_eq {κ α : Type} [DecidableEq κ] {pairs : List (κ × α)}
    (h : (groupMapVals pairs).length = 1) :
    ∀ p ∈ pairs, ∀ q ∈ pairs, p.1 = q.1 := by
  unfold groupMapVals at h
  rw [List.length_map] at h
  intro p hp q hq
  have hpk : p.1 ∈ (pairs.map Prod.fst).dedup :=
    List.mem_dedup.mpr (List.mem_map_of_mem _ hp)
  have hqk : q.1 ∈ (pairs.map Prod.fst).dedup :=
    List.mem_dedup.mpr (List.mem_map_of_mem _ hq)
  cases hd : (pairs.map Prod.fst).dedup with
  | nil => rw [hd] at hpk; cases hpk
  | cons k tail =>
    rw [hd] at h hpk hqk
    simp only [List.length_cons] at h
    have htail : tail = [] := List.length_eq_zero.mp (by omega)
    rw [htail] at hpk hqk
    have h1 : p.1 = k := by simpa using hpk
    have h2 : q.1 = k := by simpa using hqk
    rw [h1, h2]

theorem groupMapVals_group_key {κ α : Type} [DecidableEq κ] {pairs : List (κ × α)} :
    ∀ g ∈ groupMapVals pairs, ∃ k, ∀ v ∈ g, (k, v) ∈ pairs := by
  intro g hg
  unfold groupMapVals at hg
  obtain ⟨k, -, hk⟩ := List.mem_map.mp hg
  refine ⟨k, ?_⟩
  intro v hv
  rw [← hk] at hv
  obtain ⟨p, hp, hpv⟩ := List.mem_map.mp hv
  have hmem := (List.mem_filter.mp hp).1
  have hpk : p.1 = k := of_decide_eq_true (List.mem_filter.mp hp).2
  have hpeq : p = (k, v) := by
    cases p
    simp only [Prod.mk.injEq]
    exact ⟨hpk, hpv⟩
  rw [← hpeq]
  exact hmem

theorem sortByHead_mem {groups : List (List Nat)} {g : List Nat} :
    g ∈ sortByHead groups ↔ g ∈ groups :=
  List.mem_insertionSort _

theorem sortByHead_length (groups : List (List Nat)) :
    (sortByHead groups).length = groups.length :=
  List.length_insertionSort _ _

/-- Every group the refinement loop outputs is (member-wise) contained in
one of its input groups. -/
theorem divideLoop_groups_sub {tr : List (List Nat)} :
    ∀ {fuel : Nat} {groups : List (List Nat)} {sg : List Nat} {idx : Nat}
      {G : List (List Nat)} {SG : List Nat},
      divideLoop tr fuel groups sg idx = some (G, SG) →
      ∀ g ∈ G, ∃ g₀ ∈ groups, ∀ x ∈ g, x ∈ g₀ := by
  intro fuel
  induction fuel with
  | zero => intro groups sg idx G SG h; cases h
  | succ fuel ih =>
    intro groups sg idx G SG h
    simp only [divideLoop] at h
    split at h
    case isTrue hidx =>
      split at h
      case h_1 => cases h
      case h_2 currentGroup hcg =>
        split at h
        case h_1 => cases h
        case h_2 keyed hkeyed =>
          split at h
          case isTrue => cases h
          case isFalse h0 =>
            split at h
            case isTrue h1 => exact ih h
            case isFalse h1 =>
              split at h
              case h_1 => cases h
              case h_2 sg1 hfold1 =>
                split at h
                case h_1 => cases h
                case h_2 sg2 hfold2 =>
                  intro g hg
                  obtain ⟨g₁, hg₁, hsub₁⟩ := ih h g hg
                  rcases List.mem_append.mp hg₁ with h' | h'
                  · rcases List.mem_append.mp h' with h'' | h''
                    · exact ⟨g₁, List.mem_of_mem_eraseIdx (List.mem_of_mem_take h''),
                        hsub₁⟩
                    · have hcur : currentGroup ∈ groups := List.get?_mem hcg
                      refine ⟨currentGroup, hcur, ?_⟩
                      intro x hx
                      have hxg₁ := hsub₁ x hx
                      rw [sortByHead_mem] at h''
                      obtain ⟨k, hk⟩ := groupMapVals_group_key g₁ h''
                      have hkx := hk x hxg₁
                      obtain ⟨a, ha, hfa⟩ :=
                        forall2_mem_right (mapM_option_forall2 hkeyed) _ hkx
                      cases htra : tr.get? a with
                      | none => rw [htra] at hfa; cases hfa
                      | some row =>
                        rw [htra] at hfa
                        simp only [Option.map_some', Option.some.injEq,
                          Prod.mk.injEq] at hfa
                        rw [← hfa.2]
                        exact ha
                  · exact ⟨g₁, List.mem_of_mem_eraseIdx (List.mem_of_mem_drop h'),
                      hsub₁⟩
    case isFalse hidx =>
      cases h
      intro g hg
      exact ⟨g, hg, fun x hx => hx⟩

/-- At the fixpoint of the refinement loop every output group is uniform in
its members' raw transition rows: the loop splits exactly the groups whose
members disagree on their rows. -/
theorem divideLoop_rowUniform {tr : List (List Nat)} :
    ∀ {fuel : Nat} {groups : List (List Nat)} {sg : List Nat} {idx : Nat}
      {G : List (List Nat)} {SG : List Nat},
      divideLoop tr fuel groups sg idx = some (G, SG) →
      (∀ g ∈ groups.take idx, rowUniform tr g) →
      ∀ g ∈ G, rowUniform tr g := by
  intro fuel
  induction fuel with
  | zero => intro groups sg idx G SG h; cases h
  | succ fuel ih =>
    intro groups sg idx G SG h hpre
    simp only [divideLoop] at h
    split at h
    case isTrue hidx =>
      split at h
      case h_1 => cases h
      case h_2 currentGroup hcg =>
        split at h
        case h_1 => cases h
        case h_2 keyed hkeyed =>
          split at h
          case isTrue => cases h
          case isFalse h0 =>
            split at h
            case isTrue h1 =>
              refine ih h ?_
              intro g hg
              rw [List.take_succ] at hg
              rcases List.mem_append.mp hg with hg' | hg'
              · exact hpre g hg'
              · have hgc : g = currentGroup := by
                  rw [← List.get?_eq_getElem?, hcg] at hg'
                  simpa using hg'
                subst hgc
                intro x hx y hy
                obtain ⟨bx, hbx, hfx⟩ :=
                  forall2_mem_left (mapM_option_forall2 hkeyed) x hx
                obtain ⟨by_, hby, hfy⟩ :=
                  forall2_mem_left (mapM_option_forall2 hkeyed) y hy
                have hkeys : bx.1 = by_.1 := by
                  refine groupMapVals_keys_eq ?_ bx hbx by_ hby
                  have := sortByHead_length (groupMapVals keyed)
                  omega
                cases htrx : tr.get? x with
                | none => rw [htrx] at hfx; cases hfx
                | some rowx =>
                  cases htry : tr.get? y with
                  | none => rw [htry] at hfy; cases hfy
                  | some rowy =>
                    rw [htrx] at hfx
                    rw [htry] at hfy
                    simp only [Option.map_some', Option.some.injEq] at hfx hfy
                    rw [← hfx, ← hfy] at hkeys
                    simpa using hkeys
            case isFalse h1 =>
              split at h
              case h_1 => cases h
              case h_2 sg1 hfold1 =>
                split at h
                case h_1 => cases h
                case h_2 sg2 hfold2 =>
                  exact ih h (by simp)
    case isFalse hidx =>
      cases h
      intro g hg
      exact hpre g (by rwa [List.take_of_length_le (by omega)])

/-- The initial partition groups states of equal mark. -/
theorem fromDfa_groups_marksUniform (d : Dfa) :
    ∀ g ∈ (DfaCloud.fromDfa d).groups, marksUniform d.marks g := by
  intro g hg
  have hgr : (DfaCloud.fromDfa d).groups =
      sortByHead (groupMapVals (d.marks.enum.map (fun p => (p.2, p.1)))) := rfl
  rw [hgr, sortByHead_mem] at hg
  obtain ⟨k, hk⟩ := groupMapVals_group_key g hg
  have hval : ∀ v, (k, v) ∈ d.marks.enum.map (fun p => (p.2, p.1)) →
      d.marks.get? v = some k := by
    intro v hv
    obtain ⟨p, hp, hpe⟩ := List.mem_map.mp hv
    obtain ⟨i, m⟩ := p
    simp only [Prod.mk.injEq] at hpe
    obtain ⟨rfl, rfl⟩ := hpe
    rw [List.get?_eq_getElem?]
    exact List.mk_mem_enum_iff_getElem?.mp hp
  intro x hx y hy
  rw [hval x (hk x hx), hval y (hk y hy)]

/-- C3, amended.  The refinement loop of `DfaCloud::divide` splits a block
exactly when its members disagree on their raw per-symbol successor-state
rows (not on the blocks of those successors): whenever it completes, every
final block is uniform in transition row and in mark.  Behaviorally
equivalent states with different rows are *not* merged
(`C3_counterexample`), but on the textbook regex `(a|b)*a(a|b)` over `ab`
the pipeline still minimizes to exactly 4 states. -/
theorem C3_raw_row_refinement_and_textbook_count :
    (∀ (d : Dfa) (fuel : Nat) (G : List (List Nat)) (SG : List Nat),
      divideLoop (DfaCloud.fromDfa d).stateTransition fuel (DfaCloud.fromDfa d).groups
        (DfaCloud.fromDfa d).stateGroups 0 = some (G, SG) →
      ∀ g ∈ G, rowUniform d.transition g ∧ marksUniform d.marks g) ∧
    (Dfa.fromRegexF 2000 "(a|b)*a(a|b)".data "ab".data 1).map (fun d => d.marks.length) =
      some 4 := by
  constructor
  · intro d fuel G SG h g hg
    have hst : (DfaCloud.fromDfa d).stateTransition = d.transition := rfl
    rw [hst] at h
    constructor
    · exact divideLoop_rowUniform h (by simp) g hg
    · obtain ⟨g₀, hg₀, hsub⟩ := divideLoop_groups_sub h g hg
      have hmu := fromDfa_groups_marksUniform d g₀ hg₀
      exact fun x hx y hy => hmu x (hsub x hx) y (hsub y hy)
  · decide

/-- Witness for the amended C3: the refinement of a concrete two-state DFA
completes and its blocks are row- and mark-uniform. -/
theorem C3_witness :
    ∃ G SG,
      divideLoop (DfaCloud.fromDfa ⟨[0, 0], [[1], [1]], [('a', 0)]⟩).stateTransition 10
        (DfaCloud.fromDfa ⟨[0, 0], [[1], [1]], [('a', 0)]⟩).groups
        (DfaCloud.fromDfa ⟨[0, 0], [[1], [1]], [('a', 0)]⟩).stateGroups 0 = some (G, SG) ∧
      ∀ g ∈ G, rowUniform (Dfa.transition ⟨[0, 0], [[1], [1]], [('a', 0)]⟩) g ∧
        marksUniform (Dfa.marks ⟨[0, 0], [[1], [1]], [('a', 0)]⟩) g := by
  obtain ⟨⟨G, SG⟩, hpair⟩ := Option.isSome_iff_exists.mp
    (show (divideLoop (DfaCloud.fromDfa ⟨[0, 0], [[1], [1]], [('a', 0)]⟩).stateTransition 10
      (DfaCloud.fromDfa ⟨[0, 0], [[1], [1]], [('a', 0)]⟩).groups
      (DfaCloud.fromDfa ⟨[0, 0], [[1], [1]], [('a', 0)]⟩).stateGroups 0).isSome by decide)
  exact ⟨G, SG, hpair,
    C3_raw_row_refinement_and_textbook_count.1 ⟨[0, 0], [[1], [1]], [('a', 0)]⟩ 10 G SG hpair⟩

/-! ## C2 : language equivalence of the NFA, the subset DFA and the minimized DFA

The source has no set-level NFA acceptance function (src/nfa.rs only builds
the machine); the definitions below marked "Modelled from the spec" are the
spec's subset simulation (spec §4.4, §4.5, §8), against which the code's
subset construction and minimization are verified. -/

theorem epsClosureP_congr {nfa : Nfa} {P Q : Nat → Prop} (h : ∀ z, P z ↔ Q z) :
    ∀ x, EpsClosureP nfa P x ↔ EpsClosureP nfa Q x := by
  intro x
  constructor
  · rintro ⟨s, hs, hp⟩; exact ⟨s, (h s).mp hs, hp⟩
  · rintro ⟨s, hs, hp⟩; exact ⟨s, (h s).mpr hs, hp⟩

theorem nfaStepP_congr {nfa : Nfa} {P Q : Nat → Prop} (h : ∀ z, P z ↔ Q z) :
    ∀ c x, NfaStepP nfa P c x ↔ NfaStepP nfa Q c x := by
  intro c x
  unfold NfaStepP
  cases List.lookup c nfa.symbolsTable with
  | none => exact Iff.rfl
  | some σ =>
    exact epsClosureP_congr (fun z => by
      constructor
      · rintro ⟨a, ha, hz⟩; exact ⟨a, (h a).mp ha, hz⟩
      · rintro ⟨a, ha, hz⟩; exact ⟨a, (h a).mpr ha, hz⟩) x

theorem nfaRunFrom_congr {nfa : Nfa} :
    ∀ (w : List Char) {P Q : Nat → Prop}, (∀ z, P z ↔ Q z) →
      ∀ x, NfaRunFrom nfa P w x ↔ NfaRunFrom nfa Q w x := by
  intro w
  induction w with
  | nil => intro P Q h x; exact h x
  | cons c rest ih =>
    intro P Q h x
    exact ih (nfaStepP_congr h c) x

/-- A run from the empty set stays empty. -/
theorem nfaRunFrom_empty {nfa : Nfa} :
    ∀ (w : List Char) {P : Nat → Prop}, (∀ s, ¬ P s) →
      ∀ s, ¬ NfaRunFrom nfa P w s := by
  intro w
  induction w with
  | nil => intro P h s; exact h s
  | cons c rest ih =>
    intro P h s
    refine ih (fun z hz => ?_) s
    unfold NfaStepP at hz
    cases hlu : List.lookup c nfa.symbolsTable with
    | none => simp only [hlu] at hz
    | some σ =>
      simp only [hlu] at hz
      obtain ⟨a, ⟨x, hx, _⟩, _⟩ := hz
      exact h x hx

theorem mem_sortDedup {l : List Nat} {x : Nat} : x ∈ sortDedup l ↔ x ∈ l := by
  unfold sortDedup
  rw [List.mem_dedup]
  exact (List.perm_insertionSort _ l).mem_iff

/-- `empty_closure(S).unwrap_or(vec![])` on a well-formed NFA and valid
seeds: no panic, and the unwrapped result is the strictly sorted list of
exactly the ε-reachable states. -/
theorem emptyClosure_unwrap_spec (nfa : Nfa) (hwf : NfaWF nfa) (S : List Nat)
    (hS : ∀ s ∈ S, s < nfa.transition.length) :
    ∃ r C, nfa.emptyClosure S = some r ∧ r.getD [] = C ∧
      List.Sorted (· < ·) C ∧ (∀ x ∈ C, x < nfa.transition.length) ∧
      (∀ x, x ∈ C ↔ EpsClosureP nfa (fun s => s ∈ S) x) := by
  cases S with
  | nil =>
    refine ⟨none, [], ?_, rfl, by simp, by simp, ?_⟩
    · unfold Nfa.emptyClosure
      cases htr0 : nfa.transition.get? 0 with
      | none =>
        exfalso
        rw [List.get?_eq_none] at htr0
        exact absurd hwf.1 (Nat.not_lt.mpr htr0)
      | some row0 => rfl
    · intro x
      simp only [List.not_mem_nil, false_iff]
      rintro ⟨s, hs, _⟩
      exact hs
  | cons s₀ S' =>
    obtain ⟨C, heq, hsort, hseeds, hbound, hclosed, hleast⟩ :=
      emptyClosure_props nfa hwf (s₀ :: S') hS (by simp)
    refine ⟨some C, C, heq, rfl, hsort, hbound, ?_⟩
    intro x
    constructor
    · intro hx
      refine hleast (EpsClosureP nfa (fun s => s ∈ s₀ :: S')) ?_ ?_ x hx
      · rintro a ⟨s, hs, hp⟩ b hb
        exact ⟨s, hs, hp.tail hb⟩
      · intro s hs
        exact ⟨s, hs, Relation.ReflTransGen.refl⟩
    · rintro ⟨s, hs, hpath⟩
      induction hpath with
      | refl => exact hseeds s hs
      | tail _ hstep ih => exact hclosed _ ih _ hstep

/-- Every `nfa.marks.get?` succeeds on a valid state set, so the maximum
mark is computed without panic. -/
theorem mapM_option_some {α β : Type} {f : α → Option β} :
    ∀ {l : List α}, (∀ a ∈ l, ∃ b, f a = some b) →
      ∃ r, l.mapM f = some r ∧ List.Forall₂ (fun a b => f a = some b) l r := by
  intro l
  rw [← List.mapM'_eq_mapM]
  induction l with
  | nil => intro _; exact ⟨[], rfl, List.Forall₂.nil⟩
  | cons a t ih =>
    intro h
    obtain ⟨b, hb⟩ := h a (List.mem_cons_self _ _)
    obtain ⟨r, hr, hf⟩ := ih (fun x hx => h x (List.mem_cons_of_mem _ hx))
    refine ⟨b :: r, ?_, List.Forall₂.cons hb hf⟩
    rw [List.mapM'_cons, hb, hr]
    rfl

theorem nfaMaxMark_some {nfa : Nfa} (hwf : NfaWF nfa) {S : List Nat}
    (hS : ∀ x ∈ S, x < nfa.transition.length) :
    ∃ m, nfaMaxMark nfa S = some m := by
  obtain ⟨r, hr, _⟩ := @mapM_option_some Nat Nat (fun x => nfa.marks.get? x) S
    (fun a ha => by
      have hlt : a < nfa.marks.length := by rw [hwf.2.1]; exact hS a ha
      exact ⟨_, List.get?_eq_get hlt⟩)
  exact ⟨r.foldl max 0, by unfold nfaMaxMark; rw [hr]; rfl⟩

theorem foldl_max_pos :
    ∀ {l : List Nat} {a : Nat}, 0 < l.foldl max a ↔ 0 < a ∨ ∃ x ∈ l, 0 < x := by
  intro l
  induction l with
  | nil => intro a; simp
  | cons b t ih =>
    intro a
    rw [List.foldl_cons, ih]
    constructor
    · rintro (h | h)
      · rcases Nat.lt_or_ge 0 a with ha | ha
        · exact Or.inl ha
        · refine Or.inr ⟨b, List.mem_cons_self _ _, ?_⟩
          omega
      · obtain ⟨x, hx, hpos⟩ := h
        exact Or.inr ⟨x, List.mem_cons_of_mem _ hx, hpos⟩
    · rintro (h | ⟨x, hx, hpos⟩)
      · exact Or.inl (by omega)
      · rcases List.mem_cons.mp hx with rfl | hx'
        · exact Or.inl (by omega)
        · exact Or.inr ⟨x, hx', hpos⟩

/-- The maximum mark of a subset is positive exactly when the subset holds
an accepting NFA state. -/
theorem nfaMaxMark_pos_iff {nfa : Nfa} {S : List Nat} {m : Nat}
    (h : nfaMaxMark nfa S = some m) :
    0 < m ↔ ∃ s ∈ S, ∃ ms, nfa.marks.get? s = some ms ∧ 0 < ms := by
  unfold nfaMaxMark at h
  cases hmm : S.mapM (fun x => nfa.marks.get? x) with
  | none => rw [hmm] at h; cases h
  | some r =>
    rw [hmm] at h
    have hf := mapM_option_forall2 hmm
    simp only [Option.map_some', Option.some.injEq] at h
    subst h
    rw [foldl_max_pos]
    constructor
    · rintro (h | ⟨x, hx, hpos⟩)
      · omega
      · obtain ⟨a, ha, hfa⟩ := forall2_mem_right hf x hx
        exact ⟨a, ha, x, hfa, hpos⟩
    · rintro ⟨s, hs, ms, hms, hpos⟩
      obtain ⟨b, hb, hfb⟩ := forall2_mem_left hf s hs
      rw [hms] at hfb
      injection hfb with hfb'
      exact Or.inr ⟨b, hb, hfb' ▸ hpos⟩

theorem get?_set_self' {α : Type} {l : List α} {i : Nat} {v : α} (h : i < l.length) :
    (l.set i v).get? i = some v := by
  induction l generalizing i with
  | nil => simp at h
  | cons a t ih =>
    cases i with
    | zero => rfl
    | succ i =>
      simp only [List.length_cons, Nat.succ_lt_succ_iff] at h
      simpa using ih h

theorem get?_set_ne' {α : Type} {l : List α} {i k : Nat} {v : α} (h : i ≠ k) :
    (l.set i v).get? k = l.get? k := by
  induction l generalizing i k with
  | nil => simp
  | cons a t ih =>
    cases i with
    | zero =>
      cases k with
      | zero => exact absurd rfl h
      | succ k => rfl
    | succ i =>
      cases k with
      | zero => rfl
      | succ k => simpa using ih (by omega)

theorem lookup_mem' {α β : Type} [BEq α] [LawfulBEq α] {l : List (α × β)} {k : α}
    {v : β} (h : List.lookup k l = some v) : (k, v) ∈ l := by
  obtain ⟨l₁, l₂, rfl, -⟩ := List.lookup_eq_some_iff.mp h
  simp

theorem lookup_eq_none_forall {α β : Type} [BEq α] [LawfulBEq α] {l : List (α × β)} {k : α}
    (h : List.lookup k l = none) : ∀ p ∈ l, p.1 ≠ k := by
  induction l with
  | nil => intro p hp; cases hp
  | cons q t ih =>
    rw [List.lookup_cons] at h
    cases hbe : (k == q.1) with
    | true =>
      simp only [hbe] at h
      cases h
    | false =>
      simp only [hbe] at h
      intro p hp
      rcases List.mem_cons.mp hp with rfl | hp'
      · intro hk
        rw [beq_eq_false_iff_ne] at hbe
        exact hbe hk.symm
      · exact ih h p hp'

theorem lookup_some_of_mem_nodup {α β : Type} [BEq α] [LawfulBEq α] {l : List (α × β)}
    (hn : (l.map Prod.fst).Nodup) {k : α} {v : β} (h : (k, v) ∈ l) :
    List.lookup k l = some v := by
  induction l with
  | nil => cases h
  | cons q t ih =>
    rw [List.map_cons, List.nodup_cons] at hn
    rw [List.lookup_cons]
    rcases List.mem_cons.mp h with rfl | h'
    · simp
    · have hne : k ≠ q.1 := by
        intro hk
        exact hn.1 (hk ▸ List.mem_map_of_mem Prod.fst h')
      have hbe : (k == q.1) = false := beq_eq_false_iff_ne.mpr hne
      simp only [hbe]
      exact ih hn.2 h'

theorem setAt2_eq {t : List (List Nat)} {i j v : Nat} {row : List Nat}
    (hi : t.get? i = some row) (hj : j < row.length) :
    setAt2 t i j v = some (t.set i (row.set j v)) := by
  unfold setAt2
  rw [hi]
  simp only [Option.bind_eq_bind, Option.some_bind]
  obtain ⟨x, hx⟩ : ∃ x, row.get? j = some x := ⟨_, List.get?_eq_get hj⟩
  simp only [hx]

theorem setAt_eq {l : List Nat} {i v : Nat} (h : i < l.length) :
    setAt l i v = some (l.set i v) := by
  unfold setAt
  obtain ⟨x, hx⟩ : ∃ x, l.get? i = some x := ⟨_, List.get?_eq_get h⟩
  rw [hx]

/-- The `candidate` fold of a single symbol step of `Dfa::from_nfa`: it
collects exactly the `symbol`-column targets of the current subset. -/
theorem moveFold_ok {nfa : Nfa} (hwf : NfaWF nfa) {symbol : Nat}
    (hσ : symbol < nfa.symbolsTable.length) :
    ∀ (S : List Nat) (acc : List Nat), (∀ s ∈ S, s < nfa.transition.length) →
      ∃ M, (S.foldlM (fun acc s => do
          let row ← nfa.transition.get? s
          match (← row.get? symbol) with
          | some rangeStates => pure (acc ++ rangeStates)
          | none => pure acc) acc) = some M ∧
        ∀ y, y ∈ M ↔ y ∈ acc ∨ ∃ x ∈ S, y ∈ epsTargets nfa.transition symbol x := by
  intro S
  induction S with
  | nil =>
    intro acc _
    exact ⟨acc, rfl, by simp⟩
  | cons s S' ih =>
    intro acc hS
    have hs : s < nfa.transition.length := hS s (List.mem_cons_self _ _)
    obtain ⟨row, hrow⟩ : ∃ row, nfa.transition.get? s = some row :=
      ⟨_, List.get?_eq_get hs⟩
    have hrlen : row.length = nfa.symbolsTable.length + 1 :=
      (hwf.2.2.1 row (List.get?_mem hrow)).1
    obtain ⟨cell, hcell⟩ : ∃ cell, row.get? symbol = some cell :=
      ⟨_, List.get?_eq_get (by omega)⟩
    have htg : epsTargets nfa.transition symbol s = cell.getD [] :=
      epsTargets_cell_eq hrow hcell
    rw [List.foldlM_cons]
    obtain ⟨M, hM, hmem⟩ := ih (acc ++ cell.getD [])
      (fun x hx => hS x (List.mem_cons_of_mem _ hx))
    have hredex : (do
        let row ← nfa.transition.get? s
        match (← row.get? symbol) with
        | some rangeStates => pure (acc ++ rangeStates)
        | none => pure acc) = some (acc ++ cell.getD []) := by
      rw [hrow]
      simp only [Option.bind_eq_bind, Option.some_bind, hcell]
      cases cell with
      | none => simp
      | some range => simp
    rw [hredex]
    simp only [Option.bind_eq_bind, Option.some_bind]
    refine ⟨M, hM, fun y => ?_⟩
    rw [hmem y, List.mem_append, ← htg]
    constructor
    · rintro ((h | h) | ⟨x, hx, hy⟩)
      · exact Or.inl h
      · exact Or.inr ⟨s, List.mem_cons_self _ _, h⟩
      · exact Or.inr ⟨x, List.mem_cons_of_mem _ hx, hy⟩
    · rintro (h | ⟨x, hx, hy⟩)
      · exact Or.inl (Or.inl h)
      · rcases List.mem_cons.mp hx with rfl | hx'
        · exact Or.inl (Or.inr hy)
        · exact Or.inr ⟨x, hx', hy⟩

theorem pair_eq_of_snd_nodup {α β : Type} {l : List (α × β)}
    (h : (l.map Prod.snd).Nodup) {p q : α × β} (hp : p ∈ l) (hq : q ∈ l)
    (he : p.2 = q.2) : p = q := by
  induction l with
  | nil => cases hp
  | cons a t ih =>
    rw [List.map_cons, List.nodup_cons] at h
    rcases List.mem_cons.mp hp with rfl | hp' <;> rcases List.mem_cons.mp hq with rfl | hq'
    · rfl
    · rw [he] at h
      exact absurd (List.mem_map_of_mem Prod.snd hq') h.1
    · rw [← he] at h
      exact absurd (List.mem_map_of_mem Prod.snd hp') h.1
    · exact ih h.2 hp' hq'

/-- One symbol step of the worklist loop succeeds and preserves the
invariant, filling column `σ`. -/
theorem subsetSymStep_ok {nfa : Nfa} (hwf : NfaWF nfa) {S : List Nat} {dfaIndex : Nat}
    {done : List Nat} {st : SubsetSt} {σ : Nat}
    (hσ : σ < nfa.symbolsTable.length) (hσd : σ ∉ done)
    (hinv : SymInv nfa nfa.symbolsTable.length S dfaIndex done st) :
    ∃ st', subsetSymStep nfa nfa.symbolsTable.length S dfaIndex st σ = some st' ∧
      SymInv nfa nfa.symbolsTable.length S dfaIndex (done ++ [σ]) st' ∧
      (∀ p ∈ st.table, p ∈ st'.table) ∧ st.stateCount ≤ st'.stateCount := by
  have hSval : ∀ x ∈ S, x < nfa.transition.length := hinv.keyValid _ hinv.entry
  obtain ⟨M, hM, hMmem⟩ := moveFold_ok hwf hσ S [] hSval
  have hsdv : ∀ x ∈ sortDedup M, x < nfa.transition.length := by
    intro x hx
    rw [mem_sortDedup] at hx
    rcases (hMmem x).mp hx with h | ⟨a, _, hy⟩
    · cases h
    · exact epsTargets_lt hwf a x hy
  obtain ⟨r, C, hec, hrC, hCsort, hCval, hCmem⟩ :=
    emptyClosure_unwrap_spec nfa hwf (sortDedup M) hsdv
  have hCspec : ∀ y, y ∈ C ↔
      EpsClosureP nfa (fun z => ∃ x ∈ S, z ∈ epsTargets nfa.transition σ x) y := by
    intro y
    rw [hCmem y]
    refine epsClosureP_congr (fun z => ?_) y
    rw [mem_sortDedup, hMmem z]
    simp
  have hdi : dfaIndex < st.transition.length := by
    have h1 := hinv.idxLe _ hinv.entry
    rw [hinv.tlen]
    omega
  obtain ⟨row, hrow⟩ : ∃ row, st.transition.get? dfaIndex = some row :=
    ⟨_, List.get?_eq_get hdi⟩
  have hrlen : row.length = nfa.symbolsTable.length := hinv.rows row (List.get?_mem hrow)
  unfold subsetSymStep
  simp only [Option.bind_eq_bind] at hM
  simp only [hM, Option.bind_eq_bind, Option.some_bind, hec, hrC]
  split
  next j hlook =>
    have hjC : (C, j) ∈ st.table := lookup_mem' hlook
    have hjle : j ≤ st.stateCount := hinv.idxLe _ hjC
    rw [setAt2_eq hrow (by omega)]
    simp only [Option.some_bind]
    refine ⟨_, rfl, ?_, fun p hp => hp, Nat.le_refl _⟩
    refine
      { tlen := by rw [List.length_set]; exact hinv.tlen
        mlen := hinv.mlen
        rows := ?_
        trBound := ?_
        keySorted := hinv.keySorted
        keyValid := hinv.keyValid
        idxLe := hinv.idxLe
        idxNodup := hinv.idxNodup
        keyNodup := hinv.keyNodup
        marksOk := hinv.marksOk
        stackKeys := hinv.stackKeys
        stackNodup := hinv.stackNodup
        entry := hinv.entry
        notStack := hinv.notStack
        doneOk := ?_
        others := ?_ }
    · intro r' hr'
      rcases List.mem_or_eq_of_mem_set hr' with h | h
      · exact hinv.rows r' h
      · rw [h, List.length_set]
        exact hrlen
    · intro r' hr' y hy
      rcases List.mem_or_eq_of_mem_set hr' with h | h
      · exact hinv.trBound r' h y hy
      · rw [h] at hy
        rcases List.mem_or_eq_of_mem_set hy with h' | h'
        · exact hinv.trBound row (List.get?_mem hrow) y h'
        · rw [h']
          exact hjle
    · intro σ' hσ'
      rcases List.mem_append.mp hσ' with hd | hs
      · obtain ⟨T', j', hTmem, hread, hspec⟩ := hinv.doneOk σ' hd
        refine ⟨T', j', hTmem, ?_, hspec⟩
        have hne : σ ≠ σ' := fun h => hσd (h ▸ hd)
        show (((st.transition.set dfaIndex (row.set σ j)).get? dfaIndex).bind
          fun row => row.get? σ') = some j'
        rw [get?_set_self' hdi, Option.some_bind, get?_set_ne' hne]
        rw [hrow, Option.some_bind] at hread
        exact hread
      · have hss : σ' = σ := by simpa using hs
        subst hss
        refine ⟨C, j, hjC, ?_, hCspec⟩
        show (((st.transition.set dfaIndex (row.set σ' j)).get? dfaIndex).bind
          fun row => row.get? σ') = some j
        rw [get?_set_self' hdi, Option.some_bind, get?_set_self' (by omega)]
    · intro p hp hpstack hpne
      have hpne2 : p.2 ≠ dfaIndex := by
        intro he
        have hpe : p = (S, dfaIndex) := pair_eq_of_snd_nodup hinv.idxNodup hp hinv.entry he
        exact hpne (by rw [hpe])
      intro σ'' hσ''
      obtain ⟨T', j', hTmem, hread, hspec⟩ := hinv.others p hp hpstack hpne σ'' hσ''
      refine ⟨T', j', hTmem, ?_, hspec⟩
      show (((st.transition.set dfaIndex (row.set σ j)).get? p.2).bind
        fun row => row.get? σ'') = some j'
      rw [get?_set_ne' (Ne.symm hpne2)]
      exact hread
  next hlook =>
    obtain ⟨m, hm⟩ := nfaMaxMark_some hwf hCval
    have hfresh : ∀ p ∈ st.table, p.1 ≠ C := lookup_eq_none_forall hlook
    have hSC : S ≠ C := hfresh _ hinv.entry
    have hCstack : C ∉ st.stack := by
      intro hCs
      obtain ⟨i, hi⟩ := hinv.stackKeys C hCs
      exact hfresh _ hi rfl
    have hrow1 : (st.transition ++
        [List.replicate nfa.symbolsTable.length 0]).get? dfaIndex = some row := by
      rw [List.get?_append hdi]
      exact hrow
    simp only [hm, Option.bind_eq_bind, Option.some_bind]
    rw [setAt2_eq hrow1 (by omega)]
    simp only [Option.some_bind]
    refine ⟨_, rfl, ?_, fun p hp => List.mem_cons_of_mem _ hp, Nat.le_succ _⟩
    refine
      { tlen := by
          rw [List.length_set, List.length_append, hinv.tlen]
          rfl
        mlen := by
          rw [List.length_append, hinv.mlen]
          rfl
        rows := ?_
        trBound := ?_
        keySorted := ?_
        keyValid := ?_
        idxLe := ?_
        idxNodup := ?_
        keyNodup := ?_
        marksOk := ?_
        stackKeys := ?_
        stackNodup := ?_
        entry := List.mem_cons_of_mem _ hinv.entry
        notStack := ?_
        doneOk := ?_
        others := ?_ }
    · intro r' hr'
      rcases List.mem_or_eq_of_mem_set hr' with h | h
      · rcases List.mem_append.mp h with h' | h'
        · exact hinv.rows r' h'
        · rw [List.mem_singleton.mp h']
          exact List.length_replicate _ _
      · rw [h, List.length_set]
        exact hrlen
    · intro r' hr' y hy
      rcases List.mem_or_eq_of_mem_set hr' with h | h
      · rcases List.mem_append.mp h with h' | h'
        · exact Nat.le_succ_of_le (hinv.trBound r' h' y hy)
        · rw [List.mem_singleton.mp h'] at hy
          rw [List.eq_of_mem_replicate hy]
          exact Nat.zero_le _
      · rw [h] at hy
        rcases List.mem_or_eq_of_mem_set hy with h' | h'
        · exact Nat.le_succ_of_le (hinv.trBound row (List.get?_mem hrow) y h')
        · rw [h']
    · intro p hp
      rcases List.mem_cons.mp hp with rfl | hp'
      · exact hCsort
      · exact hinv.keySorted p hp'
    · intro p hp
      rcases List.mem_cons.mp hp with rfl | hp'
      · exact hCval
      · exact hinv.keyValid p hp'
    · intro p hp
      rcases List.mem_cons.mp hp with rfl | hp'
      · exact Nat.le_refl _
      · exact Nat.le_succ_of_le (hinv.idxLe p hp')
    · rw [List.map_cons, List.nodup_cons]
      refine ⟨?_, hinv.idxNodup⟩
      intro hmem
      obtain ⟨p, hp, hpe⟩ := List.mem_map.mp hmem
      have := hinv.idxLe p hp
      omega
    · rw [List.map_cons, List.nodup_cons]
      refine ⟨?_, hinv.keyNodup⟩
      intro hmem
      obtain ⟨p, hp, hpe⟩ := List.mem_map.mp hmem
      exact hfresh p hp hpe
    · intro p hp
      rcases List.mem_cons.mp hp with rfl | hp'
      · refine ⟨m, hm, ?_⟩
        have hgc := List.get?_concat_length st.marks m
        rw [hinv.mlen] at hgc
        exact hgc
      · obtain ⟨m', hm', hr'⟩ := hinv.marksOk p hp'
        refine ⟨m', hm', ?_⟩
        rw [List.get?_append (by rw [hinv.mlen]; have := hinv.idxLe p hp'; omega)]
        exact hr'
    · intro q hq
      rcases List.mem_cons.mp hq with rfl | hq'
      · exact ⟨st.stateCount + 1, List.mem_cons_self _ _⟩
      · obtain ⟨i, hi⟩ := hinv.stackKeys q hq'
        exact ⟨i, List.mem_cons_of_mem _ hi⟩
    · exact List.nodup_cons.mpr ⟨hCstack, hinv.stackNodup⟩
    · intro hmem
      rcases List.mem_cons.mp hmem with h | h
      · exact hSC h
      · exact hinv.notStack h
    · intro σ' hσ'
      rcases List.mem_append.mp hσ' with hd | hs
      · obtain ⟨T', j', hTmem, hread, hspec⟩ := hinv.doneOk σ' hd
        refine ⟨T', j', List.mem_cons_of_mem _ hTmem, ?_, hspec⟩
        have hne : σ ≠ σ' := fun h => hσd (h ▸ hd)
        show ((((st.transition ++ [List.replicate nfa.symbolsTable.length 0]).set dfaIndex
          (row.set σ (st.stateCount + 1))).get? dfaIndex).bind
            fun row => row.get? σ') = some j'
        rw [get?_set_self' (by rw [List.length_append]; omega), Option.some_bind,
          get?_set_ne' hne]
        rw [hrow, Option.some_bind] at hread
        exact hread
      · have hss : σ' = σ := by simpa using hs
        subst hss
        refine ⟨C, st.stateCount + 1, List.mem_cons_self _ _, ?_, hCspec⟩
        show ((((st.transition ++ [List.replicate nfa.symbolsTable.length 0]).set dfaIndex
          (row.set σ' (st.stateCount + 1))).get? dfaIndex).bind
            fun row => row.get? σ') = some (st.stateCount + 1)
        rw [get?_set_self' (by rw [List.length_append]; omega), Option.some_bind,
          get?_set_self' (by omega)]
    · intro p hp hpstack hpne
      rcases List.mem_cons.mp hp with rfl | hp'
      · exact absurd (List.mem_cons_self _ _) hpstack
      · have hpstack' : p.1 ∉ st.stack := fun h => hpstack (List.mem_cons_of_mem _ h)
        have hpne2 : p.2 ≠ dfaIndex := by
          intro he
          have hpe : p = (S, dfaIndex) :=
            pair_eq_of_snd_nodup hinv.idxNodup hp' hinv.entry he
          exact hpne (by rw [hpe])
        intro σ'' hσ''
        obtain ⟨T', j', hTmem, hread, hspec⟩ :=
          hinv.others p hp' hpstack' hpne σ'' hσ''
        refine ⟨T', j', List.mem_cons_of_mem _ hTmem, ?_, hspec⟩
        have hp2lt : p.2 < st.transition.length := by
          rw [hinv.tlen]
          have := hinv.idxLe p hp'
          omega
        show ((((st.transition ++ [List.replicate nfa.symbolsTable.length 0]).set dfaIndex
          (row.set σ (st.stateCount + 1))).get? p.2).bind
            fun row => row.get? σ'') = some j'
        rw [get?_set_ne' (Ne.symm hpne2), List.get?_append hp2lt]
        exact hread

/-- Folding the symbol loop over a list of fresh, distinct columns. -/
theorem symFold_ok {nfa : Nfa} (hwf : NfaWF nfa) {S : List Nat} {dfaIndex : Nat} :
    ∀ (syms done : List Nat) (st : SubsetSt),
      (∀ σ ∈ syms, σ < nfa.symbolsTable.length) →
      (∀ σ ∈ syms, σ ∉ done) → syms.Nodup →
      SymInv nfa nfa.symbolsTable.length S dfaIndex done st →
      ∃ st', syms.foldlM (subsetSymStep nfa nfa.symbolsTable.length S dfaIndex) st
          = some st' ∧
        SymInv nfa nfa.symbolsTable.length S dfaIndex (done ++ syms) st' ∧
        (∀ p ∈ st.table, p ∈ st'.table) ∧ st.stateCount ≤ st'.stateCount := by
  intro syms
  induction syms with
  | nil =>
    intro done st _ _ _ hinv
    refine ⟨st, rfl, ?_, fun p hp => hp, Nat.le_refl _⟩
    simpa using hinv
  | cons σ rest ih =>
    intro done st hlt hnd hnodup hinv
    obtain ⟨st₁, hstep, hinv₁, hmono₁, hcnt₁⟩ :=
      subsetSymStep_ok hwf (hlt σ (List.mem_cons_self _ _))
        (hnd σ (List.mem_cons_self _ _)) hinv
    have hnodup' := List.nodup_cons.mp hnodup
    obtain ⟨st₂, hfold, hinv₂, hmono₂, hcnt₂⟩ := ih (done ++ [σ]) st₁
      (fun τ hτ => hlt τ (List.mem_cons_of_mem _ hτ))
      (fun τ hτ hmem => by
        rcases List.mem_append.mp hmem with h | h
        · exact hnd τ (List.mem_cons_of_mem _ hτ) h
        · rw [List.mem_singleton.mp h] at hτ
          exact hnodup'.1 hτ)
      hnodup'.2 hinv₁
    refine ⟨st₂, ?_, ?_, fun p hp => hmono₂ p (hmono₁ p hp), Nat.le_trans hcnt₁ hcnt₂⟩
    · rw [List.foldlM_cons, hstep]
      simp only [Option.bind_eq_bind, Option.some_bind]
      exact hfold
    · have hre : (done ++ [σ]) ++ rest = done ++ σ :: rest := by
        rw [List.append_assoc]
        rfl
      rw [← hre]
      exact hinv₂

theorem pair_eq_of_fst_nodup {α β : Type} {l : List (α × β)}
    (h : (l.map Prod.fst).Nodup) {p q : α × β} (hp : p ∈ l) (hq : q ∈ l)
    (he : p.1 = q.1) : p = q := by
  induction l with
  | nil => cases hp
  | cons a t ih =>
    rw [List.map_cons, List.nodup_cons] at h
    rcases List.mem_cons.mp hp with rfl | hp' <;> rcases List.mem_cons.mp hq with rfl | hq'
    · rfl
    · rw [he] at h
      exact absurd (List.mem_map_of_mem Prod.fst hq') h.1
    · rw [← he] at h
      exact absurd (List.mem_map_of_mem Prod.fst hp') h.1
    · exact ih h.2 hp' hq'

/-- After all columns are processed the popped entry rejoins `procd`. -/
theorem symInv_to_wlinv {nfa : Nfa} {S : List Nat} {i : Nat} {st : SubsetSt}
    (hinv : SymInv nfa nfa.symbolsTable.length S i
      (List.range nfa.symbolsTable.length) st) :
    WLInv nfa nfa.symbolsTable.length st :=
  { tlen := hinv.tlen, mlen := hinv.mlen, rows := hinv.rows, trBound := hinv.trBound
    keySorted := hinv.keySorted, keyValid := hinv.keyValid, idxLe := hinv.idxLe
    idxNodup := hinv.idxNodup, keyNodup := hinv.keyNodup, marksOk := hinv.marksOk
    stackKeys := hinv.stackKeys, stackNodup := hinv.stackNodup
    procd := by
      intro p hp hps
      by_cases hpe : p.1 = S
      · have hpq : p = (S, i) := pair_eq_of_fst_nodup hinv.keyNodup hp hinv.entry hpe
        rw [hpq]
        intro σ hσ
        exact hinv.doneOk σ (List.mem_range.mpr hσ)
      · exact hinv.others p hp hps hpe }

/-- Popping the top of the worklist yields the symbol-loop invariant with
no column yet filled. -/
theorem wlinv_pop {nfa : Nfa} {st : SubsetSt} {S : List Nat}
    {rest : List (List Nat)} {i : Nat}
    (hinv : WLInv nfa nfa.symbolsTable.length st) (hstk : st.stack = S :: rest)
    (hie : (S, i) ∈ st.table) :
    SymInv nfa nfa.symbolsTable.length S i [] { st with stack := rest } :=
  { tlen := hinv.tlen, mlen := hinv.mlen, rows := hinv.rows, trBound := hinv.trBound
    keySorted := hinv.keySorted, keyValid := hinv.keyValid, idxLe := hinv.idxLe
    idxNodup := hinv.idxNodup, keyNodup := hinv.keyNodup, marksOk := hinv.marksOk
    stackKeys := fun q hq => hinv.stackKeys q (by
      rw [hstk]
      exact List.mem_cons_of_mem _ hq)
    stackNodup := by
      have h := hinv.stackNodup
      rw [hstk] at h
      exact (List.nodup_cons.mp h).2
    entry := hie
    notStack := by
      have h := hinv.stackNodup
      rw [hstk] at h
      exact (List.nodup_cons.mp h).1
    doneOk := fun σ hσ => absurd hσ (List.not_mem_nil σ)
    others := fun p hp hps hpne => hinv.procd p hp (by
      rw [hstk]
      intro hmem
      rcases List.mem_cons.mp hmem with he | hm
      · exact hpne he
      · exact hps hm) }

/-- The worklist loop of `Dfa::from_nfa`: on success there is a complete
subset table describing the returned transition matrix and marks. -/
theorem fromNfaLoop_ok {nfa : Nfa} (hwf : NfaWF nfa) :
    ∀ (fuel : Nat) (st : SubsetSt) (tr : List (List Nat)) (mks : List Nat),
      WLInv nfa nfa.symbolsTable.length st →
      fromNfaLoop nfa nfa.symbolsTable.length fuel st = some (tr, mks) →
      ∃ tbl, (∀ p ∈ st.table, p ∈ tbl) ∧
        tr.length = mks.length ∧ 0 < tr.length ∧
        (∀ row ∈ tr, row.length = nfa.symbolsTable.length) ∧
        (∀ row ∈ tr, ∀ y ∈ row, y < tr.length) ∧
        (∀ p ∈ tbl, EntryDone nfa tbl tr nfa.symbolsTable.length p.1 p.2 ∧
          ∃ m, nfaMaxMark nfa p.1 = some m ∧ mks.get? p.2 = some m) := by
  have hexit : ∀ (st : SubsetSt), WLInv nfa nfa.symbolsTable.length st →
      st.stack = [] →
      ∃ tbl, (∀ p ∈ st.table, p ∈ tbl) ∧
        st.transition.length = st.marks.length ∧ 0 < st.transition.length ∧
        (∀ row ∈ st.transition, row.length = nfa.symbolsTable.length) ∧
        (∀ row ∈ st.transition, ∀ y ∈ row, y < st.transition.length) ∧
        (∀ p ∈ tbl, EntryDone nfa tbl st.transition nfa.symbolsTable.length p.1 p.2 ∧
          ∃ m, nfaMaxMark nfa p.1 = some m ∧ st.marks.get? p.2 = some m) := by
    intro st hinv hstk
    refine ⟨st.table, fun p hp => hp, by rw [hinv.tlen, hinv.mlen],
      by rw [hinv.tlen]; omega, hinv.rows, ?_, ?_⟩
    · intro row hr y hy
      have hb := hinv.trBound row hr y hy
      rw [hinv.tlen]
      omega
    · intro p hp
      exact ⟨hinv.procd p hp (by rw [hstk]; exact List.not_mem_nil _),
        hinv.marksOk p hp⟩
  intro fuel
  induction fuel with
  | zero =>
    intro st tr mks hinv h
    obtain ⟨tb, tr0, mk0, stk, cnt⟩ := st
    cases stk with
    | nil =>
      have h' : (some (tr0, mk0) : Option (List (List Nat) × List Nat))
          = some (tr, mks) := h
      simp only [Option.some.injEq, Prod.mk.injEq] at h'
      obtain ⟨h1, h2⟩ := h'
      subst h1
      subst h2
      exact hexit _ hinv rfl
    | cons dfaState rest => exact Option.noConfusion h
  | succ fuel ih =>
    intro st tr mks hinv h
    obtain ⟨tb, tr0, mk0, stk, cnt⟩ := st
    cases stk with
    | nil =>
      have h' : (some (tr0, mk0) : Option (List (List Nat) × List Nat))
          = some (tr, mks) := h
      simp only [Option.some.injEq, Prod.mk.injEq] at h'
      obtain ⟨h1, h2⟩ := h'
      subst h1
      subst h2
      exact hexit _ hinv rfl
    | cons dfaState rest =>
      obtain ⟨i, hie⟩ := hinv.stackKeys dfaState (List.mem_cons_self _ _)
      have hlk : List.lookup dfaState tb = some i :=
        lookup_some_of_mem_nodup hinv.keyNodup hie
      have h' : ((List.lookup dfaState tb).bind fun dfaIndex =>
          ((List.range nfa.symbolsTable.length).foldlM
            (subsetSymStep nfa nfa.symbolsTable.length dfaState dfaIndex)
            ⟨tb, tr0, mk0, rest, cnt⟩).bind fun st' =>
          fromNfaLoop nfa nfa.symbolsTable.length fuel st') = some (tr, mks) := h
      rw [hlk, Option.some_bind] at h'
      obtain ⟨st', hfold, hinv', hmono, hcnt⟩ := symFold_ok hwf
        (List.range nfa.symbolsTable.length) [] ⟨tb, tr0, mk0, rest, cnt⟩
        (fun σ hσ => List.mem_range.mp hσ)
        (fun σ _ hmem => absurd hmem (List.not_mem_nil σ))
        (List.nodup_range _)
        (wlinv_pop hinv rfl hie)
      rw [hfold, Option.some_bind] at h'
      have hinv'' : WLInv nfa nfa.symbolsTable.length st' :=
        symInv_to_wlinv (by simpa using hinv')
      obtain ⟨tbl, htmono, hrest⟩ := ih st' tr mks hinv'' h'
      exact ⟨tbl, fun p hp => htmono p (hmono p hp), hrest⟩

/-- The subset construction (the part of `Dfa::from_nfa` before
`minimized`): its output carries a complete subset table whose start entry
is the ε-closure of state 0. -/
theorem subsetDfaF_ok {nfa : Nfa} (hwf : NfaWF nfa) {fuel : Nat} {d : Dfa}
    (hd : Dfa.subsetDfaF fuel nfa = some d) :
    ∃ tbl S₀, (S₀, 0) ∈ tbl ∧
      (∀ y, y ∈ S₀ ↔ EpsClosureP nfa (fun s => s = 0) y) ∧
      d.symbolIndices = nfa.symbolsTable ∧
      d.transition.length = d.marks.length ∧ 0 < d.transition.length ∧
      (∀ row ∈ d.transition, row.length = nfa.symbolsTable.length) ∧
      (∀ row ∈ d.transition, ∀ y ∈ row, y < d.transition.length) ∧
      (∀ p ∈ tbl, EntryDone nfa tbl d.transition nfa.symbolsTable.length p.1 p.2 ∧
        ∃ m, nfaMaxMark nfa p.1 = some m ∧ d.marks.get? p.2 = some m) := by
  unfold Dfa.subsetDfaF at hd
  obtain ⟨r, C₀, hec, hrC, hCsort, hCval, hCmem⟩ :=
    emptyClosure_unwrap_spec nfa hwf [0] (by
      intro s hs
      rw [List.mem_singleton.mp hs]
      exact hwf.1)
  obtain ⟨m₀, hm₀⟩ := nfaMaxMark_some hwf hCval
  simp only [hec, Option.bind_eq_bind, Option.some_bind, hrC, hm₀] at hd
  cases hloop : fromNfaLoop nfa nfa.symbolsTable.length fuel
      ⟨[(C₀, 0)], [List.replicate nfa.symbolsTable.length 0], [m₀], [C₀], 0⟩ with
  | none =>
    rw [hloop] at hd
    cases hd
  | some pr =>
    obtain ⟨tr, mks⟩ := pr
    rw [hloop, Option.some_bind] at hd
    have hde : d = ⟨mks, tr, nfa.symbolsTable⟩ := by
      cases hd
      rfl
    subst hde
    have hinv₀ : WLInv nfa nfa.symbolsTable.length
        ⟨[(C₀, 0)], [List.replicate nfa.symbolsTable.length 0], [m₀], [C₀], 0⟩ :=
      { tlen := rfl
        mlen := rfl
        rows := by
          intro row hr
          rw [List.mem_singleton.mp hr]
          exact List.length_replicate _ _
        trBound := by
          intro row hr y hy
          rw [List.mem_singleton.mp hr] at hy
          rw [List.eq_of_mem_replicate hy]
        keySorted := by
          intro p hp
          rw [List.mem_singleton.mp hp]
          exact hCsort
        keyValid := by
          intro p hp
          rw [List.mem_singleton.mp hp]
          exact hCval
        idxLe := by
          intro p hp
          rw [List.mem_singleton.mp hp]
        idxNodup := by simp
        keyNodup := by simp
        marksOk := by
          intro p hp
          rw [List.mem_singleton.mp hp]
          exact ⟨m₀, hm₀, rfl⟩
        stackKeys := by
          intro q hq
          rw [List.mem_singleton.mp hq]
          exact ⟨0, List.mem_singleton_self _⟩
        stackNodup := by simp
        procd := by
          intro p hp hps
          rw [List.mem_singleton.mp hp] at hps
          exact absurd (List.mem_singleton_self _) hps }
    obtain ⟨tbl, hmono, hlen, hpos, hrows, hbound, hprops⟩ :=
      fromNfaLoop_ok hwf fuel _ tr mks hinv₀ hloop
    refine ⟨tbl, C₀, hmono _ (List.mem_singleton_self _), ?_, rfl, hlen, hpos,
      hrows, hbound, hprops⟩
    intro y
    rw [hCmem y]
    refine epsClosureP_congr (fun z => ?_) y
    exact List.mem_singleton

/-- The DFA run over a complete subset table mirrors the spec subset
simulation, step by step. -/
theorem dfaRun_corr {nfa : Nfa} (hwf : NfaWF nfa) {tbl : List (List Nat × Nat)}
    {tr : List (List Nat)} {mks : List Nat}
    (htbl : ∀ p ∈ tbl, EntryDone nfa tbl tr nfa.symbolsTable.length p.1 p.2 ∧
      ∃ m, nfaMaxMark nfa p.1 = some m ∧ mks.get? p.2 = some m) :
    ∀ (w : List Char) (S : List Nat) (i : Nat) (P : Nat → Prop),
      (S, i) ∈ tbl → (∀ y, y ∈ S ↔ P y) →
      ∃ b, acceptsLoop ⟨mks, tr, nfa.symbolsTable⟩ i w = some b ∧
        (b = true ↔ ∃ s m, NfaRunFrom nfa P w s ∧ nfa.marks.get? s = some m ∧ 0 < m) := by
  intro w
  induction w with
  | nil =>
    intro S i P hmem hspec
    obtain ⟨_, m, hmm, hget⟩ := htbl _ hmem
    refine ⟨decide (0 < m), ?_, ?_⟩
    · show (mks.get? i).map (fun m => decide (m > 0)) = some (decide (0 < m))
      rw [hget]
      rfl
    · have hpos := nfaMaxMark_pos_iff hmm
      constructor
      · intro hb
        obtain ⟨s, hs, ms, hms, hp⟩ := hpos.mp (of_decide_eq_true hb)
        exact ⟨s, ms, (hspec s).mp hs, hms, hp⟩
      · rintro ⟨s, ms, hPs, hms, hp⟩
        exact decide_eq_true (hpos.mpr ⟨s, (hspec s).mpr hPs, ms, hms, hp⟩)
  | cons c rest ih =>
    intro S i P hmem hspec
    cases hlu : List.lookup c nfa.symbolsTable with
    | none =>
      refine ⟨false, ?_, ?_⟩
      · show (match List.lookup c nfa.symbolsTable with
          | none => some false
          | some symIdx => do
            let row ← tr.get? i
            let nextState ← row.get? symIdx
            acceptsLoop ⟨mks, tr, nfa.symbolsTable⟩ nextState rest) = some false
        rw [hlu]
      · constructor
        · intro hb
          exact absurd hb (by simp)
        · rintro ⟨s, m, hrun, _, _⟩
          have hemp : ∀ z, ¬ NfaStepP nfa P c z := by
            intro z hz
            unfold NfaStepP at hz
            rw [hlu] at hz
            exact hz
          exact absurd hrun (nfaRunFrom_empty rest hemp s)
    | some σ =>
      have hσK : σ < nfa.symbolsTable.length := hwf.2.2.2 _ (lookup_mem' hlu)
      obtain ⟨hdone, _⟩ := htbl _ hmem
      obtain ⟨T, j, hTmem, hread, hTspec⟩ := hdone σ hσK
      cases hri : tr.get? i with
      | none =>
        rw [hri] at hread
        cases hread
      | some rowi =>
        rw [hri, Option.some_bind] at hread
        obtain ⟨b, hb, hbiff⟩ := ih T j (NfaStepP nfa P c) hTmem (fun y => by
          rw [hTspec y]
          unfold NfaStepP
          rw [hlu]
          exact epsClosureP_congr (fun z => by
            constructor
            · rintro ⟨x, hx, hz⟩
              exact ⟨x, (hspec x).mp hx, hz⟩
            · rintro ⟨x, hx, hz⟩
              exact ⟨x, (hspec x).mpr hx, hz⟩) y)
        refine ⟨b, ?_, hbiff⟩
        show (match List.lookup c nfa.symbolsTable with
          | none => some false
          | some symIdx => do
            let row ← tr.get? i
            let nextState ← row.get? symIdx
            acceptsLoop ⟨mks, tr, nfa.symbolsTable⟩ nextState rest) = some b
        rw [hlu]
        simp only [hri, hread, Option.bind_eq_bind, Option.some_bind]
        exact hb

/-- The DFA produced by the subset construction accepts exactly the words
the spec NFA simulation accepts. -/
theorem subsetDfa_accepts {nfa : Nfa} (hwf : NfaWF nfa) {fuel : Nat} {d : Dfa}
    (hd : Dfa.subsetDfaF fuel nfa = some d) (w : List Char) :
    d.accepts w = some true ↔ nfaAccepts nfa w := by
  obtain ⟨tbl, S₀, hS₀mem, hS₀spec, hsym, _, _, _, _, hprops⟩ := subsetDfaF_ok hwf hd
  obtain ⟨b, hb, hbiff⟩ := dfaRun_corr hwf hprops w S₀ 0
    (EpsClosureP nfa (fun x => x = 0)) hS₀mem (fun y => by
      rw [hS₀spec y])
  have hD : (⟨d.marks, d.transition, nfa.symbolsTable⟩ : Dfa) = d := by
    rw [← hsym]
  rw [hD] at hb
  have hacc : d.accepts w = acceptsLoop d 0 w := rfl
  rw [hacc, hb, Option.some.injEq]
  exact hbiff

theorem getD_eq_of_get? {l : List Nat} {x v : Nat} (h : l.get? x = some v) :
    l.getD x 0 = v := by
  induction l generalizing x with
  | nil => cases h
  | cons a t ih =>
    cases x with
    | zero =>
      injection h with h'
    | succ x =>
      rw [List.getD_cons_succ]
      exact ih h

theorem get?_eraseIdx_of_lt {α : Type} :
    ∀ {l : List α} {i p : Nat}, p < i → (l.eraseIdx i).get? p = l.get? p := by
  intro l
  induction l with
  | nil => intro i p _; rfl
  | cons a t ih =>
    intro i p hp
    cases i with
    | zero => omega
    | succ i =>
      cases p with
      | zero => rfl
      | succ p =>
        show (t.eraseIdx i).get? p = t.get? p
        exact ih (by omega)

theorem get?_eraseIdx_of_ge {α : Type} :
    ∀ {l : List α} {i p : Nat}, i ≤ p → (l.eraseIdx i).get? p = l.get? (p + 1) := by
  intro l
  induction l with
  | nil =>
    intro i p _
    cases i with
    | zero => rfl
    | succ i => rfl
  | cons a t ih =>
    intro i p hp
    cases i with
    | zero => rfl
    | succ i =>
      cases p with
      | zero => omega
      | succ p =>
        show (t.eraseIdx i).get? p = t.get? (p + 1)
        exact ih (by omega)

/-- The inner `state_groups[x] += subgroup_num - 1` fold over one group. -/
theorem bumpFold_ok (δ : Nat) :
    ∀ (g : List Nat) (sg : List Nat), g.Nodup → (∀ x ∈ g, x < sg.length) →
      ∃ sg', g.foldlM (fun (sg : List Nat) x => setAt sg x ((sg.getD x 0) + δ)) sg
          = some sg' ∧
        sg'.length = sg.length ∧
        (∀ x ∈ g, ∀ v, sg.get? x = some v → sg'.get? x = some (v + δ)) ∧
        (∀ x, x ∉ g → sg'.get? x = sg.get? x) := by
  intro g
  induction g with
  | nil =>
    intro sg _ _
    exact ⟨sg, rfl, rfl, fun x hx => absurd hx (List.not_mem_nil x), fun _ _ => rfl⟩
  | cons a t ih =>
    intro sg hnd hb
    have hnd' := List.nodup_cons.mp hnd
    have ha : a < sg.length := hb a (List.mem_cons_self _ _)
    obtain ⟨v, hv⟩ : ∃ v, sg.get? a = some v := ⟨_, List.get?_eq_get ha⟩
    have hgd : sg.getD a 0 = v := getD_eq_of_get? hv
    obtain ⟨sg', hfold, hlen, hmem, hout⟩ := ih (sg.set a (v + δ)) hnd'.2
      (fun x hx => by
        rw [List.length_set]
        exact hb x (List.mem_cons_of_mem _ hx))
    refine ⟨sg', ?_, by rw [hlen, List.length_set], ?_, ?_⟩
    · rw [List.foldlM_cons, hgd, setAt_eq ha]
      simp only [Option.bind_eq_bind, Option.some_bind]
      exact hfold
    · intro x hx w hw
      rcases List.mem_cons.mp hx with rfl | hx'
      · rw [hout x hnd'.1, get?_set_self' ha]
        rw [hv] at hw
        injection hw with hw'
        rw [hw']
      · refine hmem x hx' w ?_
        rw [get?_set_ne' (fun he => hnd'.1 (by rw [he]; exact hx'))]
        exact hw
    · intro x hx
      have hxa : a ≠ x := fun he => hx (he ▸ List.mem_cons_self _ _)
      rw [hout x (fun hm => hx (List.mem_cons_of_mem _ hm)), get?_set_ne' hxa]

/-- The outer bump fold over a list of pairwise disjoint groups. -/
theorem bumpFoldAll_ok (δ : Nat) :
    ∀ (gs : List (List Nat)) (sg : List Nat),
      (∀ g ∈ gs, g.Nodup ∧ ∀ x ∈ g, x < sg.length) →
      List.Pairwise (fun g h => ∀ x ∈ g, x ∉ h) gs →
      ∃ sg', gs.foldlM (fun sg g => g.foldlM
          (fun (sg : List Nat) x =>
            setAt sg x ((sg.getD x 0) + δ)) sg) sg = some sg' ∧
        sg'.length = sg.length ∧
        (∀ g ∈ gs, ∀ x ∈ g, ∀ v, sg.get? x = some v → sg'.get? x = some (v + δ)) ∧
        (∀ x, (∀ g ∈ gs, x ∉ g) → sg'.get? x = sg.get? x) := by
  intro gs
  induction gs with
  | nil =>
    intro sg _ _
    exact ⟨sg, rfl, rfl, fun g hg => absurd hg (List.not_mem_nil g), fun _ _ => rfl⟩
  | cons g gs ih =>
    intro sg hb hpw
    have hpw' := List.pairwise_cons.mp hpw
    obtain ⟨hgn, hgb⟩ := hb g (List.mem_cons_self _ _)
    obtain ⟨sg₁, hf₁, hlen₁, hmem₁, hout₁⟩ := bumpFold_ok δ g sg hgn hgb
    obtain ⟨sg₂, hf₂, hlen₂, hmem₂, hout₂⟩ := ih sg₁
      (fun h hh => ⟨(hb h (List.mem_cons_of_mem _ hh)).1, fun x hx => by
        rw [hlen₁]
        exact (hb h (List.mem_cons_of_mem _ hh)).2 x hx⟩)
      hpw'.2
    refine ⟨sg₂, ?_, by rw [hlen₂, hlen₁], ?_, ?_⟩
    · rw [List.foldlM_cons, hf₁]
      simp only [Option.bind_eq_bind, Option.some_bind]
      exact hf₂
    · intro h hh x hx v hv
      rcases List.mem_cons.mp hh with rfl | hh'
      · rw [hout₂ x (fun h' hh' => hpw'.1 h' hh' x hx)]
        exact hmem₁ x hx v hv
      · refine hmem₂ h hh' x hx v ?_
        rw [hout₁ x (fun hm => hpw'.1 h hh' x hm hx)]
        exact hv
    · intro x hx
      rw [hout₂ x (fun h hh => hx h (List.mem_cons_of_mem _ hh)),
        hout₁ x (hx g (List.mem_cons_self _ _))]

/-- The inner `state_groups[x] = v` fold over one group. -/
theorem setFold_ok (v : Nat) :
    ∀ (g : List Nat) (sg : List Nat), (∀ x ∈ g, x < sg.length) →
      ∃ sg', g.foldlM (fun (sg : List Nat) x => setAt sg x v) sg = some sg' ∧
        sg'.length = sg.length ∧
        (∀ x ∈ g, sg'.get? x = some v) ∧
        (∀ x, x ∉ g → sg'.get? x = sg.get? x) := by
  intro g
  induction g with
  | nil =>
    intro sg _
    exact ⟨sg, rfl, rfl, fun x hx => absurd hx (List.not_mem_nil x), fun _ _ => rfl⟩
  | cons a t ih =>
    intro sg hb
    have ha : a < sg.length := hb a (List.mem_cons_self _ _)
    obtain ⟨sg', hfold, hlen, hmem, hout⟩ := ih (sg.set a v)
      (fun x hx => by
        rw [List.length_set]
        exact hb x (List.mem_cons_of_mem _ hx))
    refine ⟨sg', ?_, by rw [hlen, List.length_set], ?_, ?_⟩
    · rw [List.foldlM_cons, setAt_eq ha]
      simp only [Option.bind_eq_bind, Option.some_bind]
      exact hfold
    · intro x hx
      rcases List.mem_cons.mp hx with rfl | hx'
      · by_cases hxt : x ∈ t
        · exact hmem x hxt
        · rw [hout x hxt, get?_set_self' ha]
      · exact hmem x hx'
    · intro x hx
      have hxa : a ≠ x := fun he => hx (he ▸ List.mem_cons_self _ _)
      rw [hout x (fun hm => hx (List.mem_cons_of_mem _ hm)), get?_set_ne' hxa]

/-- The subgroup-assignment fold of `DfaCloud::divide` over the enumerated
subgroups. -/
theorem assignFold_ok (idx : Nat) :
    ∀ (pairs : List (Nat × List Nat)) (sg : List Nat),
      (∀ p ∈ pairs, ∀ x ∈ p.2, x < sg.length) →
      List.Pairwise (fun p q => ∀ x ∈ p.2, x ∉ q.2) pairs →
      ∃ sg', pairs.foldlM (fun sg p => p.2.foldlM
          (fun (sg : List Nat) x => setAt sg x (idx + p.1)) sg) sg = some sg' ∧
        sg'.length = sg.length ∧
        (∀ p ∈ pairs, ∀ x ∈ p.2, sg'.get? x = some (idx + p.1)) ∧
        (∀ x, (∀ p ∈ pairs, x ∉ p.2) → sg'.get? x = sg.get? x) := by
  intro pairs
  induction pairs with
  | nil =>
    intro sg _ _
    exact ⟨sg, rfl, rfl, fun p hp => absurd hp (List.not_mem_nil p), fun _ _ => rfl⟩
  | cons p pairs ih =>
    intro sg hb hpw
    have hpw' := List.pairwise_cons.mp hpw
    obtain ⟨sg₁, hf₁, hlen₁, hmem₁, hout₁⟩ :=
      setFold_ok (idx + p.1) p.2 sg (hb p (List.mem_cons_self _ _))
    obtain ⟨sg₂, hf₂, hlen₂, hmem₂, hout₂⟩ := ih sg₁
      (fun q hq x hx => by
        rw [hlen₁]
        exact hb q (List.mem_cons_of_mem _ hq) x hx)
      hpw'.2
    refine ⟨sg₂, ?_, by rw [hlen₂, hlen₁], ?_, ?_⟩
    · rw [List.foldlM_cons, hf₁]
      simp only [Option.bind_eq_bind, Option.some_bind]
      exact hf₂
    · intro q hq x hx
      rcases List.mem_cons.mp hq with rfl | hq'
      · rw [hout₂ x (fun q' hq' => hpw'.1 q' hq' x hx)]
        exact hmem₁ x hx
      · exact hmem₂ q hq' x hx
    · intro x hx
      rw [hout₂ x (fun q hq => hx q (List.mem_cons_of_mem _ hq)),
        hout₁ x (hx p (List.mem_cons_self _ _))]

theorem partInv_pairwise {n : Nat} {groups : List (List Nat)} {sg : List Nat}
    (h : PartInv n groups sg) :
    List.Pairwise (fun g g' => ∀ x ∈ g, x ∉ g') groups := by
  rw [List.pairwise_iff_getElem]
  intro i j hi hj hij
  intro x hxi hxj
  have hgi : groups.get? i = some groups[i] := by
    rw [List.get?_eq_getElem?]
    exact List.getElem?_eq_getElem hi
  have hgj : groups.get? j = some groups[j] := by
    rw [List.get?_eq_getElem?]
    exact List.getElem?_eq_getElem hj
  have h1 := ((h.2.1 i _ hgi).2.2 x hxi).2
  have h2 := ((h.2.1 j _ hgj).2.2 x hxj).2
  rw [h1] at h2
  injection h2 with h2'
  omega

theorem get?_bound_val {α : Type} {l : List α} {i : Nat} {a : α}
    (h : l.get? i = some a) : ∃ hb : i < l.length, l[i] = a := by
  rw [List.get?_eq_getElem?] at h
  exact List.getElem?_eq_some.mp h

/-- On pairs with distinct values, `into_group_map` yields nonempty,
duplicate-free, pairwise disjoint groups covering exactly the values. -/
theorem groupMapVals_partition {κ : Type} [DecidableEq κ] {pairs : List (κ × Nat)}
    (hnd : (pairs.map Prod.snd).Nodup) :
    (∀ g ∈ groupMapVals pairs, g ≠ [] ∧ g.Nodup ∧ ∀ x ∈ g, x ∈ pairs.map Prod.snd) ∧
    (∀ x ∈ pairs.map Prod.snd, ∃ g ∈ groupMapVals pairs, x ∈ g) ∧
    List.Pairwise (fun g g' => ∀ x ∈ g, x ∉ g') (groupMapVals pairs) := by
  refine ⟨?_, ?_, ?_⟩
  · intro g hg
    unfold groupMapVals at hg
    obtain ⟨k, hk, hke⟩ := List.mem_map.mp hg
    have hkm : k ∈ pairs.map Prod.fst := List.mem_dedup.mp hk
    obtain ⟨p, hp, hpk⟩ := List.mem_map.mp hkm
    have hpf : p ∈ pairs.filter (fun q => decide (q.1 = k)) :=
      List.mem_filter.mpr ⟨hp, by simp [hpk]⟩
    refine ⟨?_, ?_, ?_⟩
    · rw [← hke]
      intro hemp
      rw [List.map_eq_nil] at hemp
      rw [hemp] at hpf
      cases hpf
    · rw [← hke]
      exact List.Nodup.sublist (List.Sublist.map _ (List.filter_sublist _)) hnd
    · intro x hx
      rw [← hke] at hx
      obtain ⟨q, hq, hqx⟩ := List.mem_map.mp hx
      exact hqx ▸ List.mem_map_of_mem _ (List.mem_filter.mp hq).1
  · intro x hx
    obtain ⟨p, hp, hpx⟩ := List.mem_map.mp hx
    refine ⟨(pairs.filter (fun q => decide (q.1 = p.1))).map Prod.snd, ?_, ?_⟩
    · unfold groupMapVals
      exact List.mem_map_of_mem _ (List.mem_dedup.mpr (List.mem_map_of_mem _ hp))
    · exact hpx ▸ List.mem_map_of_mem _ (List.mem_filter.mpr ⟨hp, by simp⟩)
  · unfold groupMapVals
    refine List.Pairwise.map _ ?_ (List.nodup_dedup _)
    intro k k' hkk x hxk hxk'
    obtain ⟨p, hp, hpx⟩ := List.mem_map.mp hxk
    obtain ⟨q, hq, hqx⟩ := List.mem_map.mp hxk'
    have hpq : p = q := pair_eq_of_snd_nodup hnd (List.mem_filter.mp hp).1
      (List.mem_filter.mp hq).1 (by rw [hpx, hqx])
    have h1 : p.1 = k := of_decide_eq_true (List.mem_filter.mp hp).2
    have h2 : q.1 = k' := of_decide_eq_true (List.mem_filter.mp hq).2
    rw [← h1, ← h2, hpq] at hkk
    exact hkk rfl

theorem disj_symm : Symmetric (fun (g g' : List Nat) => ∀ x ∈ g, x ∉ g') :=
  fun _ _ hab x hxb hxa => hab x hxa hxb

theorem sortByHead_pairwise_disj {gs : List (List Nat)}
    (h : List.Pairwise (fun g g' => ∀ x ∈ g, x ∉ g') gs) :
    List.Pairwise (fun g g' => ∀ x ∈ g, x ∉ g') (sortByHead gs) :=
  (List.Perm.pairwise_iff (fun hab => disj_symm hab) (List.perm_insertionSort _ gs)).mpr h

theorem sortByHead_sorted (gs : List (List Nat)) :
    List.Sorted (fun a b => a.headD 0 ≤ b.headD 0) (sortByHead gs) := by
  haveI h1 : IsTotal (List Nat) (fun a b => a.headD 0 ≤ b.headD 0) :=
    ⟨fun a b => Nat.le_total _ _⟩
  haveI h2 : IsTrans (List Nat) (fun a b => a.headD 0 ≤ b.headD 0) :=
    ⟨fun a b c hab hbc => Nat.le_trans hab hbc⟩
  exact List.sorted_insertionSort _ _

/-- If some nonempty group begins with 0, sorting by first member puts a
group beginning with 0 first. -/
theorem sortByHead_head0 {gs : List (List Nat)} {s₀ : List Nat}
    (hmem : s₀ ∈ gs) (hh : s₀.head? = some 0) (hne : ∀ g ∈ gs, g ≠ []) :
    ∃ g, (sortByHead gs).get? 0 = some g ∧ g.head? = some 0 := by
  have hsorted := sortByHead_sorted gs
  have hmem' : s₀ ∈ sortByHead gs := sortByHead_mem.mpr hmem
  have hs0 : s₀.headD 0 = 0 := by
    cases s₀ with
    | nil => cases hh
    | cons a t =>
      simp only [List.head?_cons, Option.some.injEq] at hh
      simpa using hh
  cases hsg : sortByHead gs with
  | nil =>
    rw [hsg] at hmem'
    cases hmem'
  | cons g tail =>
    refine ⟨g, rfl, ?_⟩
    rw [hsg] at hsorted hmem'
    have hhd : g.headD 0 ≤ s₀.headD 0 := by
      rcases List.mem_cons.mp hmem' with rfl | ht
      · exact Nat.le_refl _
      · exact (List.sorted_cons.mp hsorted).1 s₀ ht
    have hgne : g ≠ [] := hne g (sortByHead_mem.mp (by
      rw [hsg]
      exact List.mem_cons_self _ _))
    cases g with
    | nil => exact absurd rfl hgne
    | cons a t =>
      have ha : a = 0 := by
        rw [hs0] at hhd
        have : (a :: t).headD 0 = a := rfl
        omega
      rw [ha]
      rfl

/-- The group of the first value of `pairs` begins with that value. -/
theorem groupMapVals_head {κ : Type} [DecidableEq κ] {pairs : List (κ × Nat)} {x₀ : Nat}
    (hh : (pairs.map Prod.snd).head? = some x₀) :
    ∃ g ∈ groupMapVals pairs, g.head? = some x₀ := by
  cases pairs with
  | nil => cases hh
  | cons p ps =>
    have hx : p.2 = x₀ := by
      injection hh
    refine ⟨((p :: ps).filter (fun q => decide (q.1 = p.1))).map Prod.snd, ?_, ?_⟩
    · unfold groupMapVals
      exact List.mem_map_of_mem _ (List.mem_dedup.mpr (by
        rw [List.map_cons]
        exact List.mem_cons_self _ _))
    · rw [List.filter_cons_of_pos (by simp)]
      rw [List.map_cons]
      rw [List.head?_cons, hx]

theorem pairwise_enumFrom_snd {α : Type} {R : α → α → Prop} :
    ∀ {l : List α} {k : Nat}, l.Pairwise R →
      (l.enumFrom k).Pairwise (fun p q => R p.2 q.2) := by
  intro l
  induction l with
  | nil =>
    intro k _
    exact List.Pairwise.nil
  | cons a t ih =>
    intro k hpw
    have hpw' := List.pairwise_cons.mp hpw
    refine List.Pairwise.cons ?_ (ih hpw'.2)
    intro q hq
    have h3 := (List.mem_enumFrom hq).2.2
    refine hpw'.1 q.2 ?_
    rw [h3]
    exact List.getElem_mem _

/-- The pure inner fold of `DfaCloud::from_dfa` setting every member of a
group to the group's index. -/
theorem setFoldPure_ok (v : Nat) :
    ∀ (g : List Nat) (sg : List Nat),
      (g.foldl (fun sg s => sg.set s v) sg).length = sg.length ∧
      (∀ x ∈ g, x < sg.length → (g.foldl (fun sg s => sg.set s v) sg).get? x = some v) ∧
      (∀ x, x ∉ g → (g.foldl (fun sg s => sg.set s v) sg).get? x = sg.get? x) := by
  intro g
  induction g with
  | nil =>
    intro sg
    exact ⟨rfl, fun x hx => absurd hx (List.not_mem_nil x), fun _ _ => rfl⟩
  | cons a t ih =>
    intro sg
    obtain ⟨hlen, hmem, hout⟩ := ih (sg.set a v)
    rw [List.foldl_cons]
    refine ⟨by rw [hlen, List.length_set], ?_, ?_⟩
    · intro x hx hxb
      rcases List.mem_cons.mp hx with rfl | hx'
      · by_cases hxt : x ∈ t
        · exact hmem x hxt (by rw [List.length_set]; exact hxb)
        · rw [hout x hxt, get?_set_self' hxb]
      · exact hmem x hx' (by rw [List.length_set]; exact hxb)
    · intro x hx
      have hxa : a ≠ x := fun he => hx (he ▸ List.mem_cons_self _ _)
      rw [hout x (fun hm => hx (List.mem_cons_of_mem _ hm)), get?_set_ne' hxa]

/-- The pure outer fold of `DfaCloud::from_dfa` over enumerated groups. -/
theorem assignFoldPure_ok :
    ∀ (pairs : List (Nat × List Nat)) (sg : List Nat),
      List.Pairwise (fun p q => ∀ x ∈ p.2, x ∉ q.2) pairs →
      (pairs.foldl (fun sg p => p.2.foldl (fun sg s => sg.set s p.1) sg) sg).length
        = sg.length ∧
      (∀ p ∈ pairs, ∀ x ∈ p.2, x < sg.length →
        (pairs.foldl (fun sg p => p.2.foldl (fun sg s => sg.set s p.1) sg) sg).get? x
          = some p.1) ∧
      (∀ x, (∀ p ∈ pairs, x ∉ p.2) →
        (pairs.foldl (fun sg p => p.2.foldl (fun sg s => sg.set s p.1) sg) sg).get? x
          = sg.get? x) := by
  intro pairs
  induction pairs with
  | nil =>
    intro sg _
    exact ⟨rfl, fun p hp => absurd hp (List.not_mem_nil p), fun _ _ => rfl⟩
  | cons p pairs ih =>
    intro sg hpw
    have hpw' := List.pairwise_cons.mp hpw
    obtain ⟨hlen₁, hmem₁, hout₁⟩ := setFoldPure_ok p.1 p.2 sg
    obtain ⟨hlen₂, hmem₂, hout₂⟩ :=
      ih (p.2.foldl (fun sg s => sg.set s p.1) sg) hpw'.2
    rw [List.foldl_cons]
    refine ⟨by rw [hlen₂, hlen₁], ?_, ?_⟩
    · intro q hq x hx hxb
      rcases List.mem_cons.mp hq with rfl | hq'
      · rw [hout₂ x (fun q' hq' => hpw'.1 q' hq' x hx)]
        exact hmem₁ x hx hxb
      · exact hmem₂ q hq' x hx (by rw [hlen₁]; exact hxb)
    · intro x hx
      rw [hout₂ x (fun q hq => hx q (List.mem_cons_of_mem _ hq)),
        hout₁ x (hx p (List.mem_cons_self _ _))]

/-- `DfaCloud::from_dfa` establishes the partition invariant, with the
block of state 0 first. -/
theorem fromDfa_partInv (d : Dfa) (hn : 0 < d.marks.length) :
    PartInv d.marks.length (DfaCloud.fromDfa d).groups (DfaCloud.fromDfa d).stateGroups ∧
    Head0 (DfaCloud.fromDfa d).groups := by
  have hgr : (DfaCloud.fromDfa d).groups =
      sortByHead (groupMapVals (d.marks.enum.map (fun p => (p.2, p.1)))) := rfl
  set pairs := d.marks.enum.map (fun p => (p.2, p.1)) with hpairs
  have hvals : pairs.map Prod.snd = List.range d.marks.length := by
    rw [hpairs, List.map_map]
    have : (Prod.snd ∘ fun p : Nat × Nat => (p.2, p.1)) = Prod.fst := rfl
    rw [this, List.enum_map_fst]
  have hnd : (pairs.map Prod.snd).Nodup := by
    rw [hvals]
    exact List.nodup_range _
  obtain ⟨hblocks, hcover, hpw⟩ := groupMapVals_partition hnd
  have hmem_iff : ∀ x, x ∈ pairs.map Prod.snd ↔ x < d.marks.length := by
    intro x
    rw [hvals, List.mem_range]
  -- the group of state 0
  have hhead : ∃ s₀ ∈ groupMapVals pairs, s₀.head? = some 0 := by
    refine groupMapVals_head ?_
    rw [hvals]
    cases hm : d.marks.length with
    | zero => omega
    | succ k =>
      rw [List.range_succ_eq_map]
      rfl
  obtain ⟨s₀, hs₀mem, hs₀head⟩ := hhead
  obtain ⟨g₀, hg₀, hg₀head⟩ := sortByHead_head0 hs₀mem hs₀head
    (fun g hg => (hblocks g hg).1)
  have hH0 : Head0 (DfaCloud.fromDfa d).groups := by
    rw [hgr]
    exact ⟨g₀, hg₀, hg₀head⟩
  refine ⟨?_, hH0⟩
  -- partition facts transported through the sort
  have hperm : List.Perm (sortByHead (groupMapVals pairs)) (groupMapVals pairs) :=
    List.perm_insertionSort _ _
  have hblocks' : ∀ g ∈ sortByHead (groupMapVals pairs),
      g ≠ [] ∧ g.Nodup ∧ ∀ x ∈ g, x < d.marks.length := by
    intro g hg
    obtain ⟨h1, h2, h3⟩ := hblocks g (hperm.mem_iff.mp hg)
    exact ⟨h1, h2, fun x hx => (hmem_iff x).mp (h3 x hx)⟩
  have hcover' : ∀ x, x < d.marks.length →
      ∃ gi g, (sortByHead (groupMapVals pairs)).get? gi = some g ∧ x ∈ g := by
    intro x hx
    obtain ⟨g, hg, hxg⟩ := hcover x ((hmem_iff x).mpr hx)
    obtain ⟨gi, hgi⟩ := List.mem_iff_get?.mp (hperm.mem_iff.mpr hg)
    exact ⟨gi, g, hgi, hxg⟩
  have hpw' : List.Pairwise (fun g g' => ∀ x ∈ g, x ∉ g')
      (sortByHead (groupMapVals pairs)) := sortByHead_pairwise_disj hpw
  have huniq : ∀ {gi g gj g' x}, (sortByHead (groupMapVals pairs)).get? gi = some g →
      (sortByHead (groupMapVals pairs)).get? gj = some g' →
      x ∈ g → x ∈ g' → gi = gj := by
    intro gi g gj g' x hgi hgj hxg hxg'
    obtain ⟨hbi, hei⟩ := get?_bound_val hgi
    obtain ⟨hbj, hej⟩ := get?_bound_val hgj
    by_contra hne
    rcases Nat.lt_or_ge gi gj with hlt | hge
    · exact (List.pairwise_iff_getElem.mp hpw') gi gj hbi hbj hlt x
        (by rw [hei]; exact hxg) (by rw [hej]; exact hxg')
    · have hgt : gj < gi := by omega
      exact (List.pairwise_iff_getElem.mp hpw') gj gi hbj hbi hgt x
        (by rw [hej]; exact hxg') (by rw [hei]; exact hxg)
  have hLpos : 0 < (sortByHead (groupMapVals pairs)).length :=
    (get?_bound_val hg₀).1
  have hsg : (DfaCloud.fromDfa d).stateGroups =
      if (sortByHead (groupMapVals pairs)).length > 1 then
        (sortByHead (groupMapVals pairs)).enum.foldl
          (fun sg p => p.2.foldl (fun sg s => sg.set s p.1) sg)
          (List.replicate d.marks.length 0)
      else List.replicate d.marks.length 0 := rfl
  rw [hgr, hsg]
  by_cases hL : (sortByHead (groupMapVals pairs)).length > 1
  · rw [if_pos hL]
    obtain ⟨hlen, hset, hkeep⟩ :=
      assignFoldPure_ok (sortByHead (groupMapVals pairs)).enum
        (List.replicate d.marks.length 0) (pairwise_enumFrom_snd hpw')
    have hval : ∀ gi g, (sortByHead (groupMapVals pairs)).get? gi = some g →
        ∀ s ∈ g, ((sortByHead (groupMapVals pairs)).enum.foldl
          (fun sg p => p.2.foldl (fun sg s => sg.set s p.1) sg)
          (List.replicate d.marks.length 0)).get? s = some gi := by
      intro gi g hget s hs
      have henum : (gi, g) ∈ (sortByHead (groupMapVals pairs)).enum := by
        rw [List.mk_mem_enum_iff_getElem?, ← List.get?_eq_getElem?]
        exact hget
      have hb := (hblocks' g (List.get?_mem hget)).2.2 s hs
      exact hset (gi, g) henum s hs (by rw [List.length_replicate]; exact hb)
    refine ⟨by rw [hlen, List.length_replicate], ?_, ?_⟩
    · intro gi g hget
      obtain ⟨h1, h2, h3⟩ := hblocks' g (List.get?_mem hget)
      exact ⟨h1, h2, fun s hs => ⟨h3 s hs, hval gi g hget s hs⟩⟩
    · intro s hs
      obtain ⟨gi, g, hget, hsg'⟩ := hcover' s hs
      exact ⟨gi, g, hval gi g hget s hsg', hget, hsg'⟩
  · rw [if_neg hL]
    have hL1 : (sortByHead (groupMapVals pairs)).length = 1 := by omega
    have hrep : ∀ s, s < d.marks.length →
        (List.replicate d.marks.length 0).get? s = some 0 := by
      intro s hs
      rw [List.get?_eq_getElem?, List.getElem?_replicate, if_pos hs]
    refine ⟨List.length_replicate _ _, ?_, ?_⟩
    · intro gi g hget
      have hgi0 : gi = 0 := by
        have := (get?_bound_val hget).1
        omega
      subst hgi0
      obtain ⟨h1, h2, h3⟩ := hblocks' g (List.get?_mem hget)
      exact ⟨h1, h2, fun s hs => ⟨h3 s hs, hrep s (h3 s hs)⟩⟩
    · intro s hs
      obtain ⟨gi, g, hget, hsg'⟩ := hcover' s hs
      have hgi0 : gi = 0 := by
        have := (get?_bound_val hget).1
        omega
      subst hgi0
      exact ⟨0, g, hrep s hs, hget, hsg'⟩

theorem forall2_map_eq {α β γ : Type} {R : α → β → Prop} {f : β → γ} {g : α → γ}
    (hfg : ∀ a b, R a b → f b = g a) :
    ∀ {l : List α} {r : List β}, List.Forall₂ R l r → r.map f = l.map g := by
  intro l r h
  induction h with
  | nil => rfl
  | cons h₁ _ ih => rw [List.map_cons, List.map_cons, hfg _ _ h₁, ih]

/-- The refinement loop of `DfaCloud::divide` preserves the partition
invariant and keeps a block beginning with state 0 first. -/
theorem divideLoop_partInv {n : Nat} {tr : List (List Nat)} :
    ∀ {fuel : Nat} {groups : List (List Nat)} {sg : List Nat} {idx : Nat}
      {G : List (List Nat)} {SG : List Nat},
      PartInv n groups sg → (0 < n → Head0 groups) →
      divideLoop tr fuel groups sg idx = some (G, SG) →
      PartInv n G SG ∧ (0 < n → Head0 G) := by
  intro fuel
  induction fuel with
  | zero =>
    intro groups sg idx G SG _ _ h
    cases h
  | succ fuel ih =>
    intro groups sg idx G SG hpart hhead h
    simp only [divideLoop] at h
    split at h
    case isFalse hidx =>
      cases h
      exact ⟨hpart, hhead⟩
    case isTrue hidx =>
      split at h
      case h_1 => cases h
      case h_2 currentGroup hcg =>
        split at h
        case h_1 => cases h
        case h_2 keyed hkeyed =>
          split at h
          case isTrue => cases h
          case isFalse h0 =>
            split at h
            case isTrue h1 =>
              exact ih hpart hhead h
            case isFalse h1 =>
              split at h
              case h_1 => cases h
              case h_2 sg1 hfold1 =>
                split at h
                case h_1 => cases h
                case h_2 sg2 hfold2 =>
                  -- notation
                  have hsglen : sg.length = n := hpart.1
                  obtain ⟨hcgne, hcgnd, hcgmem⟩ := hpart.2.1 idx currentGroup hcg
                  have hk2 : 2 ≤ (sortByHead (groupMapVals keyed)).length := by
                    omega
                  -- keyed values are the current group
                  have hf := mapM_option_forall2 hkeyed
                  have hvals : keyed.map Prod.snd = currentGroup := by
                    have hmz := @forall2_map_eq Nat (List Nat × Nat) Nat
                      (fun x p =>
                        (tr.get? x).map (fun row => (row, x)) = some p)
                      Prod.snd id (fun a b hab => by
                        have hab' : Option.map (fun row => (row, a)) (tr.get? a)
                            = some b := hab
                        cases htr : tr.get? a with
                        | none =>
                          rw [htr] at hab'
                          cases hab'
                        | some row =>
                          rw [htr] at hab'
                          injection hab' with he
                          rw [← he]
                          rfl) currentGroup keyed hf
                    rw [hmz, List.map_id]
                  have hndk : (keyed.map Prod.snd).Nodup := by
                    rw [hvals]
                    exact hcgnd
                  obtain ⟨hblk, hcov, hpwk⟩ := groupMapVals_partition hndk
                  have hpermS : List.Perm (sortByHead (groupMapVals keyed))
                      (groupMapVals keyed) := List.perm_insertionSort _ _
                  have hblkS : ∀ g ∈ sortByHead (groupMapVals keyed),
                      g ≠ [] ∧ g.Nodup ∧ ∀ x ∈ g, x ∈ currentGroup := by
                    intro g hg
                    obtain ⟨a, b, c⟩ := hblk g (hpermS.mem_iff.mp hg)
                    refine ⟨a, b, fun x hx => ?_⟩
                    have := c x hx
                    rwa [hvals] at this
                  have hcovS : ∀ x ∈ currentGroup,
                      ∃ q sub, (sortByHead (groupMapVals keyed)).get? q = some sub ∧
                        x ∈ sub := by
                    intro x hx
                    obtain ⟨g, hg, hxg⟩ := hcov x (by rwa [hvals])
                    obtain ⟨q, hq⟩ := List.mem_iff_get?.mp (hpermS.mem_iff.mpr hg)
                    exact ⟨q, g, hq, hxg⟩
                  have hpwS := sortByHead_pairwise_disj hpwk
                  -- current-group membership characterized by sg
                  have hcur_iff : ∀ s, s ∈ currentGroup ↔
                      s < n ∧ sg.get? s = some idx := by
                    intro s
                    constructor
                    · exact hcgmem s
                    · rintro ⟨hsn, hsv⟩
                      obtain ⟨gi, g, hsv', hget, hmem⟩ := hpart.2.2 s hsn
                      rw [hsv] at hsv'
                      injection hsv' with he
                      rw [← he] at hget
                      rw [hcg] at hget
                      injection hget with hg'
                      rw [hg']
                      exact hmem
                  -- positions of the dropped groups
                  have hDpos : ∀ g ∈ (groups.eraseIdx idx).drop idx,
                      ∃ q, idx + 1 ≤ q ∧ groups.get? q = some g := by
                    intro g hg
                    obtain ⟨j, hj⟩ := List.mem_iff_get?.mp hg
                    rw [List.get?_drop, get?_eraseIdx_of_ge (by omega)] at hj
                    exact ⟨idx + j + 1, by omega, hj⟩
                  have hnotD : ∀ x gi, sg.get? x = some gi → gi ≤ idx →
                      ∀ g ∈ (groups.eraseIdx idx).drop idx, x ∉ g := by
                    intro x gi hx hgi g hg hxg
                    obtain ⟨q, hq1, hq2⟩ := hDpos g hg
                    have := (hpart.2.1 q g hq2).2.2 x hxg
                    rw [hx] at this
                    injection this.2 with he
                    omega
                  have hinD : ∀ x gi, sg.get? x = some gi → idx + 1 ≤ gi →
                      ∃ g ∈ (groups.eraseIdx idx).drop idx,
                        x ∈ g ∧ groups.get? gi = some g := by
                    intro x gi hx hgi
                    have hxn : x < n := by
                      have := (get?_bound_val hx).1
                      omega
                    obtain ⟨gi', g, hsv', hget, hmem⟩ := hpart.2.2 x hxn
                    rw [hx] at hsv'
                    injection hsv' with he
                    have hget' : groups.get? gi = some g := by
                      rw [he]
                      exact hget
                    refine ⟨g, ?_, hmem, hget'⟩
                    have hd : ((groups.eraseIdx idx).drop idx).get? (gi - 1 - idx)
                        = some g := by
                      rw [List.get?_drop]
                      have harith : idx + (gi - 1 - idx) = gi - 1 := by omega
                      rw [harith, get?_eraseIdx_of_ge (by omega)]
                      have harith2 : gi - 1 + 1 = gi := by omega
                      rw [harith2]
                      exact hget'
                    exact List.get?_mem hd
                  -- the two state-group folds
                  have hDpw : List.Pairwise (fun g g' => ∀ x ∈ g, x ∉ g')
                      ((groups.eraseIdx idx).drop idx) :=
                    List.Pairwise.sublist
                      ((List.drop_sublist _ _).trans (List.eraseIdx_sublist _ _))
                      (partInv_pairwise hpart)
                  obtain ⟨sg1', hf1eq, hf1len, hf1mem, hf1out⟩ :=
                    bumpFoldAll_ok ((sortByHead (groupMapVals keyed)).length - 1)
                      ((groups.eraseIdx idx).drop idx) sg
                      (fun g hg => by
                        obtain ⟨q, _, hq⟩ := hDpos g hg
                        obtain ⟨_, hnd', hmem'⟩ := hpart.2.1 q g hq
                        exact ⟨hnd', fun x hx => by
                          rw [hsglen]
                          exact (hmem' x hx).1⟩)
                      hDpw
                  rw [hf1eq] at hfold1
                  injection hfold1 with hf1e
                  subst hf1e
                  obtain ⟨sg2', hf2eq, hf2len, hf2mem, hf2out⟩ :=
                    assignFold_ok idx (sortByHead (groupMapVals keyed)).enum sg1'
                      (fun p hp x hx => by
                        rw [hf1len, hsglen]
                        have hsub : p.2 ∈ sortByHead (groupMapVals keyed) := by
                          have h3 := (List.mem_enumFrom hp).2.2
                          rw [h3]
                          exact List.getElem_mem _
                        exact (hcgmem x ((hblkS p.2 hsub).2.2 x hx)).1)
                      (pairwise_enumFrom_snd hpwS)
                  rw [hf2eq] at hfold2
                  injection hfold2 with hf2e
                  subst hf2e
                  -- state-group values after both folds
                  have hv_lt : ∀ x gi, sg.get? x = some gi → gi < idx →
                      sg2'.get? x = some gi := by
                    intro x gi hx hgi
                    rw [hf2out x (fun p hp hxp => by
                      have hsub : p.2 ∈ sortByHead (groupMapVals keyed) := by
                        have h3 := (List.mem_enumFrom hp).2.2
                        rw [h3]
                        exact List.getElem_mem _
                      have hxc := (hblkS p.2 hsub).2.2 x hxp
                      have := ((hcur_iff x).mp hxc).2
                      rw [hx] at this
                      injection this with he
                      omega)]
                    rw [hf1out x (hnotD x gi hx (by omega))]
                    exact hx
                  have hv_gt : ∀ x gi, sg.get? x = some gi → idx + 1 ≤ gi →
                      sg2'.get? x = some
                        (gi + ((sortByHead (groupMapVals keyed)).length - 1)) := by
                    intro x gi hx hgi
                    rw [hf2out x (fun p hp hxp => by
                      have hsub : p.2 ∈ sortByHead (groupMapVals keyed) := by
                        have h3 := (List.mem_enumFrom hp).2.2
                        rw [h3]
                        exact List.getElem_mem _
                      have hxc := (hblkS p.2 hsub).2.2 x hxp
                      have := ((hcur_iff x).mp hxc).2
                      rw [hx] at this
                      injection this with he
                      omega)]
                    obtain ⟨g, hgD, hxg, _⟩ := hinD x gi hx hgi
                    exact hf1mem g hgD x hxg gi hx
                  have hv_cur : ∀ x q sub,
                      (sortByHead (groupMapVals keyed)).get? q = some sub →
                      x ∈ sub → sg2'.get? x = some (idx + q) := by
                    intro x q sub hq hxq
                    have henum : (q, sub) ∈ (sortByHead (groupMapVals keyed)).enum := by
                      rw [List.mk_mem_enum_iff_getElem?, ← List.get?_eq_getElem?]
                      exact hq
                    exact hf2mem (q, sub) henum x hxq
                  -- positions in the new group list
                  have hG'len : (groups.eraseIdx idx).length = groups.length - 1 := by
                    rw [List.length_eraseIdx]
                    simp [hidx]
                  have htklen : ((groups.eraseIdx idx).take idx).length = idx := by
                    rw [List.length_take]
                    omega
                  have hP1 : ∀ p, p < idx →
                      ((groups.eraseIdx idx).take idx ++
                        sortByHead (groupMapVals keyed) ++
                          (groups.eraseIdx idx).drop idx).get? p = groups.get? p := by
                    intro p hp
                    rw [List.get?_append (by rw [List.length_append, htklen]; omega)]
                    rw [List.get?_append (by rw [htklen]; omega)]
                    rw [List.get?_take hp, get?_eraseIdx_of_lt hp]
                  have hP2 : ∀ p, idx ≤ p →
                      p < idx + (sortByHead (groupMapVals keyed)).length →
                      ((groups.eraseIdx idx).take idx ++
                        sortByHead (groupMapVals keyed) ++
                          (groups.eraseIdx idx).drop idx).get? p
                        = (sortByHead (groupMapVals keyed)).get? (p - idx) := by
                    intro p hp1 hp2
                    rw [List.get?_append (by rw [List.length_append, htklen]; omega)]
                    rw [List.get?_append_right (by rw [htklen]; omega), htklen]
                  have hP3 : ∀ p, idx + (sortByHead (groupMapVals keyed)).length ≤ p →
                      ((groups.eraseIdx idx).take idx ++
                        sortByHead (groupMapVals keyed) ++
                          (groups.eraseIdx idx).drop idx).get? p
                        = groups.get?
                          (p - (sortByHead (groupMapVals keyed)).length + 1) := by
                    intro p hp
                    rw [List.get?_append_right
                      (by rw [List.length_append, htklen]; omega)]
                    rw [List.length_append, htklen]
                    rw [List.get?_drop, get?_eraseIdx_of_ge (by omega)]
                    congr 1
                    omega
                  -- the preserved invariant
                  refine ih ⟨?_, ?_, ?_⟩ ?_ h
                  · rw [hf2len, hf1len, hsglen]
                  · -- forward: each block of the new list is consistent
                    intro p g hget
                    rcases Nat.lt_or_ge p idx with hp | hp
                    · rw [hP1 p hp] at hget
                      obtain ⟨h1, h2, h3⟩ := hpart.2.1 p g hget
                      refine ⟨h1, h2, fun s hs => ⟨(h3 s hs).1, ?_⟩⟩
                      exact hv_lt s p (h3 s hs).2 hp
                    · rcases Nat.lt_or_ge p
                          (idx + (sortByHead (groupMapVals keyed)).length) with
                        hp2 | hp2
                      · rw [hP2 p hp hp2] at hget
                        obtain ⟨h1, h2, h3⟩ := hblkS g (List.get?_mem hget)
                        refine ⟨h1, h2, fun s hs => ⟨(hcgmem s (h3 s hs)).1, ?_⟩⟩
                        have := hv_cur s (p - idx) g hget hs
                        rw [this]
                        congr 1
                        omega
                      · rw [hP3 p hp2] at hget
                        obtain ⟨h1, h2, h3⟩ := hpart.2.1 _ g hget
                        refine ⟨h1, h2, fun s hs => ⟨(h3 s hs).1, ?_⟩⟩
                        have := hv_gt s _ (h3 s hs).2 (by omega)
                        rw [this]
                        congr 1
                        omega
                  · -- backward: every state lies in a block
                    intro s hs
                    obtain ⟨gi, g, hsv, hget, hmem⟩ := hpart.2.2 s hs
                    rcases Nat.lt_trichotomy gi idx with hgi | hgi | hgi
                    · exact ⟨gi, g, hv_lt s gi hsv hgi,
                        (by rw [hP1 gi hgi]; exact hget), hmem⟩
                    · subst hgi
                      rw [hcg] at hget
                      injection hget with hg'
                      subst hg'
                      obtain ⟨q, sub, hq, hxq⟩ := hcovS s hmem
                      have hqlt : q < (sortByHead (groupMapVals keyed)).length :=
                        (get?_bound_val hq).1
                      refine ⟨gi + q, sub, hv_cur s q sub hq hxq, ?_, hxq⟩
                      rw [hP2 (gi + q) (by omega) (by omega)]
                      have harith : gi + q - gi = q := by omega
                      rw [harith]
                      exact hq
                    · refine ⟨gi + ((sortByHead (groupMapVals keyed)).length - 1), g,
                        hv_gt s gi hsv (by omega), ?_, hmem⟩
                      rw [hP3 _ (by omega)]
                      have harith : gi + ((sortByHead (groupMapVals keyed)).length - 1)
                          - (sortByHead (groupMapVals keyed)).length + 1 = gi := by
                        omega
                      rw [harith]
                      exact hget
                  · -- the block of state 0 stays first
                    intro hn
                    obtain ⟨g₀, hg₀, hg₀h⟩ := hhead hn
                    rcases Nat.eq_zero_or_pos idx with hidx0 | hidx0
                    · subst hidx0
                      rw [hcg] at hg₀
                      injection hg₀ with hg₀'
                      subst hg₀'
                      have hkh : (keyed.map Prod.snd).head? = some 0 := by
                        rw [hvals]
                        exact hg₀h
                      obtain ⟨s₀, hs₀m, hs₀h⟩ := groupMapVals_head hkh
                      obtain ⟨gg, hgg, hggh⟩ := sortByHead_head0 hs₀m hs₀h
                        (fun g' hg' => (hblk g' hg').1)
                      refine ⟨gg, ?_, hggh⟩
                      rw [hP2 0 (by omega) (by omega)]
                      exact hgg
                    · refine ⟨g₀, ?_, hg₀h⟩
                      rw [hP1 0 hidx0]
                      exact hg₀

theorem set_get?_self {α : Type} :
    ∀ {l : List α} {i : Nat} {a : α}, l.get? i = some a → l.set i a = l := by
  intro l
  induction l with
  | nil => intro i a h; cases h
  | cons b t ih =>
    intro i a h
    cases i with
    | zero =>
      injection h with h'
      rw [List.set_cons_zero, h']
    | succ i =>
      rw [List.set_cons_succ, ih h]

/-- A partition of `n` states into nonempty blocks has at most `n`
blocks. -/
theorem partInv_groups_le {n : Nat} {groups : List (List Nat)} {sg : List Nat}
    (h : PartInv n groups sg) : groups.length ≤ n := by
  have hpw := partInv_pairwise h
  have hnd : (groups.map (fun g => g.headD 0)).Nodup := by
    rw [List.nodup_iff_getElem?_ne_getElem?]
    intro i j hij hjl
    rw [List.length_map] at hjl
    have hi : i < groups.length := by omega
    have hgi : groups.get? i = some groups[i] := by
      rw [List.get?_eq_getElem?]
      exact List.getElem?_eq_getElem hi
    have hgj : groups.get? j = some groups[j] := by
      rw [List.get?_eq_getElem?]
      exact List.getElem?_eq_getElem hjl
    obtain ⟨hne_i, _, hmem_i⟩ := h.2.1 i _ hgi
    obtain ⟨hne_j, _, hmem_j⟩ := h.2.1 j _ hgj
    have hdisj := (List.pairwise_iff_getElem.mp hpw) i j hi hjl hij
    rw [List.getElem?_map, List.getElem?_map, List.getElem?_eq_getElem hi,
      List.getElem?_eq_getElem hjl]
    simp only [Option.map_some', ne_eq, Option.some.injEq]
    intro heq
    cases hgi' : groups[i] with
    | nil => exact hne_i hgi'
    | cons a t =>
      cases hgj' : groups[j] with
      | nil => exact hne_j hgj'
      | cons b u =>
        rw [hgi', hgj'] at heq
        have ha : a ∈ groups[i] := by
          rw [hgi']
          exact List.mem_cons_self _ _
        have hb : b ∈ groups[j] := by
          rw [hgj']
          exact List.mem_cons_self _ _
        have hab : a = b := heq
        rw [hab] at ha
        exact hdisj b ha hb
  have hsub : (groups.map (fun g => g.headD 0)) ⊆ List.range n := by
    intro x hx
    obtain ⟨g, hg, hgx⟩ := List.mem_map.mp hx
    obtain ⟨gi, hgi⟩ := List.mem_iff_get?.mp hg
    obtain ⟨hne, _, hmem⟩ := h.2.1 gi g hgi
    rw [List.mem_range]
    cases hg' : g with
    | nil => exact absurd hg' hne
    | cons a t =>
      rw [hg'] at hgx
      rw [← hgx]
      have : a ∈ g := by
        rw [hg']
        exact List.mem_cons_self _ _
      exact (hmem a this).1
  have := List.Subperm.length_le (List.subperm_of_subset hnd hsub)
  rw [List.length_map, List.length_range] at this
  exact this

theorem forall2_get? {α β : Type} {R : α → β → Prop} :
    ∀ {l : List α} {r : List β}, List.Forall₂ R l r →
      ∀ {i : Nat} {a : α}, l.get? i = some a → ∃ b, r.get? i = some b ∧ R a b := by
  intro l r h
  induction h with
  | nil => intro i a h'; cases h'
  | cons h₁ _ ih =>
    intro i a h'
    cases i with
    | zero =>
      injection h' with h''
      exact ⟨_, rfl, h'' ▸ h₁⟩
    | succ i => exact ih h'

theorem foldl_max_const {m : Nat} :
    ∀ {ms : List Nat}, ms ≠ [] → (∀ v ∈ ms, v = m) → ms.foldl max 0 = m := by
  have haux : ∀ (t : List Nat), (∀ v ∈ t, v = m) → t.foldl max m = m := by
    intro t
    induction t with
    | nil => intro _; rfl
    | cons v u ih =>
      intro hall
      rw [List.foldl_cons, hall v (List.mem_cons_self _ _), Nat.max_self]
      exact ih (fun w hw => hall w (List.mem_cons_of_mem _ hw))
  intro ms hne hall
  cases ms with
  | nil => exact absurd rfl hne
  | cons v t =>
    rw [List.foldl_cons, hall v (List.mem_cons_self _ _), Nat.zero_max]
    exact haux t (fun w hw => hall w (List.mem_cons_of_mem _ hw))

theorem mem_of_head? {α : Type} {l : List α} {a : α} (h : l.head? = some a) :
    a ∈ l := by
  cases l with
  | nil => cases h
  | cons b t =>
    injection h with h'
    rw [← h']
    exact List.mem_cons_self _ _

/-- `DfaCloud::get_group_transitions` under the identity translation: it
returns the first member's row mapped through `state_groups`. -/
theorem getGroupTransitions_ok {cloud : DfaCloud} {n : Nat}
    (hpart : PartInv n cloud.groups cloud.stateGroups)
    (hstl : cloud.stateTransition.length = n)
    (htgt : ∀ row ∈ cloud.stateTransition, ∀ y ∈ row, y < n)
    {gi : Nat} {g : List Nat} (hget : cloud.groups.get? gi = some g) :
    ∃ first row row', g.head? = some first ∧
      cloud.stateTransition.get? first = some row ∧
      cloud.getGroupTransitions gi (some (List.range n)) = some row' ∧
      List.Forall₂ (fun y gy => cloud.stateGroups.get? y = some gy) row row' := by
  obtain ⟨hne, _, hmem⟩ := hpart.2.1 gi g hget
  have hGle := partInv_groups_le hpart
  obtain ⟨first, hfirst⟩ : ∃ first, g.head? = some first := by
    cases hg' : g with
    | nil => exact absurd hg' hne
    | cons a t => exact ⟨a, rfl⟩
  have hfn : first < n := (hmem first (mem_of_head? hfirst)).1
  obtain ⟨row, hrow⟩ : ∃ row, cloud.stateTransition.get? first = some row :=
    ⟨_, List.get?_eq_get (by omega)⟩
  have hsgval : ∀ x, x < n → ∃ gx, cloud.stateGroups.get? x = some gx ∧ gx < n := by
    intro x hx
    obtain ⟨gi', g', h1, h2, _⟩ := hpart.2.2 x hx
    have := (get?_bound_val h2).1
    exact ⟨gi', h1, by omega⟩
  obtain ⟨row', hmapM, hfar⟩ := @mapM_option_some Nat Nat
    (fun x => (cloud.stateGroups.get? x).bind (fun gx => (List.range n).get? gx))
    row (fun x hx => by
      obtain ⟨gx, hgx, hgxn⟩ := hsgval x (htgt row (List.get?_mem hrow) x hx)
      refine ⟨gx, ?_⟩
      show (cloud.stateGroups.get? x).bind (fun gx => (List.range n).get? gx) = some gx
      rw [hgx, Option.some_bind, List.get?_range hgxn])
  refine ⟨first, row, row', hfirst, hrow, ?_, ?_⟩
  · show (do
      let group ← cloud.groups.get? gi
      let first ← group.head?
      let row ← cloud.stateTransition.get? first
      row.mapM (fun x => do
        let gx ← cloud.stateGroups.get? x
        match some (List.range n) with
        | some map => map.get? gx
        | none => some gx)) = some row'
    rw [hget]
    simp only [Option.bind_eq_bind, Option.some_bind]
    rw [hfirst]
    simp only [Option.some_bind]
    rw [hrow]
    simp only [Option.some_bind]
    exact hmapM
  · refine List.Forall₂.imp ?_ hfar
    intro y gy hf
    have hf' : (cloud.stateGroups.get? y).bind (fun gx => (List.range n).get? gx)
        = some gy := hf
    cases hsy : cloud.stateGroups.get? y with
    | none =>
      rw [hsy, Option.none_bind] at hf'
      cases hf'
    | some gx =>
      rw [hsy, Option.some_bind] at hf'
      obtain ⟨hb, he⟩ := get?_bound_val hf'
      rw [List.getElem_range] at he
      rw [he]

/-- The emission fold of `DfaCloud::into_dfa_graph` with start block 0 and
the identity translation: it emits one row and one mark per group, in
order. -/
theorem intoFold_aux {cloud : DfaCloud} {n : Nat}
    (hpart : PartInv n cloud.groups cloud.stateGroups)
    (hstl : cloud.stateTransition.length = n) (hml : cloud.marks.length = n)
    (htgt : ∀ row ∈ cloud.stateTransition, ∀ y ∈ row, y < n)
    (row'₀ : List Nat) :
    ∀ (m : Nat), m ≤ cloud.groups.length →
      ∃ tg mk, (List.range m).foldlM
        (fun (acc : List (List Nat) × List Nat) i => do
          let (transition, marks) := acc
          let group ← cloud.groups.get? i
          let groupMarks ← group.mapM (fun x => cloud.marks.get? x)
          let tIdx ← (List.range n).get? i
          let marks ← setAt marks tIdx (groupMarks.foldl max 0)
          if i ≠ 0 then
            return (transition ++
              [← cloud.getGroupTransitions i (some (List.range n))], marks)
          else
            return (transition, marks))
        ([row'₀], List.replicate cloud.groups.length 0) = some (tg, mk) ∧
      tg.length = max m 1 ∧ mk.length = cloud.groups.length ∧
      tg.get? 0 = some row'₀ ∧
      (∀ gi, 0 < gi → gi < m →
        ∃ r, cloud.getGroupTransitions gi (some (List.range n)) = some r ∧
          tg.get? gi = some r) ∧
      (∀ gi g, gi < m → cloud.groups.get? gi = some g →
        ∃ ms, g.mapM (fun x => cloud.marks.get? x) = some ms ∧
          mk.get? gi = some (ms.foldl max 0)) := by
  have hGle := partInv_groups_le hpart
  intro m
  induction m with
  | zero =>
    intro _
    refine ⟨[row'₀], List.replicate cloud.groups.length 0, rfl, rfl,
      List.length_replicate _ _, rfl, ?_, ?_⟩
    · intro gi h1 h2
      omega
    · intro gi g h1 _
      omega
  | succ m ih =>
    intro hm
    have hmL : m < cloud.groups.length := by omega
    obtain ⟨tg, mk, heq, htgl, hmkl, htg0, htgs, hmks⟩ := ih (by omega)
    obtain ⟨g, hg⟩ : ∃ g, cloud.groups.get? m = some g := ⟨_, List.get?_eq_get hmL⟩
    obtain ⟨hgne, _, hgmem⟩ := hpart.2.1 m g hg
    obtain ⟨ms, hms, _⟩ := @mapM_option_some Nat Nat (fun x => cloud.marks.get? x)
      g (fun x hx => ⟨_, List.get?_eq_get (by
        rw [hml]
        exact (hgmem x hx).1)⟩)
    have hrm : (List.range n).get? m = some m := List.get?_range (by omega)
    have hset : setAt mk m (ms.foldl max 0) = some (mk.set m (ms.foldl max 0)) :=
      setAt_eq (by rw [hmkl]; omega)
    rw [List.range_succ, List.foldlM_append, heq]
    simp only [Option.bind_eq_bind, Option.some_bind]
    rw [List.foldlM_cons]
    by_cases hm0 : m = 0
    · subst hm0
      refine ⟨tg, mk.set 0 (ms.foldl max 0), ?_, by simpa using htgl,
        by rw [List.length_set]; exact hmkl, htg0, ?_, ?_⟩
      · rw [hg]
        simp only [Option.bind_eq_bind, Option.some_bind]
        rw [hms]
        simp only [Option.some_bind]
        rw [hrm]
        simp only [Option.some_bind]
        rw [hset]
        simp only [Option.some_bind, ne_eq, not_true_eq_false, if_false]
        rfl
      · intro gi h1 h2
        omega
      · intro gi g' h1 hg'
        have hgi0 : gi = 0 := by omega
        subst hgi0
        rw [hg] at hg'
        injection hg' with he
        subst he
        exact ⟨ms, hms, by rw [get?_set_self' (by rw [hmkl]; omega)]⟩
    · obtain ⟨first, rowf, r, hfirst, hrowf, hggt, hfar⟩ :=
        getGroupTransitions_ok hpart hstl htgt hg
      have htgm : tg.length = m := by omega
      refine ⟨tg ++ [r], mk.set m (ms.foldl max 0), ?_,
        by rw [List.length_append, htgm]; exact (Nat.max_eq_left (by omega)).symm,
        by rw [List.length_set]; exact hmkl, ?_, ?_, ?_⟩
      · rw [hg]
        simp only [Option.bind_eq_bind, Option.some_bind]
        rw [hms]
        simp only [Option.some_bind]
        rw [hrm]
        simp only [Option.some_bind]
        rw [hset]
        simp only [Option.some_bind, ne_eq, hm0, not_false_eq_true, if_true]
        rw [hggt]
        simp only [Option.some_bind]
        rfl
      · rw [List.get?_append (by omega)]
        exact htg0
      · intro gi h1 h2
        rcases Nat.lt_or_ge gi m with hgi | hgi
        · obtain ⟨r', hr'1, hr'2⟩ := htgs gi h1 hgi
          refine ⟨r', hr'1, ?_⟩
          rw [List.get?_append (by omega)]
          exact hr'2
        · have hgim : gi = m := by omega
          subst hgim
          refine ⟨r, hggt, ?_⟩
          have := List.get?_concat_length tg r
          rw [htgm] at this
          exact this
      · intro gi g' h1 hg'
        rcases Nat.lt_or_ge gi m with hgi | hgi
        · obtain ⟨ms', hms'1, hms'2⟩ := hmks gi g' hgi hg'
          refine ⟨ms', hms'1, ?_⟩
          rw [get?_set_ne' (by omega)]
          exact hms'2
        · have hgim : gi = m := by omega
          subst hgim
          rw [hg] at hg'
          injection hg' with he
          subst he
          exact ⟨ms, hms, by rw [get?_set_self' (by rw [hmkl]; omega)]⟩

/-- `DfaCloud::into_dfa_graph` on a partition whose start block is first:
one row and one mark per group, rows following `state_groups`. -/
theorem intoDfaGraph_ok {cloud : DfaCloud} {n : Nat}
    (hpart : PartInv n cloud.groups cloud.stateGroups) (hH0 : Head0 cloud.groups)
    (hn : 0 < n) (hsgl : cloud.stateGroups.length = n)
    (hstl : cloud.stateTransition.length = n) (hml : cloud.marks.length = n)
    (htgt : ∀ row ∈ cloud.stateTransition, ∀ y ∈ row, y < n) :
    ∃ tg mk, cloud.intoDfaGraph = some (tg, mk) ∧
      tg.length = cloud.groups.length ∧ mk.length = cloud.groups.length ∧
      (∀ gi g, cloud.groups.get? gi = some g →
        (∃ first row row', g.head? = some first ∧
          cloud.stateTransition.get? first = some row ∧ tg.get? gi = some row' ∧
          List.Forall₂ (fun y gy => cloud.stateGroups.get? y = some gy) row row') ∧
        ∃ ms, g.mapM (fun x => cloud.marks.get? x) = some ms ∧
          mk.get? gi = some (ms.foldl max 0)) := by
  obtain ⟨g₀, hg₀, hg₀h⟩ := hH0
  have h0mem : (0 : Nat) ∈ g₀ := mem_of_head? hg₀h
  have hsg0 : cloud.stateGroups.get? 0 = some 0 :=
    ((hpart.2.1 0 g₀ hg₀).2.2 0 h0mem).2
  have hr0 : (List.range cloud.stateGroups.length).get? 0 = some 0 := by
    rw [hsgl]
    exact List.get?_range hn
  have htr : ((List.range cloud.stateGroups.length).set 0 0).set 0 0
      = List.range n := by
    rw [set_get?_self hr0, set_get?_self hr0, hsgl]
  obtain ⟨first₀, row₀, row'₀, hfst₀, hrow₀, hggt₀, hfar₀⟩ :=
    getGroupTransitions_ok hpart hstl htgt hg₀
  have hLpos : 0 < cloud.groups.length := (get?_bound_val hg₀).1
  obtain ⟨tg, mk, hfold, htgl, hmkl, htg0, htgs, hmks⟩ :=
    intoFold_aux hpart hstl hml htgt row'₀ cloud.groups.length (Nat.le_refl _)
  refine ⟨tg, mk, ?_, by rw [htgl]; exact Nat.max_eq_left hLpos, hmkl, ?_⟩
  · unfold DfaCloud.intoDfaGraph
    rw [hsg0]
    simp only [Option.bind_eq_bind, Option.some_bind]
    rw [hr0]
    simp only [Option.some_bind]
    rw [htr, hggt₀]
    simp only [Option.some_bind]
    exact hfold
  · intro gi g hget
    constructor
    · rcases Nat.eq_zero_or_pos gi with h0 | hpos
      · subst h0
        rw [hg₀] at hget
        injection hget with he
        subst he
        exact ⟨first₀, row₀, row'₀, hfst₀, hrow₀, htg0, hfar₀⟩
      · obtain ⟨r, hr1, hr2⟩ := htgs gi hpos (get?_bound_val hget).1
        obtain ⟨first, row, row', hf, hr, hg2, hfar⟩ :=
          getGroupTransitions_ok hpart hstl htgt hget
        rw [hg2] at hr1
        injection hr1 with he
        subst he
        exact ⟨first, row, row', hf, hr, hr2, hfar⟩
    · exact hmks gi g (get?_bound_val hget).1 hget

/-- The emitted DFA runs in lockstep with the original DFA: state `s` of
the original corresponds to the index of its block. -/
theorem minimized_bisim {d : Dfa} {n : Nat} {G : List (List Nat)} {SG : List Nat}
    {tg : List (List Nat)} {mk : List Nat}
    (htgt : ∀ row ∈ d.transition, ∀ y ∈ row, y < n)
    (hpart : PartInv n G SG)
    (hrowU : ∀ g ∈ G, rowUniform d.transition g)
    (hmkU : ∀ g ∈ G, marksUniform d.marks g)
    (hmlen : d.marks.length = n)
    (hspec : ∀ gi g, G.get? gi = some g →
      (∃ first row row', g.head? = some first ∧
        d.transition.get? first = some row ∧ tg.get? gi = some row' ∧
        List.Forall₂ (fun y gy => SG.get? y = some gy) row row') ∧
      ∃ ms, g.mapM (fun x => d.marks.get? x) = some ms ∧
        mk.get? gi = some (ms.foldl max 0)) :
    ∀ (w : List Char) (s gi : Nat), s < n → SG.get? s = some gi →
      acceptsLoop ⟨mk, tg, d.symbolIndices⟩ gi w = acceptsLoop d s w := by
  intro w
  induction w with
  | nil =>
    intro s gi hs hsg
    obtain ⟨gi', g, hsg', hget, hmem⟩ := hpart.2.2 s hs
    rw [hsg] at hsg'
    injection hsg' with he
    subst he
    obtain ⟨_, ms, hms, hmkv⟩ := hspec gi g hget
    obtain ⟨vs, hvs⟩ : ∃ vs, d.marks.get? s = some vs :=
      ⟨_, List.get?_eq_get (by omega)⟩
    have hmsall : ∀ v ∈ ms, v = vs := by
      intro v hv
      obtain ⟨x, hxg, hfx⟩ := forall2_mem_right (mapM_option_forall2 hms) v hv
      have huni := hmkU g (List.get?_mem hget) x hxg s hmem
      rw [hvs] at huni
      rw [huni] at hfx
      injection hfx with he'
      exact he'.symm
    have hmsne : ms ≠ [] := by
      intro hnil
      have hlen := List.Forall₂.length_eq (mapM_option_forall2 hms)
      rw [hnil] at hlen
      exact (hpart.2.1 gi g hget).1 (List.length_eq_zero.mp hlen)
    have hfoldv : ms.foldl max 0 = vs := foldl_max_const hmsne hmsall
    show (mk.get? gi).map (fun m => decide (m > 0))
      = (d.marks.get? s).map (fun m => decide (m > 0))
    rw [hmkv, hvs, hfoldv]
  | cons c rest ih =>
    intro s gi hs hsg
    obtain ⟨gi', g, hsg', hget, hmem⟩ := hpart.2.2 s hs
    rw [hsg] at hsg'
    injection hsg' with he
    subst he
    obtain ⟨⟨first, row, row', hf, hrw, htgv, hfar⟩, _⟩ := hspec gi g hget
    have hsrow : d.transition.get? s = some row := by
      have huni := hrowU g (List.get?_mem hget) s hmem first (mem_of_head? hf)
      rw [huni, hrw]
    simp only [acceptsLoop]
    cases hlu : List.lookup c d.symbolIndices with
    | none => rfl
    | some σ =>
      simp only [Option.bind_eq_bind]
      rw [htgv, hsrow]
      simp only [Option.some_bind]
      cases hre : row.get? σ with
      | none =>
        have hlen := List.Forall₂.length_eq hfar
        have hre' : row'.get? σ = none := by
          rw [List.get?_eq_none] at hre ⊢
          omega
        rw [hre']
        rfl
      | some y =>
        obtain ⟨gy, hgy1, hgy2⟩ := forall2_get? hfar hre
        rw [hgy1]
        simp only [Option.some_bind]
        exact ih y gy (htgt _ (List.get?_mem hsrow) y (List.get?_mem hre)) hgy2

/-- `Dfa::minimized` preserves the whole accept function. -/
theorem minimizedF_accepts {d : Dfa} {fuel : Nat} {dmin : Dfa}
    (h : Dfa.minimizedF fuel d = some dmin)
    (hml : d.marks.length = d.transition.length) (hn : 0 < d.marks.length)
    (htgt : ∀ row ∈ d.transition, ∀ y ∈ row, y < d.marks.length) :
    ∀ w, dmin.accepts w = d.accepts w := by
  obtain ⟨hpart0, hH00⟩ := fromDfa_partInv d hn
  unfold Dfa.minimizedF at h
  simp only [Option.bind_eq_bind] at h
  cases hdl : divideLoop (DfaCloud.fromDfa d).stateTransition fuel
      (DfaCloud.fromDfa d).groups (DfaCloud.fromDfa d).stateGroups 0 with
  | none =>
    rw [hdl] at h
    cases h
  | some pr =>
    obtain ⟨G, SG⟩ := pr
    rw [hdl] at h
    simp only [Option.bind_eq_bind, Option.some_bind] at h
    obtain ⟨hpartG, hheadG⟩ := divideLoop_partInv hpart0 (fun _ => hH00) hdl
    have hH0G : Head0 G := hheadG hn
    have hrowU : ∀ g ∈ G, rowUniform d.transition g :=
      divideLoop_rowUniform hdl (fun g hg => absurd hg (List.not_mem_nil g))
    have hmkU : ∀ g ∈ G, marksUniform d.marks g := by
      intro g hg
      obtain ⟨g₀, hg₀, hsub⟩ := divideLoop_groups_sub hdl g hg
      have huni := fromDfa_groups_marksUniform d g₀ hg₀
      intro x hx y hy
      exact huni x (hsub x hx) y (hsub y hy)
    obtain ⟨tg, mk, heq, htgl, hmkl, hspec⟩ :=
      @intoDfaGraph_ok ⟨d.transition, G, SG, d.marks⟩
        d.marks.length hpartG hH0G hn hpartG.1 hml.symm rfl htgt
    have hst2 : (DfaCloud.fromDfa d).stateTransition = d.transition := rfl
    have hmk2 : (DfaCloud.fromDfa d).marks = d.marks := rfl
    rw [hst2, hmk2] at h
    rw [heq] at h
    simp only [Option.some_bind] at h
    have hde : dmin = ⟨mk, tg, d.symbolIndices⟩ := by
      cases h
      rfl
    subst hde
    obtain ⟨g₀, hg₀, hg₀h⟩ := hH0G
    have hsg0 : SG.get? 0 = some 0 :=
      ((hpartG.2.1 0 g₀ hg₀).2.2 0 (mem_of_head? hg₀h)).2
    intro w
    exact minimized_bisim htgt hpartG hrowU hmkU rfl hspec w 0 0 hn hsg0

theorem tableWF_mono {w n n' : Nat} {t : List (List (Option (List Nat)))}
    (h : n ≤ n') (hwf : TableWF w n t) : TableWF w n' t :=
  ⟨hwf.1, fun row hr cell hc tg ht => Nat.lt_of_lt_of_le (hwf.2 row hr cell hc tg ht) h⟩

theorem tableWF_append {w n : Nat} {t₁ t₂ : List (List (Option (List Nat)))}
    (h₁ : TableWF w n t₁) (h₂ : TableWF w n t₂) : TableWF w n (t₁ ++ t₂) := by
  constructor
  · intro row hr
    rcases List.mem_append.mp hr with h | h
    · exact h₁.1 row h
    · exact h₂.1 row h
  · intro row hr cell hc tg ht
    rcases List.mem_append.mp hr with h | h
    · exact h₁.2 row h cell hc tg ht
    · exact h₂.2 row h cell hc tg ht

theorem tableWF_shifted {w : Nat} {b : NfaFragment} {k : Nat}
    (hb : TableWF w b.transition.length b.transition) :
    TableWF w (b.transition.length + k) (b.shifted k).transition := by
  constructor
  · intro row hr
    obtain ⟨row₀, hr₀, hre⟩ := List.mem_map.mp hr
    rw [← hre, List.length_map]
    exact hb.1 row₀ hr₀
  · intro row hr cell hc tg ht
    obtain ⟨row₀, hr₀, hre⟩ := List.mem_map.mp hr
    rw [← hre] at hc
    obtain ⟨cell₀, hc₀, hce⟩ := List.mem_map.mp hc
    rw [← hce] at ht
    cases cell₀ with
    | none => simp at ht
    | some states =>
      simp only [Option.map_some', Option.getD_some] at ht
      obtain ⟨t₀, ht₀, hte⟩ := List.mem_map.mp ht
      rw [← hte]
      have := hb.2 _ hr₀ _ hc₀ t₀ ht₀
      omega

theorem tableAdd_some {t : List (List (Option (List Nat)))} {i j tgt : Nat}
    {row : List (Option (List Nat))}
    (hi : t.get? i = some row) (hj : j < row.length) :
    ∃ cell, row.get? j = some cell ∧
      tableAdd t i j tgt
        = some (t.set i (row.set j (some ((cell.getD []) ++ [tgt])))) := by
  obtain ⟨cell, hc⟩ : ∃ cell, row.get? j = some cell := ⟨_, List.get?_eq_get hj⟩
  refine ⟨cell, hc, ?_⟩
  unfold tableAdd
  simp only [hi, hc]

theorem tableWF_tableAdd {w n : Nat} {t t' : List (List (Option (List Nat)))}
    {i j tgt : Nat} (h : tableAdd t i j tgt = some t')
    (hwf : TableWF w n t) (htgt : tgt < n) :
    TableWF w n t' ∧ t'.length = t.length := by
  unfold tableAdd at h
  cases hi : t.get? i with
  | none =>
    rw [hi] at h
    cases h
  | some row =>
    simp only [hi] at h
    cases hj : row.get? j with
    | none =>
      simp only [hj] at h
      cases h
    | some cell =>
      simp only [hj] at h
      injection h with he
      subst he
      refine ⟨⟨?_, ?_⟩, List.length_set _ _ _⟩
      · intro row' hr'
        rcases List.mem_or_eq_of_mem_set hr' with hm | hm
        · exact hwf.1 row' hm
        · rw [hm, List.length_set]
          exact hwf.1 row (List.get?_mem hi)
      · intro row' hr' cell' hc' tg ht
        rcases List.mem_or_eq_of_mem_set hr' with hm | hm
        · exact hwf.2 row' hm cell' hc' tg ht
        · rw [hm] at hc'
          rcases List.mem_or_eq_of_mem_set hc' with hm' | hm'
          · exact hwf.2 row (List.get?_mem hi) cell' hm' tg ht
          · rw [hm'] at ht
            rw [Option.getD_some] at ht
            rcases List.mem_append.mp ht with hm'' | hm''
            · exact hwf.2 row (List.get?_mem hi) cell (List.get?_mem hj) tg hm''
            · rw [List.mem_singleton.mp hm'']
              exact htgt

theorem findIdx?_lt_length_aux {α : Type} {p : α → Bool} :
    ∀ (l : List α) (s i : Nat), List.findIdx? p l s = some i → i < s + l.length := by
  intro l
  induction l with
  | nil =>
    intro s i h
    rw [List.findIdx?_nil] at h
    cases h
  | cons a t ih =>
    intro s i h
    rw [List.findIdx?_cons] at h
    by_cases hp : p a
    · rw [if_pos hp] at h
      injection h with he
      subst he
      simp only [List.length_cons]
      omega
    · rw [if_neg hp] at h
      have := ih (s + 1) i h
      simp only [List.length_cons]
      omega

theorem head?_of_pos {α : Type} {l : List α} (h : 0 < l.length) :
    ∃ a, l.head? = some a ∧ a ∈ l := by
  cases l with
  | nil => simp at h
  | cons a t => exact ⟨a, rfl, List.mem_cons_self _ _⟩

theorem symbol_wf {c : Char} {alphabet : List Char} {f : NfaFragment}
    (h : NfaFragment.symbol c alphabet = some f) : FragWF alphabet.length f := by
  unfold NfaFragment.symbol at h
  cases hidx : alphabet.findIdx? (· = c) with
  | none =>
    rw [hidx] at h
    cases h
  | some index =>
    rw [hidx] at h
    injection h with he
    subst he
    refine ⟨by simp, ⟨?_, ?_⟩, by simp, ?_⟩
    · intro row hr
      rw [List.mem_singleton.mp hr, List.length_replicate]
    · intro row hr cell hc tg ht
      rw [List.mem_singleton.mp hr] at hc
      rw [List.eq_of_mem_replicate hc] at ht
      simp at ht
    · intro j hj
      injection hj with he'
      have hlt := findIdx?_lt_length_aux alphabet 0 index hidx
      omega

theorem epsilon_wf {alphabet : List Char} :
    FragWF alphabet.length (NfaFragment.epsilon alphabet) := by
  refine ⟨by simp [NfaFragment.epsilon], ⟨?_, ?_⟩, by simp [NfaFragment.epsilon], ?_⟩
  · intro row hr
    rw [List.mem_singleton.mp hr, List.length_replicate]
  · intro row hr cell hc tg ht
    rw [List.mem_singleton.mp hr] at hc
    rw [List.eq_of_mem_replicate hc] at ht
    simp at ht
  · intro j hj
    cases hj

theorem concatenate_wf {a b f : NfaFragment} {w : Nat}
    (ha : FragWF w a) (hb : FragWF w b)
    (h : NfaFragment.concatenate a b = some f) : FragWF w f := by
  unfold NfaFragment.concatenate at h
  obtain ⟨row0, hrow0, hr0mem⟩ := head?_of_pos ha.1
  have hr0len : row0.length = w + 1 := ha.2.1.1 row0 hr0mem
  simp only [hrow0, Option.bind_eq_bind, Option.some_bind] at h
  have hTwf : TableWF w (a.transition.length + b.transition.length)
      (a.transition ++ (b.shifted a.transition.length).transition) :=
    tableWF_append
      (tableWF_mono (by omega) ha.2.1)
      (by
        have := @tableWF_shifted _ b a.transition.length hb.2.1
        exact tableWF_mono (by omega) this)
  cases htA : tableAdd (a.transition ++ (b.shifted a.transition.length).transition)
      a.out.1 (a.out.2.getD (row0.length - 1)) a.transition.length with
  | none =>
    rw [htA] at h
    cases h
  | some t' =>
    rw [htA] at h
    injection h with he
    subst he
    obtain ⟨hT'wf, hT'len⟩ := tableWF_tableAdd htA hTwf (by
      have := hb.1
      omega)
    have hlen2 : t'.length = a.transition.length + b.transition.length := by
      rw [hT'len, List.length_append]
      simp [NfaFragment.shifted]
    refine ⟨?_, ?_, ?_, ?_⟩
    · show 0 < t'.length
      have := ha.1
      omega
    · show TableWF w t'.length t'
      rw [hlen2]
      exact hT'wf
    · show b.out.1 + a.transition.length < t'.length
      rw [hlen2]
      have := hb.2.2.1
      omega
    · intro j hj
      exact hb.2.2.2 j hj

theorem funion_wf {a b f : NfaFragment} {w : Nat}
    (ha : FragWF w a) (hb : FragWF w b)
    (h : NfaFragment.funion a b = some f) : FragWF w f := by
  unfold NfaFragment.funion at h
  obtain ⟨row0, hrow0, hr0mem⟩ := head?_of_pos ha.1
  have hr0len : row0.length = w + 1 := ha.2.1.1 row0 hr0mem
  have hapos := ha.1
  have hbpos := hb.1
  simp only [hrow0, Option.bind_eq_bind, Option.some_bind] at h
  rw [Option.bind_eq_some] at h
  obtain ⟨t₁, htA1, h⟩ := h
  rw [Option.bind_eq_some] at h
  obtain ⟨t₂, htA2, h⟩ := h
  injection h with he
  subst he
  set T₁ := [(List.replicate (row0.length - 1 + 1) (none : Option (List Nat))).set
      (row0.length - 1) (some [1, 1 + a.transition.length])]
    ++ (a.shifted 1).transition ++ (b.shifted (1 + a.transition.length)).transition
    ++ [List.replicate (row0.length - 1 + 1) (none : Option (List Nat))] with hT₁
  have hT₁len : T₁.length = a.transition.length + b.transition.length + 2 := by
    rw [hT₁]
    simp [NfaFragment.shifted]
    omega
  have hTwf : TableWF w (a.transition.length + b.transition.length + 2) T₁ := by
    rw [hT₁]
    refine tableWF_append (tableWF_append (tableWF_append ?_ ?_) ?_) ?_
    · constructor
      · intro row hr
        rw [List.mem_singleton.mp hr, List.length_set, List.length_replicate]
        omega
      · intro row hr cell hc tg ht
        rw [List.mem_singleton.mp hr] at hc
        rcases List.mem_or_eq_of_mem_set hc with hm | hm
        · rw [List.eq_of_mem_replicate hm] at ht
          simp at ht
        · rw [hm, Option.getD_some] at ht
          rcases List.mem_cons.mp ht with he | he
          · omega
          · rw [List.mem_singleton.mp he]
            omega
    · exact tableWF_mono (by omega) (@tableWF_shifted _ a 1 ha.2.1)
    · exact tableWF_mono (by omega)
        (@tableWF_shifted _ b (1 + a.transition.length) hb.2.1)
    · constructor
      · intro row hr
        rw [List.mem_singleton.mp hr, List.length_replicate]
        omega
      · intro row hr cell hc tg ht
        rw [List.mem_singleton.mp hr] at hc
        rw [List.eq_of_mem_replicate hc] at ht
        simp at ht
  obtain ⟨hT₂wf, hT₂len⟩ := tableWF_tableAdd htA1 hTwf (by omega)
  obtain ⟨hT₃wf, hT₃len⟩ := tableWF_tableAdd htA2 hT₂wf (by omega)
  have hfin : t₂.length = a.transition.length + b.transition.length + 2 := by
    rw [hT₃len, hT₂len, hT₁len]
  refine ⟨?_, ?_, ?_, ?_⟩
  · show 0 < t₂.length
    omega
  · show TableWF w t₂.length t₂
    rw [hfin]
    exact hT₃wf
  · show T₁.length - 1 < t₂.length
    omega
  · intro j hj
    cases hj

theorem star_wf {old f : NfaFragment} {w : Nat}
    (ho : FragWF w old) (h : NfaFragment.star old = some f) : FragWF w f := by
  unfold NfaFragment.star at h
  obtain ⟨row0, hrow0, hr0mem⟩ := head?_of_pos ho.1
  have hr0len : row0.length = w + 1 := ho.2.1.1 row0 hr0mem
  have hopos := ho.1
  simp only [hrow0, Option.bind_eq_bind, Option.some_bind] at h
  rw [Option.bind_eq_some] at h
  obtain ⟨t₁, htA1, h⟩ := h
  injection h with he
  subst he
  have hTwf : TableWF w (old.transition.length + 1)
      ((List.replicate row0.length (none : Option (List Nat))).set
        (row0.length - 1) (some [1]) :: (old.shifted 1).transition) := by
    have hrest := @tableWF_mono _ _ (old.transition.length + 1) _ (by omega)
      (@tableWF_shifted _ old 1 ho.2.1)
    constructor
    · intro row hr
      rcases List.mem_cons.mp hr with he | hm
      · rw [he, List.length_set, List.length_replicate]
        omega
      · exact hrest.1 row hm
    · intro row hr cell hc tg ht
      rcases List.mem_cons.mp hr with he | hm
      · rw [he] at hc
        rcases List.mem_or_eq_of_mem_set hc with hm' | hm'
        · rw [List.eq_of_mem_replicate hm'] at ht
          simp at ht
        · rw [hm', Option.getD_some] at ht
          rw [List.mem_singleton.mp ht]
          omega
      · exact hrest.2 row hm cell hc tg ht
  obtain ⟨hT₂wf, hT₂len⟩ := tableWF_tableAdd htA1 hTwf (by omega)
  have hfin : t₁.length = old.transition.length + 1 := by
    rw [hT₂len]
    simp [NfaFragment.shifted]
  refine ⟨?_, ?_, ?_, ?_⟩
  · show 0 < t₁.length
    omega
  · show TableWF w t₁.length t₁
    rw [hfin]
    exact hT₂wf
  · show (0 : Nat) < t₁.length
    omega
  · intro j hj
    cases hj

/-- One step of the postfix evaluation keeps every stacked fragment
well-formed. -/
theorem fragStep_wf {alphabet : List Char} {stack : List NfaFragment} {esc : Bool}
    {token : Char} {st' : List NfaFragment × Bool}
    (h : fragStep alphabet (stack, esc) token = some st')
    (hwf : ∀ f ∈ stack, FragWF alphabet.length f) :
    ∀ f ∈ st'.1, FragWF alphabet.length f := by
  simp only [fragStep] at h
  split at h
  case isTrue hesc =>
    split at h
    case isTrue =>
      injection h with he
      subst he
      intro f hf
      rcases List.mem_cons.mp hf with rfl | hf'
      · exact epsilon_wf
      · exact hwf f hf'
    case isFalse =>
      cases hsym : NfaFragment.symbol token alphabet with
      | none =>
        rw [hsym, Option.map_none'] at h
        cases h
      | some g =>
        rw [hsym, Option.map_some'] at h
        injection h with he
        subst he
        intro f hf
        rcases List.mem_cons.mp hf with rfl | hf'
        · exact symbol_wf hsym
        · exact hwf f hf'
  case isFalse hesc =>
    split at h
    case isTrue =>
      injection h with he
      subst he
      exact hwf
    case isFalse =>
      split at h
      case isTrue =>
        cases hsym : NfaFragment.symbol token alphabet with
        | none =>
          rw [hsym, Option.map_none'] at h
          cases h
        | some g =>
          rw [hsym, Option.map_some'] at h
          injection h with he
          subst he
          intro f hf
          rcases List.mem_cons.mp hf with rfl | hf'
          · exact symbol_wf hsym
          · exact hwf f hf'
      case isFalse =>
        split at h
        case isTrue =>
          cases stack with
          | nil => cases h
          | cons f0 rest =>
            have h' : (NfaFragment.star f0).map
                (fun g => (g :: rest, false)) = some st' := h
            cases hstar : NfaFragment.star f0 with
            | none =>
              rw [hstar, Option.map_none'] at h'
              cases h'
            | some g =>
              rw [hstar, Option.map_some'] at h'
              injection h' with he
              subst he
              intro f hf
              rcases List.mem_cons.mp hf with rfl | hf'
              · exact star_wf (hwf f0 (List.mem_cons_self _ _)) hstar
              · exact hwf f (List.mem_cons_of_mem _ hf')
        case isFalse =>
          split at h
          case isTrue =>
            cases stack with
            | nil => cases h
            | cons f2 stack1 =>
              cases stack1 with
              | nil => cases h
              | cons f1 rest =>
                have h' : (NfaFragment.concatenate f1 f2).map
                    (fun g => (g :: rest, false)) = some st' := h
                cases hcc : NfaFragment.concatenate f1 f2 with
                | none =>
                  rw [hcc, Option.map_none'] at h'
                  cases h'
                | some g =>
                  rw [hcc, Option.map_some'] at h'
                  injection h' with he
                  subst he
                  intro f hf
                  rcases List.mem_cons.mp hf with rfl | hf'
                  · exact concatenate_wf
                      (hwf f1 (List.mem_cons_of_mem _ (List.mem_cons_self _ _)))
                      (hwf f2 (List.mem_cons_self _ _)) hcc
                  · exact hwf f
                      (List.mem_cons_of_mem _ (List.mem_cons_of_mem _ hf'))
          case isFalse =>
            split at h
            case isTrue =>
              cases stack with
              | nil => cases h
              | cons f2 stack1 =>
                cases stack1 with
                | nil => cases h
                | cons f1 rest =>
                  have h' : (NfaFragment.funion f1 f2).map
                      (fun g => (g :: rest, false)) = some st' := h
                  cases hun : NfaFragment.funion f1 f2 with
                  | none =>
                    rw [hun, Option.map_none'] at h'
                    cases h'
                  | some g =>
                    rw [hun, Option.map_some'] at h'
                    injection h' with he
                    subst he
                    intro f hf
                    rcases List.mem_cons.mp hf with rfl | hf'
                    · exact funion_wf
                        (hwf f1 (List.mem_cons_of_mem _ (List.mem_cons_self _ _)))
                        (hwf f2 (List.mem_cons_self _ _)) hun
                    · exact hwf f
                        (List.mem_cons_of_mem _ (List.mem_cons_of_mem _ hf'))
            case isFalse => cases h

theorem fragFold_wf {alphabet : List Char} :
    ∀ (toks : List Char) (st st' : List NfaFragment × Bool),
      (∀ f ∈ st.1, FragWF alphabet.length f) →
      toks.foldlM (fragStep alphabet) st = some st' →
      ∀ f ∈ st'.1, FragWF alphabet.length f := by
  intro toks
  induction toks with
  | nil =>
    intro st st' hwf h
    have h' : (some st : Option (List NfaFragment × Bool)) = some st' := h
    injection h' with he
    subst he
    exact hwf
  | cons t ts ih =>
    intro st st' hwf h
    rw [List.foldlM_cons] at h
    simp only [Option.bind_eq_bind] at h
    rw [Option.bind_eq_some] at h
    obtain ⟨st₁, h1, h2⟩ := h
    obtain ⟨stack, esc⟩ := st
    exact ih st₁ st' (fragStep_wf h1 hwf) h2

theorem fragFromRegex_wf {regex alphabet : List Char} {f : NfaFragment}
    (h : NfaFragment.fromRegex regex alphabet = some f) :
    FragWF alphabet.length f := by
  unfold NfaFragment.fromRegex at h
  cases hp : regexToPostfix regex with
  | none =>
    rw [hp] at h
    cases h
  | some pfix =>
    simp only [hp, Option.bind_eq_bind, Option.some_bind] at h
    rw [Option.bind_eq_some] at h
    obtain ⟨st, hfold, hhead⟩ := h
    obtain ⟨stack, esc⟩ := st
    have hh : stack.head? = some f := hhead
    have hall := fragFold_wf pfix ([], false) (stack, esc)
      (fun g hg => absurd hg (List.not_mem_nil g)) hfold
    exact hall f (mem_of_head? hh)

theorem hmOfList_mem {α β : Type} [DecidableEq α] :
    ∀ {l : List (α × β)} {p : α × β}, p ∈ hmOfList l → p ∈ l := by
  have haux : ∀ (l : List (α × β)) (m : List (α × β)) (p : α × β),
      p ∈ l.foldl (fun m q => hmInsert m q.1 q.2) m → p ∈ m ∨ p ∈ l := by
    intro l
    induction l with
    | nil =>
      intro m p hp
      exact Or.inl hp
    | cons q t ih =>
      intro m p hp
      rw [List.foldl_cons] at hp
      rcases ih (hmInsert m q.1 q.2) p hp with hm | ht
      · unfold hmInsert at hm
        rcases List.mem_cons.mp hm with he | hf
        · rw [he]
          exact Or.inr (List.mem_cons_self _ _)
        · exact Or.inl (List.mem_of_mem_filter hf)
      · exact Or.inr (List.mem_cons_of_mem _ ht)
  intro l p hp
  rcases haux l [] p hp with hm | hl
  · cases hm
  · exact hl

theorem hmOfList_length_nodup {α β : Type} [DecidableEq α] :
    ∀ {l : List (α × β)}, (l.map Prod.fst).Nodup →
      (hmOfList l).length = l.length := by
  have haux : ∀ (l : List (α × β)) (m : List (α × β)),
      (l.map Prod.fst).Nodup → (∀ p ∈ m, ∀ q ∈ l, p.1 ≠ q.1) →
      (l.foldl (fun m q => hmInsert m q.1 q.2) m).length = m.length + l.length := by
    intro l
    induction l with
    | nil =>
      intro m _ _
      simp
    | cons q t ih =>
      intro m hnd hdis
      rw [List.map_cons, List.nodup_cons] at hnd
      rw [List.foldl_cons]
      have hins : hmInsert m q.1 q.2 = (q.1, q.2) :: m := by
        unfold hmInsert
        congr 1
        refine List.filter_eq_self.mpr ?_
        intro p hp
        simp only [ne_eq, decide_eq_true_eq]
        exact hdis p hp q (List.mem_cons_self _ _)
      rw [hins, ih ((q.1, q.2) :: m) hnd.2 ?_]
      · simp only [List.length_cons]
        omega
      · intro p hp r hr
        rcases List.mem_cons.mp hp with he | hm
        · rw [he]
          intro hk
          exact hnd.1 (hk ▸ List.mem_map_of_mem Prod.fst hr)
        · exact hdis p hm r (List.mem_cons_of_mem _ hr)
  intro l hnd
  have := haux l [] hnd (fun p hp => absurd hp (List.not_mem_nil p))
  simpa using this

theorem symbolsTable_facts {alphabet : List Char} (hnd : alphabet.Nodup) :
    (hmOfList (alphabet.enum.map (fun p => (p.2, p.1)))).length = alphabet.length ∧
    ∀ p ∈ hmOfList (alphabet.enum.map (fun p => (p.2, p.1))),
      p.2 < alphabet.length := by
  have hkeys : ((alphabet.enum.map (fun p => (p.2, p.1))).map Prod.fst) = alphabet := by
    rw [List.map_map]
    have hcomp : (Prod.fst ∘ fun p : Nat × Char => (p.2, p.1)) = Prod.snd := rfl
    rw [hcomp, List.enum_map_snd]
  constructor
  · rw [hmOfList_length_nodup (by rw [hkeys]; exact hnd), List.length_map,
      List.enum_length]
  · intro p hp
    obtain ⟨q, hq, he⟩ := List.mem_map.mp (hmOfList_mem hp)
    rw [← he]
    have := (List.mem_enumFrom hq).2.1
    simpa using this

/-- Every NFA `Nfa::from_regex` builds over a duplicate-free alphabet is
well-formed. -/
theorem fromRegex_nfaWF {regex alphabet : List Char} {markNum : Nat} {nfa : Nfa}
    (hnd : alphabet.Nodup) (h : Nfa.fromRegex regex alphabet markNum = some nfa) :
    NfaWF nfa := by
  unfold Nfa.fromRegex at h
  cases hfr : NfaFragment.fromRegex regex alphabet with
  | none =>
    rw [hfr] at h
    cases h
  | some frag =>
    have hfw := fragFromRegex_wf hfr
    simp only [hfr, Option.bind_eq_bind, Option.some_bind] at h
    obtain ⟨row0, hrow0, hr0mem⟩ := head?_of_pos hfw.1
    simp only [hrow0, Option.some_bind] at h
    have hr0len : row0.length = alphabet.length + 1 := hfw.2.1.1 row0 hr0mem
    cases hout : frag.out with
    | mk o1 o2 =>
      simp only [hout] at h
      rw [Option.bind_eq_some] at h
      obtain ⟨t', htadd, h⟩ := h
      injection h with he
      subst he
      have hTwf : TableWF alphabet.length (frag.transition.length + 1)
          (frag.transition ++ [List.replicate row0.length none]) := by
        refine tableWF_append (tableWF_mono (by omega) hfw.2.1) ⟨?_, ?_⟩
        · intro row hr
          rw [List.mem_singleton.mp hr, List.length_replicate]
          exact hr0len
        · intro row hr cell hc tg ht
          rw [List.mem_singleton.mp hr] at hc
          rw [List.eq_of_mem_replicate hc] at ht
          simp at ht
      obtain ⟨hT'wf, hT'len⟩ := tableWF_tableAdd htadd
        (by
          have hl : (frag.transition ++ [List.replicate row0.length none]).length
              = frag.transition.length + 1 := by
            rw [List.length_append]
            rfl
          exact hTwf)
        (by
          rw [List.length_append]
          simp)
      have hlen' : t'.length = frag.transition.length + 1 := by
        rw [hT'len, List.length_append]
        rfl
      obtain ⟨hstl, hstb⟩ := symbolsTable_facts hnd
      refine ⟨?_, ?_, ?_, ?_⟩
      · show 0 < t'.length
        omega
      · show ((List.replicate
            (frag.transition ++
              [List.replicate row0.length (none : Option (List Nat))]).length 0).set
              ((frag.transition ++
                [List.replicate row0.length (none : Option (List Nat))]).length - 1)
              markNum).length = t'.length
        rw [List.length_set, List.length_replicate, List.length_append, hlen']
        rfl
      · intro row hr
        refine ⟨?_, ?_⟩
        · show row.length = (hmOfList (alphabet.enum.map (fun p => (p.2, p.1)))).length + 1
          rw [hstl]
          exact hT'wf.1 row hr
        · intro cell hc tg ht
          have := hT'wf.2 row hr cell hc tg ht
          show tg < t'.length
          omega
      · intro p hp
        show p.2 < (hmOfList (alphabet.enum.map (fun q => (q.2, q.1)))).length
        rw [hstl]
        exact hstb p hp

/-- C2: for every regex and every word over its alphabet, the NFA built by
`Nfa::from_regex` accepts the word if and only if the subset-construction
DFA built from that NFA accepts it, if and only if the minimized DFA (the
result of `Dfa::minimized`, as returned by `Dfa::from_nfa`) accepts it.
Stated over the fuelled embeddings: whenever the pipeline stages succeed,
the three acceptance notions agree, and the two DFA stages compose to
`Dfa.fromNfaF`. -/
theorem C2_regex_nfa_dfa_minimized_agree {regex alphabet : List Char}
    {markNum fuel : Nat} {nfa : Nfa} {d dmin : Dfa}
    (hnd : alphabet.Nodup)
    (hn : Nfa.fromRegex regex alphabet markNum = some nfa)
    (hd : Dfa.subsetDfaF fuel nfa = some d)
    (hm : Dfa.minimizedF fuel d = some dmin) (w : List Char) :
    Dfa.fromNfaF fuel nfa = some dmin ∧
    (nfaAccepts nfa w ↔ d.accepts w = some true) ∧
    (nfaAccepts nfa w ↔ dmin.accepts w = some true) := by
  have hwf := fromRegex_nfaWF hnd hn
  have hiff := subsetDfa_accepts hwf hd w
  obtain ⟨tbl, S₀, _, _, _, hlen, hpos, _, hbnd, _⟩ := subsetDfaF_ok hwf hd
  have hml : d.marks.length = d.transition.length := hlen.symm
  have hn0 : 0 < d.marks.length := by omega
  have htgt : ∀ row ∈ d.transition, ∀ y ∈ row, y < d.marks.length := by
    intro row hr y hy
    have := hbnd row hr y hy
    omega
  have heqmin := minimizedF_accepts hm hml hn0 htgt w
  refine ⟨?_, hiff.symm, ?_⟩
  · unfold Dfa.fromNfaF
    simp only [Option.bind_eq_bind, hd, Option.some_bind]
    exact hm
  · rw [heqmin]
    exact hiff.symm

/-- Witness for C2 at the regex "a" over alphabet "a" with mark 1 and
fuel 5: all three pipeline stages succeed on concrete values, and the
three acceptance notions agree on the word "a". -/
theorem C2_witness :
    Dfa.fromNfaF 5
        { marks := [0, 1], transition := [[some [1], none], [none, none]],
          symbolsTable := [('a', 0)] } =
      some { marks := [0, 0, 1], transition := [[2], [1], [1]],
             symbolIndices := [('a', 0)] } ∧
    (nfaAccepts
        { marks := [0, 1], transition := [[some [1], none], [none, none]],
          symbolsTable := [('a', 0)] } ['a'] ↔
      Dfa.accepts
        { marks := [0, 1, 0], transition := [[1], [2], [2]],
          symbolIndices := [('a', 0)] } ['a'] = some true) ∧
    (nfaAccepts
        { marks := [0, 1], transition := [[some [1], none], [none, none]],
          symbolsTable := [('a', 0)] } ['a'] ↔
      Dfa.accepts
        { marks := [0, 0, 1], transition := [[2], [1], [1]],
          symbolIndices := [('a', 0)] } ['a'] = some true) :=
  @C2_regex_nfa_dfa_minimized_agree ['a'] ['a'] 1 5
    { marks := [0, 1], transition := [[some [1], none], [none, none]],
      symbolsTable := [('a', 0)] }
    { marks := [0, 1, 0], transition := [[1], [2], [2]],
      symbolIndices := [('a', 0)] }
    { marks := [0, 0, 1], transition := [[2], [1], [1]],
      symbolIndices := [('a', 0)] }
    (by decide) (by rfl) (by rfl) (by rfl) ['a']

end Compiler
